import Mathlib

/-!
# GridWorld: a shallow embedding of `src/GridWorld.h`

The C++ class keeps a table `populationn` of heap-allocated `Person` objects, a
two-dimensional table `grid` of heap-allocated `District` objects, and a vector
`recentlyDead` of freed identifiers.  Every `Person` is allocated in `birth` and pushed
onto `populationn` in the same breath, and is never freed before the destructor runs, so
the address of a `Person` and its index in `populationn` determine each other.  A
`Person*` is therefore modelled as `Option Nat`: `none` is `nullptr`, `some i` is the
address of the object held in slot `i`.  A `District*` stored in `grid[r][c]` is modelled
as an `Option District` (the object is owned by that one grid slot).

C++ `int` is modelled by `Int` without wrap-around: every counter of the class is bounded
by the number of objects allocated, far below `2^31` on any run that fits in memory.

Operations return `Option`: `none` stands for a run that does not return a value
(null dereference, read or write outside a vector, or a traversal that never ends).

The development has two layers.  `Consistent` states the invariants of the data model;
`birth_outcome` and `death_outcome` describe what the two mutators do on a consistent
state, including that they keep it consistent.  `Sane` is the weaker invariant that
survives every call, also a `death` of a dead identifier; `reachable_sane` proves it for
every state reachable from the constructor.  `Tally` relates `population()` to the
counters of the districts in every reachable state.  The constructor is described in
closed form by `construct_of_le`, `construct_tall` and `construct_square`.
-/

/-- Mirror of `class Person` (lines 10-23). -/
structure Person where
  id : Int
  row : Int
  col : Int
  alive : Bool
  next : Option Nat
  prev : Option Nat
deriving DecidableEq, Repr

/-- Mirror of `class District` (lines 25-36). -/
structure District where
  r : Int
  c : Int
  pop : Int
  head : Option Nat
  tail : Option Nat
deriving DecidableEq, Repr

/-- Mirror of the private members of `class GridWorld` (lines 40-44). -/
structure GridWorld where
  ncols : Int
  nrows : Int
  pop : Int
  grid : List (List (Option District))
  populationn : List Person
  recentlyDead : List Int
deriving DecidableEq, Repr

namespace GridWorld

/-- Dereference of a `Person*` for reading: fails on `nullptr` and on a dangling address. -/
def deref (ps : List Person) (p : Option Nat) : Option Person :=
  p.bind fun i => ps[i]?

/-- Write through a `Person*`: `p->field = ...`; fails on `nullptr` and on a dangling
address. -/
def update (ps : List Person) (p : Option Nat) (f : Person → Person) :
    Option (List Person) :=
  match p with
  | none => none
  | some i =>
    match ps[i]? with
    | none => none
    | some x => some (ps.set i (f x))

/-- Read of `grid[r][c]` (a `District*`, possibly null).  The outer `Option` is the
vector access: an `int` index is converted to `size_t`, so a negative index is outside
every vector. -/
def cellAt (grid : List (List (Option District))) (r c : Int) :
    Option (Option District) :=
  if 0 ≤ r ∧ 0 ≤ c then (grid[r.toNat]?).bind fun rw => rw[c.toNat]? else none

/-- Write-back of the `District` object that `grid[r][c]` points to. -/
def setCell (grid : List (List (Option District))) (r c : Int) (d : District) :
    List (List (Option District)) :=
  match grid[r.toNat]? with
  | none => grid
  | some rw => grid.set r.toNat (rw.set c.toNat (some d))

/-- Test `row >= 0 && row < nrows && col >= 0 && col < ncols` (lines 84, 178, 188, 211). -/
def inBounds (g : GridWorld) (row col : Int) : Prop :=
  0 ≤ row ∧ row < g.nrows ∧ 0 ≤ col ∧ col < g.ncols

instance (g : GridWorld) (row col : Int) : Decidable (g.inBounds row col) := by
  unfold inBounds; infer_instance

/-- Assignment `grid[r][c] = new District(r, c)` of the constructor (line 59); the write
is outside the vector when `r` or `c` is not an index of it. -/
def allocCell (grid : List (List (Option District))) (r c : Nat) :
    Option (List (List (Option District))) :=
  match grid[r]? with
  | none => none
  | some rw =>
    if c < rw.length then
      some (grid.set r (rw.set c (some (District.mk r c 0 none none))))
    else none

/-- Constructor `GridWorld(nrows, ncols)` (lines 52-62).  The inner loop runs `c` up to
`nrows`, as in the source. -/
def construct (nrows ncols : Nat) : Option GridWorld := do
  let grid0 : List (List (Option District)) :=
    List.replicate nrows (List.replicate ncols none)
  let grid ← (List.range nrows).foldlM
    (fun gr r => (List.range nrows).foldlM (fun gr c => allocCell gr r c) gr) grid0
  some { ncols := ncols, nrows := nrows, pop := 0, grid := grid,
         populationn := [], recentlyDead := [] }

/-- Lines 87-98 of `birth`: choose the identifier and the `Person` object.  Returns the
identifier, the slot of the object, the new table and the new pool. -/
def obtainPerson (g : GridWorld) (row col : Int) :
    Option (Int × Nat × List Person × List Int) :=
  match g.recentlyDead with
  | [] =>
    some (g.pop, g.populationn.length,
      g.populationn ++ [Person.mk g.pop row col true none none], [])
  | id :: rest =>
    if 0 ≤ id then
      (update g.populationn (some id.toNat)
        fun x => { x with alive := true, row := row, col := col }).map
        fun ps => (id, id.toNat, ps, rest)
    else none

/-- Lines 99-105 of `birth`: append the object in slot `p` to the list of `d`. -/
def linkTail (ps : List Person) (d : District) (p : Nat) :
    Option (List Person × District) :=
  match d.head with
  | some _ => do
    let ps1 ← update ps d.tail fun x => { x with next := some p }
    let ps2 ← update ps1 (some p) fun x => { x with prev := d.tail }
    some (ps2, { d with tail := some p })
  | none => some (ps, { d with head := some p, tail := some p })

/-- Method `birth(row, col, id)` (lines 83-111).  The third argument is the value the
reference parameter `id` holds at the call; the result carries the return value, the
value of `id` at the return, and the state. -/
def birth (g : GridWorld) (row col : Int) (id : Int) : Option (Bool × Int × GridWorld) :=
  if g.inBounds row col then do
    let dptr ← cellAt g.grid row col
    let (id1, p, ps, pool) ← obtainPerson g row col
    let d ← dptr
    let (ps1, d1) ← linkTail ps d p
    some (true, id1,
      { g with grid := setCell g.grid row col { d1 with pop := d1.pop + 1 },
               pop := g.pop + 1, populationn := ps1, recentlyDead := pool })
  else some (false, id, g)

/-- Lines 125-136 of `death`: the four-way unlinking of the object in slot `i` from the
list of `d`. -/
def unlink (ps : List Person) (d : District) (i : Nat) :
    Option (List Person × District) :=
  if d.head = d.tail then
    some (ps, { d with head := none, tail := none })
  else if d.head = some i then do
    let h ← deref ps d.head
    let ps1 ← update ps h.next fun x => { x with prev := none }
    some (ps1, { d with head := h.next })
  else if d.tail = some i then do
    let t ← deref ps d.tail
    let ps1 ← update ps t.prev fun x => { x with next := none }
    some (ps1, { d with tail := t.prev })
  else do
    let person ← ps[i]?
    let ps1 ← update ps person.prev fun x => { x with next := person.next }
    let person1 ← ps1[i]?
    let ps2 ← update ps1 person1.next fun x => { x with prev := person1.prev }
    some (ps2, d)

/-- Method `death(personID)` (lines 120-145).  The test `populationn[personID]` of line
122 is a null test on the table entry, which holds for every slot of the table; the
`alive` flag is not read. -/
def death (g : GridWorld) (personID : Int) : Option (Bool × GridWorld) :=
  if 0 ≤ personID ∧ personID < g.populationn.length then do
    let i := personID.toNat
    let person ← g.populationn[i]?
    let dptr ← cellAt g.grid person.row person.col
    let d ← dptr
    let (ps1, d1) ← unlink g.populationn d i
    let ps2 ← update ps1 (some i) fun x => { x with alive := false, next := none, prev := none }
    some (true,
      { g with grid := setCell g.grid person.row person.col { d1 with pop := d1.pop - 1 },
               pop := g.pop - 1, populationn := ps2,
               recentlyDead := g.recentlyDead ++ [person.id] })
  else some (false, g)

/-- Method `whereis(id, row, col)` (lines 154-164).  The last two arguments are the values
the reference parameters hold at the call.  The guard is `id <= populationn.size()`, as in
the source, so `id = size` reads the table one past its end. -/
def whereis (g : GridWorld) (id : Int) (row col : Int) : Option (Bool × Int × Int) :=
  if 0 ≤ id ∧ id ≤ g.populationn.length then do
    let person ← g.populationn[id.toNat]?
    if person.alive = true then some (true, person.row, person.col)
    else some (false, row, col)
  else some (false, row, col)

/-- Method `move(id, targetRow, targetCol)` (lines 177-184).  `populationn[id]` is read
without a range test; the results of `death` and `birth` are dropped. -/
def move (g : GridWorld) (id : Int) (targetRow targetCol : Int) : Option (Bool × GridWorld) :=
  if g.inBounds targetRow targetCol then do
    let person ← if 0 ≤ id then g.populationn[id.toNat]? else none
    if person.alive = true then do
      let (_, g1) ← death g id
      let (_, _, g2) ← birth g1 targetRow targetCol id
      some (true, g2)
    else some (false, g)
  else some (false, g)

/-- The loop of `members` (lines 190-194) with a step budget: follows `next` from `p`
collecting `id` fields. -/
def walk (ps : List Person) : Nat → Option Nat → Option (List Int)
  | _, none => some []
  | 0, some _ => none
  | n + 1, some i =>
    match ps[i]? with
    | none => none
    | some x => (walk ps n x.next).map fun l => x.id :: l

/-- Method `members(row, col)` (lines 186-197).  The budget is the size of the table: a
traversal that visits more objects than the table holds has visited one twice and then
repeats for ever. -/
def members (g : GridWorld) (row col : Int) : Option (List Int) :=
  if g.inBounds row col then do
    let dptr ← cellAt g.grid row col
    let d ← dptr
    walk g.populationn g.populationn.length d.head
  else some []

/-- Method `population()` (line 203). -/
def population (g : GridWorld) : Int := g.pop

/-- Method `population(row, col)` (lines 210-216). -/
def populationAt (g : GridWorld) (row col : Int) : Option Int :=
  if g.inBounds row col then do
    let dptr ← cellAt g.grid row col
    let d ← dptr
    some d.pop
  else some 0

/-- Method `num_rows()` (line 222). -/
def num_rows (g : GridWorld) : Int := g.nrows

/-- Method `num_cols()` (line 228). -/
def num_cols (g : GridWorld) : Int := g.ncols

/-- One mutating call of the public interface, with its arguments. -/
inductive Call where
  | birth (row col id : Int)
  | death (personID : Int)
  | move (id targetRow targetCol : Int)
deriving DecidableEq, Repr

/-- State after one call, when the call returns. -/
def step (g : GridWorld) : Call → Option GridWorld
  | .birth row col id => (g.birth row col id).map fun r => r.2.2
  | .death personID => (g.death personID).map fun r => r.2
  | .move id targetRow targetCol => (g.move id targetRow targetCol).map fun r => r.2

/-- State after a sequence of calls, each of which returns. -/
def run (g : GridWorld) : List Call → Option GridWorld
  | [] => some g
  | c :: cs => (g.step c).bind fun g1 => run g1 cs

/-- States reachable from a freshly constructed grid by calls of `birth`, `death` and
`move` with arbitrary arguments.  The queries `whereis`, `members`, `population`,
`num_rows` and `num_cols` are `const` and leave the state as it is. -/
def Reachable (g : GridWorld) : Prop :=
  ∃ (nrows ncols : Nat) (g0 : GridWorld) (cs : List Call),
    construct nrows ncols = some g0 ∧ run g0 cs = some g

/-- Slot `i` of the table holds an entity that is alive. -/
def AliveAt (g : GridWorld) (i : Nat) : Prop :=
  ∃ x, g.populationn[i]? = some x ∧ x.alive = true

instance (g : GridWorld) (i : Nat) : Decidable (g.AliveAt i) :=
  decidable_of_iff ((g.populationn[i]?.map fun x => x.alive) = some true) (by
    unfold AliveAt
    cases g.populationn[i]? <;> simp)

/-- Pointer standing before the end of `l` in a chain entered from `prev`. -/
def lastOr (prev : Option Nat) (l : List Nat) : Option Nat :=
  l.getLast?.or prev

/-- `Chain ps prev l p`: following `next` from pointer `p` visits exactly the slots `l`, in
this order, and then reaches `nullptr`; the `prev` field of each visited object is the slot
visited just before it, and `prev` for the first one. -/
def Chain (ps : List Person) : Option Nat → List Nat → Option Nat → Prop
  | _, [], p => p = none
  | prev, i :: l, p =>
    p = some i ∧ ∃ x, ps[i]? = some x ∧ x.prev = prev ∧ Chain ps (some i) l x.next

/-- The list of the district `d` at `(r, c)` is the doubly-linked chain `l`, which holds
each alive entity recorded at `(r, c)` once and nothing else; the counter of `d` is its
length. -/
structure CellOK (g : GridWorld) (r c : Int) (d : District) (l : List Nat) : Prop where
  chain : Chain g.populationn none l d.head
  tail_eq : d.tail = l.getLast?
  nodup : l.Nodup
  mem_iff : ∀ i, i ∈ l ↔
    ∃ x, g.populationn[i]? = some x ∧ x.alive = true ∧ x.row = r ∧ x.col = c
  pop_eq : d.pop = l.length

/-- Consistency of a state: the invariants of the data model. -/
structure Consistent (g : GridWorld) : Prop where
  cells : ∀ r c, g.inBounds r c →
    ∃ d l, cellAt g.grid r c = some (some d) ∧ CellOK g r c d l
  ids : ∀ (i : Nat) (x : Person), g.populationn[i]? = some x → x.id = i
  alive_inb : ∀ (i : Nat) (x : Person), g.populationn[i]? = some x → x.alive = true →
    g.inBounds x.row x.col
  dead_links : ∀ (i : Nat) (x : Person), g.populationn[i]? = some x → x.alive = false →
    x.next = none ∧ x.prev = none
  pool_nodup : g.recentlyDead.Nodup
  pool_mem : ∀ j : Int, j ∈ g.recentlyDead ↔
    ∃ (i : Nat) (x : Person), j = i ∧ g.populationn[i]? = some x ∧ x.alive = false
  pop_pool : g.pop + g.recentlyDead.length = g.populationn.length

/-- Record of slot `k` after the object in slot `p` has been appended behind the chain
`l`: the last slot of `l` is linked forward to `p`. -/
def linkTo (l : List Nat) (p : Nat) (k : Nat) (y : Person) : Person :=
  if l.getLast? = some k then { y with next := some p } else y

/-- Record of slot `k` after its neighbour has been unlinked from between the chains `l1`
and `l2`: the last slot of `l1` is linked forward to the first of `l2`, and the first of
`l2` backward to the last of `l1`. -/
def relink (l1 l2 : List Nat) (k : Nat) (y : Person) : Person :=
  { y with next := if l1.getLast? = some k then l2.head? else y.next,
           prev := if l2.head? = some k then l1.getLast? else y.prev }

/-- State that `birth(row, col)` leaves when the district `d` of the cell has the chain
`l`, the object is in slot `p` and the table has become `ps2`. -/
def afterBirth (g : GridWorld) (row col : Int) (d : District) (l : List Nat) (p : Nat)
    (ps2 : List Person) : GridWorld :=
  { g with
    grid := setCell g.grid row col
      { d with head := if l = [] then some p else d.head, tail := some p, pop := d.pop + 1 },
    pop := g.pop + 1, populationn := ps2, recentlyDead := g.recentlyDead.tail }

/-- What `birth` does to the table: slot `p` was not alive and now holds the new record,
every other slot is as before but for the forward link of the old tail. -/
structure BirthFacts (g : GridWorld) (row col : Int) (l : List Nat) (p : Nat)
    (ps2 : List Person) : Prop where
  fresh : g.recentlyDead = [] →
    p = g.populationn.length ∧ ps2.length = g.populationn.length + 1
  reused : ∀ j rest, g.recentlyDead = j :: rest →
    j = (p : Int) ∧ ps2.length = g.populationn.length
  not_alive : ¬ g.AliveAt p
  at_new : ps2[p]? = some ⟨p, row, col, true, none, l.getLast?⟩
  at_old : ∀ k, k ≠ p → ps2[k]? = (g.populationn[k]?).map (linkTo l p k)

/-- State that `death(i)` leaves when slot `i` holds `x` and the district `d` of its cell
has the chain `l1 ++ i :: l2`, the table having become `ps2`. -/
def afterDeath (g : GridWorld) (x : Person) (d : District) (l1 l2 : List Nat) (i : Nat)
    (ps2 : List Person) : GridWorld :=
  { g with
    grid := setCell g.grid x.row x.col
      { d with head := (l1 ++ l2).head?, tail := (l1 ++ l2).getLast?, pop := d.pop - 1 },
    pop := g.pop - 1, populationn := ps2,
    recentlyDead := g.recentlyDead ++ [(i : Int)] }

/-- What `death` does to the table: slot `i` is marked dead with both links null, every
other slot is as before but for the links of the two neighbours of `i`. -/
structure DeathFacts (g : GridWorld) (i : Nat) (x : Person) (l1 l2 : List Nat)
    (ps2 : List Person) : Prop where
  length_eq : ps2.length = g.populationn.length
  at_dead : ps2[i]? = some { x with alive := false, next := none, prev := none }
  at_old : ∀ k, k ≠ i → ps2[k]? = (g.populationn[k]?).map (relink l1 l2 k)

/-- Slot `i` holds an alive entity recorded at `(r, c)`. -/
def RecordedAt (g : GridWorld) (i : Nat) (r c : Int) : Prop :=
  ∃ x, g.populationn[i]? = some x ∧ x.alive = true ∧ x.row = r ∧ x.col = c

/-- What a call `birth(row, col)` that returned `true` with identifier `p` and state `g1`
has done to the state `g`. -/
structure BirthOutcome (g : GridWorld) (row col : Int) (p : Nat) (g1 : GridWorld) :
    Prop where
  consistent : g1.Consistent
  nrows_eq : g1.nrows = g.nrows
  ncols_eq : g1.ncols = g.ncols
  pop_eq : g1.pop = g.pop + 1
  pool_eq : g1.recentlyDead = g.recentlyDead.tail
  fresh : g.recentlyDead = [] →
    p = g.populationn.length ∧ g1.populationn.length = g.populationn.length + 1
  reused : ∀ j rest, g.recentlyDead = j :: rest →
    j = (p : Int) ∧ g1.populationn.length = g.populationn.length
  not_alive : ¬ g.AliveAt p
  recorded : g1.RecordedAt p row col
  recorded_old : ∀ k r c, k ≠ p → (g1.RecordedAt k r c ↔ g.RecordedAt k r c)
  members_target : ∃ m, g.members row col = some m ∧
    g1.members row col = some (m ++ [(p : Int)])
  members_other : ∀ r c, (r, c) ≠ (row, col) → g1.members r c = g.members r c
  cellpop_target : ∃ n, g.populationAt row col = some n ∧
    g1.populationAt row col = some (n + 1)
  cellpop_other : ∀ r c, (r, c) ≠ (row, col) → g1.populationAt r c = g.populationAt r c

/-- What a call `death(i)` that returned `true` with state `g1` has done to the state
`g`, the entity having been recorded at `(r, c)`. -/
structure DeathOutcome (g : GridWorld) (i : Nat) (r c : Int) (g1 : GridWorld) : Prop where
  consistent : g1.Consistent
  nrows_eq : g1.nrows = g.nrows
  ncols_eq : g1.ncols = g.ncols
  pop_eq : g1.pop = g.pop - 1
  pool_eq : g1.recentlyDead = g.recentlyDead ++ [(i : Int)]
  length_eq : g1.populationn.length = g.populationn.length
  dead : ∃ x, g1.populationn[i]? = some x ∧ x.alive = false
  recorded_old : ∀ k r1 c1, k ≠ i → (g1.RecordedAt k r1 c1 ↔ g.RecordedAt k r1 c1)
  members_target : ∃ m, g.members r c = some m ∧ m.count (i : Int) = 1 ∧
    g1.members r c = some (m.erase (i : Int))
  members_other : ∀ r1 c1, (r1, c1) ≠ (r, c) → g1.members r1 c1 = g.members r1 c1
  cellpop_target : ∃ n, g.populationAt r c = some n ∧ g1.populationAt r c = some (n - 1)
  cellpop_other : ∀ r1 c1, (r1, c1) ≠ (r, c) → g1.populationAt r1 c1 = g.populationAt r1 c1

/-- The table `ps1` has the slots of `ps`, each with the identifier it had. -/
def SameIds (ps ps1 : List Person) : Prop :=
  ps1.length = ps.length ∧
    ∀ (i : Nat) (x1 : Person), ps1[i]? = some x1 → ∃ x, ps[i]? = some x ∧ x1.id = x.id

/-- What holds of every state the public calls can reach, whatever their arguments: the
counter and the pool add up to the size of the table, the identifier stored in a slot is
its index, the pool holds indices of the table, and a district has a head exactly when it
has a tail, the tail being a slot of the table. -/
structure Sane (g : GridWorld) : Prop where
  pop_pool : g.pop + g.recentlyDead.length = g.populationn.length
  ids : ∀ (i : Nat) (x : Person), g.populationn[i]? = some x → x.id = i
  pool_lt : ∀ j ∈ g.recentlyDead, 0 ≤ j ∧ j < g.populationn.length
  ends : ∀ (r c : Int) (d : District), cellAt g.grid r c = some (some d) →
    (d.head = none ↔ d.tail = none) ∧ ∀ t, d.tail = some t → t < g.populationn.length

/-- Every district of the grid has an empty list. -/
def Blank (grid : List (List (Option District))) : Prop :=
  ∀ (r c : Int) (d : District), cellAt grid r c = some (some d) →
    d.head = none ∧ d.tail = none

/-- The grid `GridWorld(1, 1)` right after construction. -/
def oneCell : GridWorld :=
  { ncols := 1, nrows := 1, pop := 0,
    grid := [[some ⟨0, 0, 0, none, none⟩]],
    populationn := [], recentlyDead := [] }

/-- The calls `birth` at each of the given cells, in order. -/
def birthCalls (cells : List (Int × Int)) : List Call :=
  cells.map fun rc => Call.birth rc.1 rc.2 0

/-- The 1x1 grid after three calls `birth(0, 0)`: one cell with the list `0, 1, 2`. -/
def trio : GridWorld :=
  { ncols := 1, nrows := 1, pop := 3,
    grid := [[some ⟨0, 0, 3, some 0, some 2⟩]],
    populationn := [⟨0, 0, 0, true, some 1, none⟩, ⟨1, 0, 0, true, some 2, some 0⟩,
      ⟨2, 0, 0, true, none, some 1⟩],
    recentlyDead := [] }

/-- The 1x1 grid after `birth(0, 0)`, `death(0)`, `death(0)`, `birth(0, 0)`,
`birth(0, 0)`: the one entity is linked to itself. -/
def selfLinked : GridWorld :=
  { ncols := 1, nrows := 1, pop := 1,
    grid := [[some ⟨0, 0, 1, some 0, some 0⟩]],
    populationn := [⟨0, 0, 0, true, some 0, some 0⟩],
    recentlyDead := [] }

/-- Content of `grid[r][c]` when the loops of the constructor of a grid with `n` rows have
reached row `R` and column `C`: the cells before that point, in columns below `n`, hold a
fresh district. -/
def cellAfter (n R C r c : Nat) : Option District :=
  if c < n ∧ (r < R ∨ (r = R ∧ c < C)) then some ⟨r, c, 0, none, none⟩ else none

/-- The table `grid` of a grid with `n` rows and `m` columns when the loops of the
constructor have reached row `R` and column `C`. -/
def Built (n m R C : Nat) (grid : List (List (Option District))) : Prop :=
  grid.length = n ∧ ∀ r, r < n → ∃ rw, grid[r]? = some rw ∧ rw.length = m ∧
    ∀ c, c < m → rw[c]? = some (cellAfter n R C r c)

/-- The cells inside the grid, row by row. -/
def cells (g : GridWorld) : List (Int × Int) :=
  ((List.range g.nrows.toNat).product (List.range g.ncols.toNat)).map
    fun rc => ((rc.1 : Int), (rc.2 : Int))

/-- Sum of the values a query returns on the listed cells; there is no sum when the query
does not return on one of them. -/
def sumOver (f : Int × Int → Option Int) : List (Int × Int) → Option Int
  | [] => some 0
  | rc :: l => do
    let a ← f rc
    let s ← sumOver f l
    some (a + s)

/-- Sum of `population(r, c)` over all cells inside the grid. -/
def cellPopulationSum (g : GridWorld) : Option Int :=
  sumOver (fun rc => g.populationAt rc.1 rc.2) g.cells

/-- Counter of the district of a cell, 0 where the cell has no district. -/
def counterAt (grid : List (List (Option District))) (rc : Int × Int) : Int :=
  match cellAt grid rc.1 rc.2 with
  | some (some d) => d.pop
  | _ => 0

/-- The table `ps1` has the slots of `ps`, each recorded at the cell it was. -/
def SameSpot (ps ps1 : List Person) : Prop :=
  ps1.length = ps.length ∧
    ∀ (i : Nat) (x1 : Person), ps1[i]? = some x1 →
      ∃ x, ps[i]? = some x ∧ x1.row = x.row ∧ x1.col = x.col

/-- What holds of the counters in every state the public calls can reach: every entity
of the table is recorded at a cell inside the grid, and `population()` is the sum of the
counters of the districts of the cells inside the grid. -/
structure Tally (g : GridWorld) : Prop where
  recorded : ∀ (i : Nat) (x : Person), g.populationn[i]? = some x → g.inBounds x.row x.col
  total : g.pop = (g.cells.map (counterAt g.grid)).sum

/-- Every cell inside the grid has a district. -/
def AllCells (g : GridWorld) : Prop :=
  ∀ r c, g.inBounds r c → ∃ d, cellAt g.grid r c = some (some d)

end GridWorld

namespace GridWorld



/-! ## Chains -/

theorem lastOr_nil (prev : Option Nat) : lastOr prev [] = prev := rfl

theorem lastOr_cons (prev : Option Nat) (i : Nat) (l : List Nat) :
    lastOr prev (i :: l) = lastOr (some i) l := by
  cases l with
  | nil => rfl
  | cons j l =>
    simp [lastOr, List.getLast?_cons_cons, List.getLast?_eq_getLast _ (List.cons_ne_nil j l)]

theorem lastOr_eq_getLast? (prev : Option Nat) {l : List Nat} (h : l ≠ []) :
    lastOr prev l = l.getLast? := by
  simp [lastOr, List.getLast?_eq_getLast _ h]

theorem Chain.head_eq {ps : List Person} {prev p : Option Nat} {l : List Nat}
    (h : Chain ps prev l p) : p = l.head? := by
  cases l with
  | nil => exact h
  | cons i l => exact h.1

theorem Chain.get_of_mem {ps : List Person} :
    ∀ {l : List Nat} {prev p : Option Nat}, Chain ps prev l p →
      ∀ i ∈ l, ∃ x, ps[i]? = some x
  | [], _, _, _, i, hi => by simp at hi
  | k :: l, _, _, h, i, hi => by
    obtain ⟨_, x, hx, _, hrest⟩ := h
    rcases List.mem_cons.1 hi with rfl | hi
    · exact ⟨x, hx⟩
    · exact Chain.get_of_mem hrest i hi

/-- Links of the object in the middle of a chain. -/
theorem Chain.links_at {ps : List Person} {i : Nat} {l2 : List Nat} :
    ∀ {l1 : List Nat} {prev p : Option Nat}, Chain ps prev (l1 ++ i :: l2) p →
      ∃ x, ps[i]? = some x ∧ x.next = l2.head? ∧ x.prev = lastOr prev l1
  | [], _, _, h => by
    obtain ⟨_, x, hx, hp, hrest⟩ := h
    exact ⟨x, hx, hrest.head_eq, hp⟩
  | k :: l1, prev, _, h => by
    obtain ⟨_, x, _, _, hrest⟩ := h
    rw [lastOr_cons]
    exact Chain.links_at hrest

/-- A chain depends only on the link fields of the objects on it. -/
theorem Chain.congr {ps ps1 : List Person} :
    ∀ {l : List Nat} {prev p : Option Nat}, Chain ps prev l p →
      (∀ i ∈ l, ∀ x, ps[i]? = some x →
        ∃ y, ps1[i]? = some y ∧ y.next = x.next ∧ y.prev = x.prev) →
      Chain ps1 prev l p
  | [], _, _, h, _ => h
  | k :: l, _, _, h, hs => by
    obtain ⟨hp, x, hx, hprev, hrest⟩ := h
    obtain ⟨y, hy, hn, hpv⟩ := hs k (List.mem_cons_self _ _) x hx
    refine ⟨hp, y, hy, hpv.trans hprev, ?_⟩
    rw [hn]
    exact Chain.congr hrest fun i hi => hs i (List.mem_cons_of_mem _ hi)

/-- Appending the object `q` behind the last object of a chain. -/
theorem Chain.append_one {ps ps1 : List Person} {q : Nat} :
    ∀ {l : List Nat} {prev p : Option Nat}, Chain ps prev l p → l.Nodup →
      (∀ i ∈ l, ∀ x, ps[i]? = some x →
        ∃ y, ps1[i]? = some y ∧ y.prev = x.prev ∧
          y.next = if l.getLast? = some i then some q else x.next) →
      (∃ y, ps1[q]? = some y ∧ y.prev = lastOr prev l ∧ y.next = none) →
      Chain ps1 prev (l ++ [q]) (if l = [] then some q else p)
  | [], prev, _, _, _, _, hq => by
    obtain ⟨y, hy, hp, hn⟩ := hq
    exact ⟨rfl, y, hy, hp, hn⟩
  | k :: l, prev, p, h, hnd, hs, hq => by
    obtain ⟨hp, x, hx, hprev, hrest⟩ := h
    obtain ⟨y, hy, hpv, hn⟩ := hs k (List.mem_cons_self _ _) x hx
    have hnd1 := (List.nodup_cons.1 hnd)
    rw [lastOr_cons] at hq
    simp only [List.cons_append, reduceCtorEq, if_false]
    refine ⟨hp, y, hy, hpv.trans hprev, ?_⟩
    cases l with
    | nil =>
      have : y.next = some q := by simpa using hn
      rw [this]
      obtain ⟨z, hz, hzp, hzn⟩ := hq
      exact ⟨rfl, z, hz, hzp, hzn⟩
    | cons j l =>
      have hk : (j :: l).getLast? ≠ some k := by
        intro hc
        exact hnd1.1 (List.mem_of_getLast?_eq_some hc)
      have hyn : y.next = x.next := by
        rw [hn, List.getLast?_cons_cons, if_neg hk]
      rw [hyn]
      have := Chain.append_one hrest hnd1.2
        (fun i hi z hz => by
          obtain ⟨w, hw, hwp, hwn⟩ := hs i (List.mem_cons_of_mem _ hi) z hz
          refine ⟨w, hw, hwp, ?_⟩
          rw [hwn, List.getLast?_cons_cons]) hq
      simpa using this
/-- Taking the object `i` out of a chain: its neighbours are linked to each other. -/
theorem Chain.remove {ps ps1 : List Person} {i : Nat} {l2 : List Nat} :
    ∀ {l1 : List Nat} {prev p : Option Nat}, Chain ps prev (l1 ++ i :: l2) p →
      (l1 ++ i :: l2).Nodup →
      (∀ k ∈ l1 ++ l2, ∀ x, ps[k]? = some x →
        ∃ y, ps1[k]? = some y ∧
          y.next = (if l1.getLast? = some k then l2.head? else x.next) ∧
          y.prev = (if l2.head? = some k then lastOr prev l1 else x.prev)) →
      Chain ps1 prev (l1 ++ l2) (if l1 = [] then l2.head? else p)
  | [], prev, p, h, hnd, hs => by
    obtain ⟨_, x, hx, hprev, hrest⟩ := h
    simp only [List.nil_append, if_true]
    cases l2 with
    | nil => rfl
    | cons b l2 =>
      obtain ⟨hb, z, hz, hzp, hrest2⟩ := hrest
      obtain ⟨y, hy, hyn, hyp⟩ := hs b (by simp) z hz
      simp at hyn hyp
      refine ⟨rfl, y, hy, by rw [hyp, lastOr_nil], ?_⟩
      rw [hyn]
      refine Chain.congr hrest2 fun k hk w hw => ?_
      obtain ⟨v, hv, hvn, hvp⟩ := hs k (by simp [hk]) w hw
      have hbk : b ≠ k := by
        rintro rfl
        simp at hnd
        exact hnd.2.1 hk
      simp [hbk] at hvn hvp
      exact ⟨v, hv, hvn, hvp⟩
  | k :: l1, prev, p, h, hnd, hs => by
    obtain ⟨hp, x, hx, hprev, hrest⟩ := h
    have hnd1 := List.nodup_cons.1 hnd
    obtain ⟨y, hy, hyn, hyp⟩ := hs k (by simp) x hx
    have hk2 : l2.head? ≠ some k := by
      intro hc
      exact hnd1.1 (by simp [List.mem_of_mem_head? hc])
    rw [if_neg hk2] at hyp
    simp only [List.cons_append, reduceCtorEq, if_false]
    refine ⟨hp, y, hy, hyp.trans hprev, ?_⟩
    have ih : Chain ps1 (some k) (l1 ++ l2) (if l1 = [] then l2.head? else x.next) :=
      Chain.remove hrest hnd1.2 (fun k1 hk1 w hw => by
      obtain ⟨v, hv, hvn, hvp⟩ := hs k1 (by simp at hk1 ⊢; tauto) w hw
      refine ⟨v, hv, ?_, ?_⟩
      · rw [hvn]
        cases l1 with
        | nil =>
          have : k ≠ k1 := by
            rintro rfl
            simp at hk1 hnd1
            exact hnd1.1.2 hk1
          simp [this]
        | cons j l1 => rw [List.getLast?_cons_cons]
      · rw [hvp, lastOr_cons])
    cases l1 with
    | nil =>
      simp only [List.nil_append, if_true] at ih
      have : y.next = l2.head? := by simpa using hyn
      rw [this]; exact ih
    | cons j l1 =>
      have hk : (j :: l1).getLast? ≠ some k := by
        intro hc
        exact hnd1.1 (List.mem_append_left _ (List.mem_of_getLast?_eq_some hc))
      rw [List.getLast?_cons_cons, if_neg hk] at hyn
      rw [hyn]
      simpa using ih

/-- Objects on a chain are slots of the table, so a chain without repetition is no longer
than the table. -/
theorem Chain.length_le {ps : List Person} {l : List Nat} {prev p : Option Nat}
    (h : Chain ps prev l p) (hnd : l.Nodup) : l.length ≤ ps.length := by
  have hsub : l ⊆ List.range ps.length := by
    intro i hi
    obtain ⟨x, hx⟩ := h.get_of_mem i hi
    have := (List.getElem?_eq_some_iff.1 hx).1
    exact List.mem_range.2 this
  simpa using (List.subperm_of_subset hnd hsub).length_le

/-- The traversal of `members` along a chain returns the identifiers on it. -/
theorem walk_of_chain {ps : List Person} :
    ∀ {l : List Nat} {prev p : Option Nat} (n : Nat), Chain ps prev l p →
      (∀ i ∈ l, ∀ x, ps[i]? = some x → x.id = (i : Int)) → l.length ≤ n →
      walk ps n p = some (l.map Int.ofNat)
  | [], _, _, n, h, _, _ => by
    have : _ = none := h
    subst this
    cases n <;> rfl
  | k :: l, _, _, 0, _, _, hn => by simp at hn
  | k :: l, _, _, n + 1, h, hid, hn => by
    obtain ⟨hp, x, hx, _, hrest⟩ := h
    subst hp
    have ih := walk_of_chain n hrest (fun i hi => hid i (List.mem_cons_of_mem _ hi))
      (by simpa using hn)
    simp [walk, hx, ih, hid k (List.mem_cons_self _ _) x hx]

/-! ## Reads and writes of the tables -/

theorem getElem?_set_of_some {α : Type} {ps : List α} {i : Nat} {x : α}
    (h : ps[i]? = some x) (a : α) (k : Nat) :
    (ps.set i a)[k]? = if k = i then some a else ps[k]? := by
  have hi := (List.getElem?_eq_some_iff.1 h).1
  rw [List.getElem?_set]
  by_cases hk : k = i
  · subst hk; simp [hi]
  · have : ¬ i = k := fun e => hk e.symm
    simp [hk, this]

theorem update_some {ps : List Person} {i : Nat} {x : Person} (h : ps[i]? = some x)
    (f : Person → Person) : update ps (some i) f = some (ps.set i (f x)) := by
  simp [update, h]

theorem cellAt_setCell_same {grid : List (List (Option District))} {r c : Int}
    {o : Option District} (h : cellAt grid r c = some o) (d : District) :
    cellAt (setCell grid r c d) r c = some (some d) := by
  unfold cellAt at h ⊢
  split at h
  · rename_i hrc
    rw [if_pos hrc]
    cases hrow : grid[r.toNat]? with
    | none => simp [hrow] at h
    | some rw =>
      simp only [hrow, Option.some_bind] at h
      simp only [setCell, hrow]
      rw [getElem?_set_of_some hrow, if_pos rfl, Option.some_bind,
        getElem?_set_of_some h, if_pos rfl]
  · simp at h

theorem cellAt_setCell_ne {grid : List (List (Option District))} {r c r1 c1 : Int}
    (hr : 0 ≤ r) (hcol : 0 ≤ c) (hne : (r1, c1) ≠ (r, c)) (d : District) :
    cellAt (setCell grid r c d) r1 c1 = cellAt grid r1 c1 := by
  unfold cellAt
  split
  · rename_i hrc
    simp only [setCell]
    cases hrow : grid[r.toNat]? with
    | none => rfl
    | some rw =>
      simp only
      rw [getElem?_set_of_some hrow]
      by_cases h1 : r1.toNat = r.toNat
      · have hr1 : r1 = r := by omega
        have hc1 : c1.toNat ≠ c.toNat := by
          intro hc1
          apply hne
          have : c1 = c := by omega
          rw [hr1, this]
        rw [if_pos h1, h1, hrow, Option.some_bind, Option.some_bind]
        exact List.getElem?_set_ne (Ne.symm hc1)
      · rw [if_neg h1]
  · rfl

/-! ## `birth` on a consistent state -/

/-- Lines 87-98 on a consistent state: the slot chosen is not alive, its identifier is its
index, and after the step it holds a fresh record with both links null. -/
theorem obtainPerson_spec {g : GridWorld} (hc : g.Consistent) (row col : Int) :
    ∃ (p : Nat) (psA : List Person),
      g.obtainPerson row col = some ((p : Int), p, psA, g.recentlyDead.tail) ∧
      (g.recentlyDead = [] → p = g.populationn.length ∧
        psA.length = g.populationn.length + 1) ∧
      (∀ j rest, g.recentlyDead = j :: rest → j = (p : Int) ∧
        psA.length = g.populationn.length) ∧
      ¬ g.AliveAt p ∧
      psA[p]? = some ⟨p, row, col, true, none, none⟩ ∧
      ∀ k, k ≠ p → psA[k]? = g.populationn[k]? := by
  cases hpool : g.recentlyDead with
  | nil =>
    have hpop : g.pop = g.populationn.length := by
      have := hc.pop_pool
      simpa [hpool] using this
    refine ⟨g.populationn.length,
      g.populationn ++ [Person.mk g.populationn.length row col true none none],
      by simp [obtainPerson, hpool, hpop], by simp, by simp, ?_, by simp, ?_⟩
    · rintro ⟨x, hx, _⟩
      simp at hx
    · intro k hk
      rcases Nat.lt_or_gt_of_ne hk with h | h
      · exact List.getElem?_append_left h
      · rw [List.getElem?_eq_none (by simp; omega), List.getElem?_eq_none (by omega)]
  | cons j rest =>
    obtain ⟨i, x, hj, hx, hdead⟩ := (hc.pool_mem j).1 (by simp [hpool])
    obtain ⟨hn, hp⟩ := hc.dead_links i x hx hdead
    have hid := hc.ids i x hx
    subst hj
    refine ⟨i, g.populationn.set i { x with alive := true, row := row, col := col },
      by simp [obtainPerson, hpool, update_some hx], by simp, ?_, ?_, ?_, ?_⟩
    · intro j1 rest1 h
      simp at h
      simp [h.1]
    · rintro ⟨y, hy, ha⟩
      rw [hx] at hy
      cases hy
      simp [hdead] at ha
    · rw [getElem?_set_of_some hx, if_pos rfl]
      cases x
      simp_all
    · intro k hk
      rw [getElem?_set_of_some hx, if_neg hk]

/-- Lines 99-105 when the list of `d` is the chain `l` and slot `p` is not on it. -/
theorem linkTail_spec {ps psA : List Person} {d : District} {l : List Nat} {p : Nat}
    {y0 : Person} (hch : Chain ps none l d.head) (htl : d.tail = l.getLast?)
    (hpl : p ∉ l) (hp : psA[p]? = some y0) (hy0 : y0.prev = none)
    (hk : ∀ k, k ≠ p → psA[k]? = ps[k]?) :
    ∃ ps2, linkTail psA d p =
        some (ps2, { d with head := if l = [] then some p else d.head, tail := some p }) ∧
      ps2.length = psA.length ∧
      ps2[p]? = some { y0 with prev := l.getLast? } ∧
      ∀ k, k ≠ p → ps2[k]? = (ps[k]?).map fun x =>
        if l.getLast? = some k then { x with next := some p } else x := by
  have hhead := hch.head_eq
  cases l with
  | nil =>
    simp only [List.head?_nil] at hhead
    refine ⟨psA, by simp [linkTail, hhead], rfl, ?_, ?_⟩
    · rw [hp]; cases y0; simp_all
    · intro k hkp
      rw [hk k hkp]
      simp
  | cons a l =>
    simp only [List.head?_cons] at hhead
    have hne : a :: l ≠ [] := List.cons_ne_nil _ _
    rw [List.getLast?_eq_getLast _ hne] at htl
    rw [List.getLast?_eq_getLast _ hne]
    set t := (a :: l).getLast hne with ht
    have htm : t ∈ a :: l := List.getLast_mem hne
    have htp : t ≠ p := fun e => hpl (e ▸ htm)
    obtain ⟨y, hy⟩ := hch.get_of_mem t htm
    have hyA : psA[t]? = some y := (hk t htp).trans hy
    have hp1 : (psA.set t { y with next := some p })[p]? = some y0 := by
      rw [getElem?_set_of_some hyA, if_neg (Ne.symm htp), hp]
    refine ⟨(psA.set t { y with next := some p }).set p { y0 with prev := some t },
      by simp [linkTail, hhead, htl, update_some hyA, update_some hp1], by simp, ?_, ?_⟩
    · rw [getElem?_set_of_some hp1, if_pos rfl]
    · intro k hkp
      rw [getElem?_set_of_some hp1, if_neg hkp, getElem?_set_of_some hyA]
      by_cases hkt : k = t
      · subst hkt
        simp [hy]
      · rw [if_neg hkt, hk k hkp]
        have : ¬ t = k := fun e => hkt e.symm
        cases ps[k]? <;> simp [this]

/-- Slots on the chain of a cell are alive, so a slot that is not alive is on no chain. -/
theorem CellOK.not_mem_of_not_alive {g : GridWorld} {r c : Int} {d : District}
    {l : List Nat} (hl : CellOK g r c d l) {p : Nat} (hp : ¬ g.AliveAt p) : p ∉ l := by
  intro hm
  obtain ⟨x, hx, ha, _⟩ := (hl.mem_iff p).1 hm
  exact hp ⟨x, hx, ha⟩

/-- Chains of two different cells of a consistent state share no slot. -/
theorem CellOK.disjoint {g : GridWorld} {r c r1 c1 : Int} {d d1 : District}
    {l l1 : List Nat} (hl : CellOK g r c d l) (hl1 : CellOK g r1 c1 d1 l1)
    (hne : (r1, c1) ≠ (r, c)) {i : Nat} (hi : i ∈ l1) : i ∉ l := by
  intro hm
  obtain ⟨x, hx, _, hr, hcl⟩ := (hl.mem_iff i).1 hm
  obtain ⟨y, hy, _, hr1, hcl1⟩ := (hl1.mem_iff i).1 hi
  rw [hx] at hy
  cases hy
  exact hne (by rw [← hr, ← hcl, ← hr1, ← hcl1])

theorem linkTo_of_not_last {l : List Nat} {p k : Nat} (y : Person)
    (h : l.getLast? ≠ some k) : linkTo l p k y = y := by
  simp [linkTo, h]

theorem linkTo_fields (l : List Nat) (p k : Nat) (y : Person) :
    (linkTo l p k y).id = y.id ∧ (linkTo l p k y).row = y.row ∧
    (linkTo l p k y).col = y.col ∧ (linkTo l p k y).alive = y.alive ∧
    (linkTo l p k y).prev = y.prev ∧
    (linkTo l p k y).next = if l.getLast? = some k then some p else y.next := by
  unfold linkTo
  split <;> simp

/-- Method `birth` on a consistent state, at a cell inside the grid: the call returns
`true` with the identifier of the slot it used, and leaves the state `afterBirth`. -/
theorem birth_spec {g : GridWorld} (hc : g.Consistent) {row col : Int}
    (hb : g.inBounds row col) {d : District} {l : List Nat}
    (hd : cellAt g.grid row col = some (some d)) (hl : CellOK g row col d l) (id0 : Int) :
    ∃ (p : Nat) (ps2 : List Person),
      g.birth row col id0 = some (true, (p : Int), afterBirth g row col d l p ps2) ∧
      BirthFacts g row col l p ps2 := by
  obtain ⟨p, psA, hobt, hnil, hcons, hna, hpA, hkA⟩ := obtainPerson_spec hc row col
  obtain ⟨ps2, hlink, hlen, hp2, hk2⟩ :=
    linkTail_spec hl.chain hl.tail_eq (hl.not_mem_of_not_alive hna) hpA rfl hkA
  refine ⟨p, ps2, ?_, ?_, ?_, hna, hp2, ?_⟩
  · simp [birth, hb, hd, hobt, hlink, afterBirth]
  · intro h
    exact ⟨(hnil h).1, hlen.trans (hnil h).2⟩
  · intro j rest h
    exact ⟨(hcons j rest h).1, hlen.trans (hcons j rest h).2⟩
  · intro k hk
    rw [hk2 k hk]
    rfl

/-- After `birth` the list of the target cell is the old chain with the new slot behind
it. -/
theorem afterBirth_cell_target {g : GridWorld} {row col : Int}
    {d : District} {l : List Nat} (hd : cellAt g.grid row col = some (some d))
    (hl : CellOK g row col d l) {p : Nat} {ps2 : List Person}
    (hf : BirthFacts g row col l p ps2) :
    ∃ d1, cellAt (afterBirth g row col d l p ps2).grid row col = some (some d1) ∧
      d1.pop = d.pop + 1 ∧
      CellOK (afterBirth g row col d l p ps2) row col d1 (l ++ [p]) := by
  have hpl : p ∉ l := hl.not_mem_of_not_alive hf.not_alive
  refine ⟨_, cellAt_setCell_same hd _, rfl, ?_, ?_, ?_, ?_, ?_⟩
  · refine Chain.append_one hl.chain hl.nodup (fun i hi x hx => ?_) ?_
    · have hip : i ≠ p := fun e => hpl (e ▸ hi)
      have := linkTo_fields l p i x
      exact ⟨_, by rw [show (afterBirth g row col d l p ps2).populationn = ps2 from rfl,
        hf.at_old i hip, hx]; rfl, this.2.2.2.2.1, this.2.2.2.2.2⟩
    · exact ⟨_, hf.at_new, by simp [lastOr], rfl⟩
  · simp
  · rw [List.nodup_append]
    exact ⟨hl.nodup, List.nodup_singleton p, by simpa using hpl⟩
  · intro i
    show i ∈ l ++ [p] ↔ ∃ x, ps2[i]? = some x ∧ _
    by_cases hip : i = p
    · subst hip
      simp [hf.at_new]
    · rw [hf.at_old i hip]
      have hmem := hl.mem_iff i
      constructor
      · intro hi
        obtain ⟨x, hx, hx2⟩ := hmem.1 (by simpa [hip] using hi)
        have := linkTo_fields l p i x
        exact ⟨_, by rw [hx]; rfl, by rw [this.2.2.2.1, this.2.1, this.2.2.1]; exact hx2⟩
      · rintro ⟨x, hx, hx2⟩
        cases hy : g.populationn[i]? with
        | none => simp [hy] at hx
        | some y =>
          simp only [hy, Option.map_some', Option.some.injEq] at hx
          subst hx
          have := linkTo_fields l p i y
          rw [this.2.2.2.1, this.2.1, this.2.2.1] at hx2
          exact List.mem_append_left _ (hmem.2 ⟨y, hy, hx2⟩)
  · show d.pop + 1 = ((l ++ [p]).length : Int)
    rw [hl.pop_eq]
    simp

/-- After `birth` the list of every other cell is as before. -/
theorem afterBirth_cell_other {g : GridWorld} {row col : Int} (hb : g.inBounds row col)
    {d : District} {l : List Nat} (hl : CellOK g row col d l) {p : Nat}
    {ps2 : List Person} (hf : BirthFacts g row col l p ps2) {r c : Int}
    (hne : (r, c) ≠ (row, col)) {d1 : District} {l1 : List Nat}
    (hd1 : cellAt g.grid r c = some (some d1)) (hl1 : CellOK g r c d1 l1) :
    cellAt (afterBirth g row col d l p ps2).grid r c = some (some d1) ∧
      CellOK (afterBirth g row col d l p ps2) r c d1 l1 := by
  have hsame : ∀ i ∈ l1, ps2[i]? = g.populationn[i]? := by
    intro i hi
    have hip : i ≠ p := fun e => hl1.not_mem_of_not_alive hf.not_alive (e ▸ hi)
    have hlast : l.getLast? ≠ some i := fun e =>
      hl.disjoint hl1 hne hi (List.mem_of_getLast?_eq_some e)
    rw [hf.at_old i hip]
    cases hy : g.populationn[i]? with
    | none => rfl
    | some y => simp [linkTo_of_not_last y hlast]
  refine ⟨by rw [← hd1]; exact cellAt_setCell_ne hb.1 hb.2.2.1 hne _, ?_, hl1.tail_eq,
    hl1.nodup, ?_, hl1.pop_eq⟩
  · exact Chain.congr hl1.chain fun i hi x hx => ⟨x, (hsame i hi).trans hx, rfl, rfl⟩
  · intro i
    show i ∈ l1 ↔ ∃ x, ps2[i]? = some x ∧ _
    have hmem := hl1.mem_iff i
    by_cases hip : i = p
    · subst hip
      constructor
      · intro hi
        exact absurd hi (hl1.not_mem_of_not_alive hf.not_alive)
      · rintro ⟨x, hx, -, hr, hcl⟩
        rw [hf.at_new] at hx
        cases hx
        exact absurd (by rw [← hr, ← hcl]) hne
    · rw [hf.at_old i hip]
      constructor
      · intro hi
        rw [← hf.at_old i hip, hsame i hi]
        exact hmem.1 hi
      · rintro ⟨x, hx, hx2⟩
        cases hy : g.populationn[i]? with
        | none => simp [hy] at hx
        | some y =>
          simp only [hy, Option.map_some', Option.some.injEq] at hx
          subst hx
          have := linkTo_fields l p i y
          rw [this.2.2.2.1, this.2.1, this.2.2.1] at hx2
          exact hmem.2 ⟨y, hy, hx2⟩

theorem map_eq_some_elim {f : Person → Person} {o : Option Person} {x : Person}
    (h : o.map f = some x) : ∃ y, o = some y ∧ f y = x := by
  cases o with
  | none => simp at h
  | some y => exact ⟨y, rfl, by simpa using h⟩

/-- Method `birth` keeps a consistent state consistent. -/
theorem afterBirth_consistent {g : GridWorld} (hc : g.Consistent) {row col : Int}
    (hb : g.inBounds row col) {d : District} {l : List Nat}
    (hd : cellAt g.grid row col = some (some d)) (hl : CellOK g row col d l) {p : Nat}
    {ps2 : List Person} (hf : BirthFacts g row col l p ps2) :
    (afterBirth g row col d l p ps2).Consistent where
  cells := by
    intro r c hb1
    have hb2 : g.inBounds r c := hb1
    by_cases hne : (r, c) = (row, col)
    · cases hne
      obtain ⟨d1, hd1, -, hl1⟩ := afterBirth_cell_target hd hl hf
      exact ⟨d1, _, hd1, hl1⟩
    · obtain ⟨d1, l1, hd1, hl1⟩ := hc.cells r c hb2
      have := afterBirth_cell_other hb hl hf hne hd1 hl1
      exact ⟨d1, l1, this.1, this.2⟩
  ids := by
    intro i x hx
    change ps2[i]? = some x at hx
    by_cases hip : i = p
    · subst hip
      rw [hf.at_new] at hx
      cases hx
      rfl
    · rw [hf.at_old i hip] at hx
      obtain ⟨y, hy, rfl⟩ := map_eq_some_elim hx
      rw [(linkTo_fields l p i y).1]
      exact hc.ids i y hy
  alive_inb := by
    intro i x hx ha
    change ps2[i]? = some x at hx
    show g.inBounds x.row x.col
    by_cases hip : i = p
    · subst hip
      rw [hf.at_new] at hx
      cases hx
      exact hb
    · rw [hf.at_old i hip] at hx
      obtain ⟨y, hy, rfl⟩ := map_eq_some_elim hx
      have := linkTo_fields l p i y
      rw [this.2.1, this.2.2.1]
      rw [this.2.2.2.1] at ha
      exact hc.alive_inb i y hy ha
  dead_links := by
    intro i x hx ha
    change ps2[i]? = some x at hx
    by_cases hip : i = p
    · subst hip
      rw [hf.at_new] at hx
      cases hx
      simp at ha
    · rw [hf.at_old i hip] at hx
      obtain ⟨y, hy, rfl⟩ := map_eq_some_elim hx
      rw [(linkTo_fields l p i y).2.2.2.1] at ha
      have hlast : l.getLast? ≠ some i := by
        intro e
        obtain ⟨z, hz, hza, -⟩ := (hl.mem_iff i).1 (List.mem_of_getLast?_eq_some e)
        rw [hy] at hz
        cases hz
        rw [ha] at hza
        cases hza
      rw [linkTo_of_not_last y hlast]
      exact hc.dead_links i y hy ha
  pool_nodup := hc.pool_nodup.sublist (List.tail_sublist _)
  pool_mem := by
    intro j
    show j ∈ g.recentlyDead.tail ↔ ∃ (i : Nat) (x : Person), j = i ∧ ps2[i]? = some x ∧ _
    constructor
    · intro hj
      obtain ⟨i, y, rfl, hy, hdead⟩ := (hc.pool_mem j).1 (List.mem_of_mem_tail hj)
      have hip : i ≠ p := by
        rintro rfl
        cases hpool : g.recentlyDead with
        | nil => simp [hpool] at hj
        | cons j0 rest =>
          have hnd := hc.pool_nodup
          rw [hpool] at hj hnd
          rw [(hf.reused j0 rest hpool).1] at hnd
          exact (List.nodup_cons.1 hnd).1 hj
      refine ⟨i, _, rfl, by rw [hf.at_old i hip, hy]; rfl, ?_⟩
      rw [(linkTo_fields l p i y).2.2.2.1]
      exact hdead
    · rintro ⟨i, x, rfl, hx, hdead⟩
      have hip : i ≠ p := by
        rintro rfl
        rw [hf.at_new] at hx
        cases hx
        simp at hdead
      rw [hf.at_old i hip] at hx
      obtain ⟨y, hy, rfl⟩ := map_eq_some_elim hx
      rw [(linkTo_fields l p i y).2.2.2.1] at hdead
      have hmem := (hc.pool_mem i).2 ⟨i, y, rfl, hy, hdead⟩
      cases hpool : g.recentlyDead with
      | nil => simp [hpool] at hmem
      | cons j0 rest =>
        rw [hpool] at hmem
        rcases List.mem_cons.1 hmem with h | h
        · rw [(hf.reused j0 rest hpool).1] at h
          exact absurd (Int.ofNat.inj h) hip
        · exact h
  pop_pool := by
    show g.pop + 1 + (g.recentlyDead.tail.length : Int) = (ps2.length : Int)
    have := hc.pop_pool
    cases hpool : g.recentlyDead with
    | nil =>
      rw [(hf.fresh hpool).2]
      simp [hpool] at this ⊢
      omega
    | cons j0 rest =>
      rw [(hf.reused j0 rest hpool).2]
      simp [hpool] at this ⊢
      omega

/-- Method `members` on a cell whose list is a chain without repetition. -/
theorem members_of_chain {g : GridWorld} {r c : Int} {d : District} {l : List Nat}
    (hb : g.inBounds r c) (hd : cellAt g.grid r c = some (some d))
    (hch : Chain g.populationn none l d.head) (hnd : l.Nodup)
    (hid : ∀ i ∈ l, ∀ x, g.populationn[i]? = some x → x.id = (i : Int)) :
    g.members r c = some (l.map Int.ofNat) := by
  have := walk_of_chain g.populationn.length hch hid (hch.length_le hnd)
  simp [members, hb, hd, this]

theorem members_of_cellOK {g : GridWorld} (hc : g.Consistent) {r c : Int} {d : District}
    {l : List Nat} (hb : g.inBounds r c) (hd : cellAt g.grid r c = some (some d))
    (hl : CellOK g r c d l) : g.members r c = some (l.map Int.ofNat) :=
  members_of_chain hb hd hl.chain hl.nodup fun i _ x hx => hc.ids i x hx

theorem members_out_of_bounds {g : GridWorld} {r c : Int} (hb : ¬ g.inBounds r c) :
    g.members r c = some [] := by
  simp [members, hb]

theorem populationAt_of_cell {g : GridWorld} {r c : Int} {d : District}
    (hb : g.inBounds r c) (hd : cellAt g.grid r c = some (some d)) :
    g.populationAt r c = some d.pop := by
  simp [populationAt, hb, hd]

theorem populationAt_out_of_bounds {g : GridWorld} {r c : Int} (hb : ¬ g.inBounds r c) :
    g.populationAt r c = some 0 := by
  simp [populationAt, hb]

/-! ## `death` on a consistent state -/

theorem relink_of_not_adjacent {l1 l2 : List Nat} {k : Nat} (y : Person)
    (h1 : l1.getLast? ≠ some k) (h2 : l2.head? ≠ some k) : relink l1 l2 k y = y := by
  cases y
  simp [relink, h1, h2]

/-- Lines 125-136 when the list of `d` is the chain `l1 ++ i :: l2`. -/
theorem unlink_spec {ps : List Person} {d : District} {i : Nat} {l1 l2 : List Nat}
    (hch : Chain ps none (l1 ++ i :: l2) d.head)
    (htl : d.tail = (l1 ++ i :: l2).getLast?) (hnd : (l1 ++ i :: l2).Nodup) :
    ∃ ps1, unlink ps d i =
        some (ps1, { d with head := (l1 ++ l2).head?, tail := (l1 ++ l2).getLast? }) ∧
      ps1.length = ps.length ∧ ps1[i]? = ps[i]? ∧
      ∀ k, k ≠ i → ps1[k]? = (ps[k]?).map (relink l1 l2 k) := by
  have hhd := hch.head_eq
  obtain ⟨x, hx, hxn, hxp⟩ := hch.links_at
  simp only [lastOr, Option.or_none] at hxp
  obtain ⟨hnd1, hnd2, hdisj⟩ := List.nodup_append.1 hnd
  obtain ⟨hi2, hnd2⟩ := List.nodup_cons.1 hnd2
  have hi1 : i ∉ l1 := fun h => hdisj h (List.mem_cons_self _ _)
  have hd12 : ∀ u ∈ l1, u ∉ l2 := fun u hu hu2 => hdisj hu (List.mem_cons_of_mem _ hu2)
  by_cases hl1 : l1 = []
  · subst hl1
    simp only [List.nil_append, List.head?_cons] at hhd htl hch hnd ⊢
    cases l2 with
    | nil =>
      simp only [List.getLast?_singleton] at htl
      refine ⟨ps, by simp [unlink, hhd, htl], rfl, rfl, fun k hk => ?_⟩
      cases ps[k]? <;> simp [relink]
    | cons b l2 =>
      have hne : b :: l2 ≠ [] := List.cons_ne_nil _ _
      rw [List.getLast?_cons_cons, List.getLast?_eq_getLast _ hne] at htl
      have hti : (b :: l2).getLast hne ≠ i := fun e => hi2 (e ▸ List.getLast_mem hne)
      have hbi : b ≠ i := fun e => hi2 (e ▸ List.mem_cons_self _ _)
      obtain ⟨z, hz⟩ := hch.get_of_mem b (by simp)
      simp only [List.head?_cons] at hxn
      refine ⟨ps.set b { z with prev := none }, ?_, by simp, ?_, fun k hk => ?_⟩
      · have : ¬ i = (b :: l2).getLast hne := fun e => hti e.symm
        simp [unlink, hhd, htl, this, deref, hx, hxn, update_some hz,
          List.getLast?_eq_getLast _ hne]
      · rw [getElem?_set_of_some hz, if_neg (Ne.symm hbi)]
      · rw [getElem?_set_of_some hz]
        by_cases hkb : k = b
        · subst hkb
          simp [hz, relink]
        · have : ¬ b = k := fun e => hkb e.symm
          rw [if_neg hkb]
          cases ps[k]? <;> simp [relink, this]
  · have hh0 : (l1 ++ i :: l2).head? = l1.head? := List.head?_append_of_ne_nil _ hl1
    rw [hh0] at hhd
    obtain ⟨h0, hh0e⟩ : ∃ h0, l1.head? = some h0 := by
      cases l1 with
      | nil => exact absurd rfl hl1
      | cons u l1 => exact ⟨u, rfl⟩
    have hh0m : h0 ∈ l1 := List.mem_of_mem_head? hh0e
    have hh0i : h0 ≠ i := fun e => hi1 (e ▸ hh0m)
    have hae := List.getLast?_eq_getLast _ hl1
    set a := l1.getLast hl1 with hadef
    have ham : a ∈ l1 := List.getLast_mem hl1
    have hai : a ≠ i := fun e => hi1 (e ▸ ham)
    obtain ⟨w, hw⟩ := hch.get_of_mem a (by simp [ham])
    rw [hae] at hxp
    have hhd1 : (l1 ++ l2).head? = some h0 := by
      rw [List.head?_append_of_ne_nil _ hl1, hh0e]
    cases l2 with
    | nil =>
      have htl0 : d.tail = some i := by
        rw [htl, List.getLast?_append, List.getLast?_singleton]; rfl
      simp only [List.head?_nil] at hxn
      refine ⟨ps.set a { w with next := none }, ?_, by simp, ?_, fun k hk => ?_⟩
      · have h1 : ¬ h0 = i := hh0i
        simp [unlink, hhd, hh0e, htl0, h1, deref, hx, hxp, update_some hw, hae]
      · rw [getElem?_set_of_some hw, if_neg (Ne.symm hai)]
      · rw [getElem?_set_of_some hw]
        by_cases hka : k = a
        · subst hka
          simp [hw, relink, hae]
        · have : ¬ a = k := fun e => hka e.symm
          rw [if_neg hka]
          cases ps[k]? <;> simp [relink, hae, this]
    | cons b l2 =>
      have hne : b :: l2 ≠ [] := List.cons_ne_nil _ _
      have hte := List.getLast?_eq_getLast _ hne
      set t := (b :: l2).getLast hne with htdef
      have htm : t ∈ b :: l2 := List.getLast_mem hne
      have hti : t ≠ i := fun e => hi2 (e ▸ htm)
      have hbi : b ≠ i := fun e => hi2 (e ▸ List.mem_cons_self _ _)
      have hab : a ≠ b := fun e => hd12 a ham (e ▸ List.mem_cons_self _ _)
      have hh0t : h0 ≠ t := fun e => hd12 h0 hh0m (e ▸ htm)
      have htl1 : d.tail = some t := by
        rw [htl, List.getLast?_append, List.getLast?_cons_cons, hte]; rfl
      obtain ⟨z, hz⟩ := hch.get_of_mem b (by simp)
      simp only [List.head?_cons] at hxn
      have hx1 : (ps.set a { w with next := some b })[i]? = some x := by
        rw [getElem?_set_of_some hw, if_neg (Ne.symm hai), hx]
      have hz1 : (ps.set a { w with next := some b })[b]? = some z := by
        rw [getElem?_set_of_some hw, if_neg (Ne.symm hab), hz]
      refine ⟨(ps.set a { w with next := some b }).set b { z with prev := some a }, ?_,
        by simp, ?_, fun k hk => ?_⟩
      · have h1 : ¬ h0 = i := hh0i
        have h2 : ¬ t = i := hti
        have h3 : ¬ h0 = t := hh0t
        simp [unlink, hhd, hh0e, htl1, h1, h2, h3, hx, hxp, hxn, update_some hw, hx1,
          update_some hz1, hae, hte]
        cases d
        simp_all
      · rw [getElem?_set_of_some hz1, if_neg (Ne.symm hbi), hx1, hx]
      · rw [getElem?_set_of_some hz1, getElem?_set_of_some hw]
        by_cases hkb : k = b
        · subst hkb
          have : ¬ a = k := hab
          simp [hz, relink, hae, this]
        · rw [if_neg hkb]
          have hbk : ¬ b = k := fun e => hkb e.symm
          by_cases hka : k = a
          · subst hka
            simp [hw, relink, hae, hbk]
          · have : ¬ a = k := fun e => hka e.symm
            rw [if_neg hka]
            cases ps[k]? <;> simp [relink, hae, this, hbk]

/-- An alive slot of a consistent state lies on the chain of the cell it is recorded at. -/
theorem Consistent.cell_of_alive {g : GridWorld} (hc : g.Consistent) {i : Nat} {x : Person}
    (hx : g.populationn[i]? = some x) (ha : x.alive = true) :
    g.inBounds x.row x.col ∧ ∃ (d : District) (l1 l2 : List Nat),
      cellAt g.grid x.row x.col = some (some d) ∧
      CellOK g x.row x.col d (l1 ++ i :: l2) := by
  have hb := hc.alive_inb i x hx ha
  obtain ⟨d, l, hd, hl⟩ := hc.cells x.row x.col hb
  have hm : i ∈ l := (hl.mem_iff i).2 ⟨x, hx, ha, rfl, rfl⟩
  obtain ⟨l1, l2, rfl⟩ := List.append_of_mem hm
  exact ⟨hb, d, l1, l2, hd, hl⟩

theorem relink_fields (l1 l2 : List Nat) (k : Nat) (y : Person) :
    (relink l1 l2 k y).id = y.id ∧ (relink l1 l2 k y).row = y.row ∧
    (relink l1 l2 k y).col = y.col ∧ (relink l1 l2 k y).alive = y.alive :=
  ⟨rfl, rfl, rfl, rfl⟩

/-- Method `death` on a consistent state, for an alive slot `i` whose cell has the chain
`l1 ++ i :: l2`: the call returns `true` and leaves the state `afterDeath`. -/
theorem death_spec {g : GridWorld} (hc : g.Consistent) {i : Nat} {x : Person}
    (hx : g.populationn[i]? = some x) {d : District} {l1 l2 : List Nat}
    (hd : cellAt g.grid x.row x.col = some (some d))
    (hl : CellOK g x.row x.col d (l1 ++ i :: l2)) :
    ∃ ps2 : List Person,
      g.death i = some (true, afterDeath g x d l1 l2 i ps2) ∧
      DeathFacts g i x l1 l2 ps2 := by
  obtain ⟨ps1, hun, hlen, hi1, hk1⟩ := unlink_spec hl.chain hl.tail_eq hl.nodup
  have hx1 : ps1[i]? = some x := hi1.trans hx
  have hi : i < g.populationn.length := (List.getElem?_eq_some_iff.1 hx).1
  refine ⟨ps1.set i { x with alive := false, next := none, prev := none }, ?_,
    by simpa using hlen, ?_, fun k hk => ?_⟩
  · simp [death, hi, hx, hd, hun, update_some hx1, hc.ids i x hx, afterDeath]
  · rw [getElem?_set_of_some hx1, if_pos rfl]
  · rw [getElem?_set_of_some hx1, if_neg hk, hk1 k hk]

/-- The parts of a chain around one of its slots. -/
theorem nodup_split {l1 l2 : List Nat} {i : Nat} (hnd : (l1 ++ i :: l2).Nodup) :
    i ∉ l1 ∧ i ∉ l2 ∧ (l1 ++ l2).Nodup := by
  obtain ⟨hnd1, hnd2, hdisj⟩ := List.nodup_append.1 hnd
  obtain ⟨hil2, hnd2⟩ := List.nodup_cons.1 hnd2
  exact ⟨fun h => hdisj h (List.mem_cons_self _ _), hil2,
    List.nodup_append.2 ⟨hnd1, hnd2, fun u hu hu2 => hdisj hu (List.mem_cons_of_mem _ hu2)⟩⟩

/-- After `death` the list of the cell is the old chain without the slot. -/
theorem afterDeath_cell_target {g : GridWorld} {i : Nat} {x : Person} {d : District}
    {l1 l2 : List Nat} (hd : cellAt g.grid x.row x.col = some (some d))
    (hl : CellOK g x.row x.col d (l1 ++ i :: l2)) {ps2 : List Person}
    (hf : DeathFacts g i x l1 l2 ps2) :
    ∃ d1, cellAt (afterDeath g x d l1 l2 i ps2).grid x.row x.col = some (some d1) ∧
      d1.pop = d.pop - 1 ∧
      CellOK (afterDeath g x d l1 l2 i ps2) x.row x.col d1 (l1 ++ l2) := by
  obtain ⟨hil1, hil2, hnd⟩ := nodup_split hl.nodup
  have hki : ∀ k ∈ l1 ++ l2, k ≠ i := by
    rintro k hk rfl
    rcases List.mem_append.1 hk with h | h
    · exact hil1 h
    · exact hil2 h
  refine ⟨_, cellAt_setCell_same hd _, rfl, ?_, rfl, hnd, ?_, ?_⟩
  · show Chain ps2 none (l1 ++ l2) (l1 ++ l2).head?
    have : Chain ps2 none (l1 ++ l2) (if l1 = [] then l2.head? else d.head) :=
      Chain.remove hl.chain hl.nodup (fun k hk y hy => by
      rw [hf.at_old k (hki k hk), hy]
      exact ⟨_, rfl, rfl, by simp [relink, lastOr]⟩)
    by_cases hl1 : l1 = []
    · subst hl1
      simpa using this
    · rw [if_neg hl1, hl.chain.head_eq, List.head?_append_of_ne_nil _ hl1] at this
      rwa [List.head?_append_of_ne_nil _ hl1]
  · intro k
    show k ∈ l1 ++ l2 ↔ ∃ y, ps2[k]? = some y ∧ _
    have hmem := hl.mem_iff k
    by_cases hk : k = i
    · subst hk
      constructor
      · intro h
        exact absurd rfl (hki k h)
      · rintro ⟨y, hy, ha, -⟩
        rw [hf.at_dead] at hy
        cases hy
        simp at ha
    · rw [hf.at_old k hk]
      constructor
      · intro h
        obtain ⟨y, hy, hy2⟩ := hmem.1 (by
          rcases List.mem_append.1 h with h | h
          · exact List.mem_append_left _ h
          · exact List.mem_append_right _ (List.mem_cons_of_mem _ h))
        exact ⟨relink l1 l2 k y, by rw [hy]; rfl, hy2⟩
      · rintro ⟨y, hy, hy2⟩
        obtain ⟨z, hz, rfl⟩ := map_eq_some_elim hy
        have := hmem.2 ⟨z, hz, hy2⟩
        rcases List.mem_append.1 this with h | h
        · exact List.mem_append_left _ h
        · rcases List.mem_cons.1 h with h | h
          · exact absurd h hk
          · exact List.mem_append_right _ h
  · show d.pop - 1 = ((l1 ++ l2).length : Int)
    rw [hl.pop_eq]
    simp
    omega

/-- After `death` the list of every other cell is as before. -/
theorem afterDeath_cell_other {g : GridWorld} {i : Nat} {x : Person}
    (hb : g.inBounds x.row x.col) {d : District} {l1 l2 : List Nat}
    (hl : CellOK g x.row x.col d (l1 ++ i :: l2)) {ps2 : List Person}
    (hf : DeathFacts g i x l1 l2 ps2) {r c : Int} (hne : (r, c) ≠ (x.row, x.col))
    {d1 : District} {l : List Nat} (hd1 : cellAt g.grid r c = some (some d1))
    (hl1 : CellOK g r c d1 l) :
    cellAt (afterDeath g x d l1 l2 i ps2).grid r c = some (some d1) ∧
      CellOK (afterDeath g x d l1 l2 i ps2) r c d1 l := by
  have hsame : ∀ k ∈ l, ps2[k]? = g.populationn[k]? := by
    intro k hk
    have hkl := hl.disjoint hl1 hne hk
    have hki : k ≠ i := fun e => hkl (by simp [e])
    have h1 : l1.getLast? ≠ some k := fun e =>
      hkl (List.mem_append_left _ (List.mem_of_getLast?_eq_some e))
    have h2 : l2.head? ≠ some k := fun e =>
      hkl (List.mem_append_right _ (List.mem_cons_of_mem _ (List.mem_of_mem_head? e)))
    rw [hf.at_old k hki]
    cases hz : g.populationn[k]? with
    | none => rfl
    | some z => simp [relink_of_not_adjacent z h1 h2]
  refine ⟨by rw [← hd1]; exact cellAt_setCell_ne hb.1 hb.2.2.1 hne _, ?_, hl1.tail_eq,
    hl1.nodup, ?_, hl1.pop_eq⟩
  · exact Chain.congr hl1.chain fun k hk y hy => ⟨y, (hsame k hk).trans hy, rfl, rfl⟩
  · intro k
    show k ∈ l ↔ ∃ y, ps2[k]? = some y ∧ _
    have hmem := hl1.mem_iff k
    by_cases hk : k = i
    · subst hk
      constructor
      · intro h
        exact absurd (List.mem_append_right _ (List.mem_cons_self _ _))
          (hl.disjoint hl1 hne h)
      · rintro ⟨y, hy, ha, -⟩
        rw [hf.at_dead] at hy
        cases hy
        simp at ha
    · rw [hf.at_old k hk]
      constructor
      · intro h
        obtain ⟨y, hy, hy2⟩ := hmem.1 h
        exact ⟨relink l1 l2 k y, by rw [hy]; rfl, hy2⟩
      · rintro ⟨y, hy, hy2⟩
        obtain ⟨z, hz, rfl⟩ := map_eq_some_elim hy
        exact hmem.2 ⟨z, hz, hy2⟩

/-- Method `death` of an alive entity keeps a consistent state consistent. -/
theorem afterDeath_consistent {g : GridWorld} (hc : g.Consistent) {i : Nat} {x : Person}
    (hx : g.populationn[i]? = some x) (ha : x.alive = true) {d : District}
    {l1 l2 : List Nat} (hd : cellAt g.grid x.row x.col = some (some d))
    (hl : CellOK g x.row x.col d (l1 ++ i :: l2)) {ps2 : List Person}
    (hf : DeathFacts g i x l1 l2 ps2) :
    (afterDeath g x d l1 l2 i ps2).Consistent where
  cells := by
    intro r c hb1
    have hb2 : g.inBounds r c := hb1
    by_cases hne : (r, c) = (x.row, x.col)
    · cases hne
      obtain ⟨d1, hd1, -, hl1⟩ := afterDeath_cell_target hd hl hf
      exact ⟨d1, _, hd1, hl1⟩
    · obtain ⟨d1, l, hd1, hl1⟩ := hc.cells r c hb2
      have := afterDeath_cell_other (hc.alive_inb i x hx ha) hl hf hne hd1 hl1
      exact ⟨d1, l, this.1, this.2⟩
  ids := by
    intro k y hy
    change ps2[k]? = some y at hy
    by_cases hk : k = i
    · subst hk
      rw [hf.at_dead] at hy
      cases hy
      exact hc.ids k x hx
    · rw [hf.at_old k hk] at hy
      obtain ⟨z, hz, rfl⟩ := map_eq_some_elim hy
      exact hc.ids k z hz
  alive_inb := by
    intro k y hy hya
    change ps2[k]? = some y at hy
    show g.inBounds y.row y.col
    by_cases hk : k = i
    · subst hk
      rw [hf.at_dead] at hy
      cases hy
      simp at hya
    · rw [hf.at_old k hk] at hy
      obtain ⟨z, hz, rfl⟩ := map_eq_some_elim hy
      exact hc.alive_inb k z hz hya
  dead_links := by
    intro k y hy hya
    change ps2[k]? = some y at hy
    by_cases hk : k = i
    · subst hk
      rw [hf.at_dead] at hy
      cases hy
      exact ⟨rfl, rfl⟩
    · rw [hf.at_old k hk] at hy
      obtain ⟨z, hz, rfl⟩ := map_eq_some_elim hy
      have hza : z.alive = false := hya
      have hkl : k ∉ l1 ++ i :: l2 := by
        intro hm
        obtain ⟨w, hw, hwa, -⟩ := (hl.mem_iff k).1 hm
        rw [hz] at hw
        cases hw
        rw [hza] at hwa
        cases hwa
      have h1 : l1.getLast? ≠ some k := fun e =>
        hkl (List.mem_append_left _ (List.mem_of_getLast?_eq_some e))
      have h2 : l2.head? ≠ some k := fun e =>
        hkl (List.mem_append_right _ (List.mem_cons_of_mem _ (List.mem_of_mem_head? e)))
      rw [relink_of_not_adjacent z h1 h2]
      exact hc.dead_links k z hz hza
  pool_nodup := by
    show (g.recentlyDead ++ [(i : Int)]).Nodup
    rw [List.nodup_append]
    refine ⟨hc.pool_nodup, List.nodup_singleton _, ?_⟩
    intro j hj hj2
    have hji : j = (i : Int) := by simpa using hj2
    subst hji
    obtain ⟨k, y, hk, hy, hya⟩ := (hc.pool_mem _).1 hj
    have : i = k := Int.ofNat.inj hk
    subst this
    rw [hx] at hy
    cases hy
    rw [ha] at hya
    cases hya
  pool_mem := by
    intro j
    show j ∈ g.recentlyDead ++ [(i : Int)] ↔
      ∃ (k : Nat) (y : Person), j = k ∧ ps2[k]? = some y ∧ _
    constructor
    · intro hj
      rcases List.mem_append.1 hj with h | h
      · obtain ⟨k, y, rfl, hy, hya⟩ := (hc.pool_mem j).1 h
        have hk : k ≠ i := by
          rintro rfl
          rw [hx] at hy
          cases hy
          rw [ha] at hya
          cases hya
        exact ⟨k, relink l1 l2 k y, rfl, by rw [hf.at_old k hk, hy]; rfl, hya⟩
      · have hji : j = (i : Int) := by simpa using h
        exact ⟨i, _, hji, hf.at_dead, rfl⟩
    · rintro ⟨k, y, rfl, hy, hya⟩
      by_cases hk : k = i
      · subst hk
        simp
      · rw [hf.at_old k hk] at hy
        obtain ⟨z, hz, rfl⟩ := map_eq_some_elim hy
        exact List.mem_append_left _ ((hc.pool_mem k).2 ⟨k, z, rfl, hz, hya⟩)
  pop_pool := by
    show g.pop - 1 + ((g.recentlyDead ++ [(i : Int)]).length : Int) = (ps2.length : Int)
    have := hc.pop_pool
    rw [hf.length_eq]
    simp
    omega

/-! ## Outcome of `birth` and of `death` on a consistent state -/

theorem members_congr_of_cell {g g1 : GridWorld} (hc : g.Consistent) (hc1 : g1.Consistent)
    (hr : g1.nrows = g.nrows) (hcl : g1.ncols = g.ncols) {r c : Int}
    (h : ∀ d l, cellAt g.grid r c = some (some d) → CellOK g r c d l →
      cellAt g1.grid r c = some (some d) ∧ CellOK g1 r c d l) :
    g1.members r c = g.members r c := by
  have hbb : g1.inBounds r c ↔ g.inBounds r c := by simp [inBounds, hr, hcl]
  by_cases hb : g.inBounds r c
  · obtain ⟨d, l, hd, hl⟩ := hc.cells r c hb
    obtain ⟨hd1, hl1⟩ := h d l hd hl
    rw [members_of_cellOK hc hb hd hl, members_of_cellOK hc1 (hbb.2 hb) hd1 hl1]
  · rw [members_out_of_bounds hb, members_out_of_bounds (fun h1 => hb (hbb.1 h1))]

theorem populationAt_congr {g g1 : GridWorld} {r c : Int} (hr : g1.nrows = g.nrows)
    (hcl : g1.ncols = g.ncols) (hcell : cellAt g1.grid r c = cellAt g.grid r c) :
    g1.populationAt r c = g.populationAt r c := by
  simp [populationAt, inBounds, hr, hcl, hcell]

/-- Method `birth` on a consistent state, at a cell inside the grid, returns `true`; what
it does is collected in `BirthOutcome`. -/
theorem birth_outcome {g : GridWorld} (hc : g.Consistent) {row col : Int}
    (hb : g.inBounds row col) (id0 : Int) :
    ∃ (p : Nat) (g1 : GridWorld),
      g.birth row col id0 = some (true, (p : Int), g1) ∧ BirthOutcome g row col p g1 := by
  obtain ⟨d, l, hd, hl⟩ := hc.cells row col hb
  obtain ⟨p, ps2, hbirth, hf⟩ := birth_spec hc hb hd hl id0
  have hc1 := afterBirth_consistent hc hb hd hl hf
  obtain ⟨d1, hd1, hpop1, hl1⟩ := afterBirth_cell_target hd hl hf
  have hb1 : (afterBirth g row col d l p ps2).inBounds row col := hb
  refine ⟨p, _, hbirth, hc1, rfl, rfl, rfl, rfl, hf.fresh, hf.reused, hf.not_alive,
    ⟨_, hf.at_new, rfl, rfl, rfl⟩, ?_, ?_, ?_, ?_, ?_⟩
  · intro k r c hk
    show (∃ x, ps2[k]? = some x ∧ _) ↔ _
    rw [hf.at_old k hk]
    constructor
    · rintro ⟨x, hx, hx2⟩
      obtain ⟨y, hy, rfl⟩ := map_eq_some_elim hx
      have := linkTo_fields l p k y
      rw [this.2.2.2.1, this.2.1, this.2.2.1] at hx2
      exact ⟨y, hy, hx2⟩
    · rintro ⟨y, hy, hy2⟩
      have := linkTo_fields l p k y
      exact ⟨linkTo l p k y, by rw [hy]; rfl,
        by rw [this.2.2.2.1, this.2.1, this.2.2.1]; exact hy2⟩
  · refine ⟨l.map Int.ofNat, members_of_cellOK hc hb hd hl, ?_⟩
    rw [members_of_cellOK hc1 hb1 hd1 hl1]
    simp
  · intro r c hne
    exact members_congr_of_cell hc hc1 rfl rfl fun d2 l2 hd2 hl2 =>
      afterBirth_cell_other hb hl hf hne hd2 hl2
  · exact ⟨d.pop, populationAt_of_cell hb hd, by
      rw [populationAt_of_cell hb1 hd1, hpop1]⟩
  · intro r c hne
    exact populationAt_congr rfl rfl (cellAt_setCell_ne hb.1 hb.2.2.1 hne _)

/-- Method `death` on a consistent state, for an alive entity, returns `true`; what it
does is collected in `DeathOutcome`. -/
theorem death_outcome {g : GridWorld} (hc : g.Consistent) {i : Nat} {r c : Int}
    (h : g.RecordedAt i r c) :
    ∃ g1 : GridWorld, g.death i = some (true, g1) ∧ DeathOutcome g i r c g1 := by
  obtain ⟨x, hx, ha, rfl, rfl⟩ := h
  obtain ⟨hb, d, l1, l2, hd, hl⟩ := hc.cell_of_alive hx ha
  obtain ⟨ps2, hdeath, hf⟩ := death_spec hc hx hd hl
  have hc1 := afterDeath_consistent hc hx ha hd hl hf
  obtain ⟨d1, hd1, hpop1, hl1⟩ := afterDeath_cell_target hd hl hf
  have hb1 : (afterDeath g x d l1 l2 i ps2).inBounds x.row x.col := hb
  obtain ⟨hil1, hil2, -⟩ := nodup_split hl.nodup
  have hinj : Function.Injective Int.ofNat := fun a b h => Int.ofNat.inj h
  refine ⟨_, hdeath, hc1, rfl, rfl, rfl, rfl, hf.length_eq, ⟨_, hf.at_dead, rfl⟩,
    ?_, ?_, ?_, ?_, ?_⟩
  · intro k r c hk
    show (∃ y, ps2[k]? = some y ∧ _) ↔ _
    rw [hf.at_old k hk]
    constructor
    · rintro ⟨y, hy, hy2⟩
      obtain ⟨z, hz, rfl⟩ := map_eq_some_elim hy
      exact ⟨z, hz, hy2⟩
    · rintro ⟨y, hy, hy2⟩
      exact ⟨relink l1 l2 k y, by rw [hy]; rfl, hy2⟩
  · refine ⟨(l1 ++ i :: l2).map Int.ofNat, members_of_cellOK hc hb hd hl, ?_, ?_⟩
    · exact List.count_eq_one_of_mem (hl.nodup.map hinj) (List.mem_map_of_mem _ (by simp))
    · rw [members_of_cellOK hc1 hb1 hd1 hl1]
      congr 1
      have hnm : (Int.ofNat i) ∉ l1.map Int.ofNat := fun h =>
        hil1 ((List.mem_map_of_injective hinj).1 h)
      rw [List.map_append, List.map_append, List.map_cons]
      change _ =
        (List.map Int.ofNat l1 ++ Int.ofNat i :: List.map Int.ofNat l2).erase (Int.ofNat i)
      rw [List.erase_append_right _ hnm, List.erase_cons_head]
  · intro r c hne
    exact members_congr_of_cell hc hc1 rfl rfl fun d2 l hd2 hl2 =>
      afterDeath_cell_other hb hl hf hne hd2 hl2
  · exact ⟨d.pop, populationAt_of_cell hb hd, by
      rw [populationAt_of_cell hb1 hd1, hpop1]⟩
  · intro r c hne
    exact populationAt_congr rfl rfl (cellAt_setCell_ne hb.1 hb.2.2.1 hne _)

/-! ## A concrete consistent state -/

theorem trio_reachable : Reachable trio :=
  ⟨1, 1, _, [.birth 0 0 0, .birth 0 0 0, .birth 0 0 0], rfl, rfl⟩

theorem trio_consistent : Consistent trio where
  cells := by
    intro r c hb
    have hr : r = 0 := by have := hb.1; have := hb.2.1; simp [trio] at *; omega
    have hcl : c = 0 := by have := hb.2.2.1; have := hb.2.2.2; simp [trio] at *; omega
    subst hr hcl
    refine ⟨⟨0, 0, 3, some 0, some 2⟩, [0, 1, 2], rfl, ?_, rfl, by decide, ?_, rfl⟩
    · exact ⟨rfl, _, rfl, rfl, rfl, _, rfl, rfl, rfl, _, rfl, rfl, rfl⟩
    · intro i
      match i with
      | 0 => simp [trio]
      | 1 => simp [trio]
      | 2 => simp [trio]
      | n + 3 => simp [trio]
  ids := by
    intro i x hx
    match i with
    | 0 => simp [trio] at hx; subst hx; rfl
    | 1 => simp [trio] at hx; subst hx; rfl
    | 2 => simp [trio] at hx; subst hx; rfl
    | n + 3 => simp [trio] at hx
  alive_inb := by
    intro i x hx _
    match i with
    | 0 => simp [trio] at hx; subst hx; decide
    | 1 => simp [trio] at hx; subst hx; decide
    | 2 => simp [trio] at hx; subst hx; decide
    | n + 3 => simp [trio] at hx
  dead_links := by
    intro i x hx hd
    match i with
    | 0 => simp [trio] at hx; subst hx; simp at hd
    | 1 => simp [trio] at hx; subst hx; simp at hd
    | 2 => simp [trio] at hx; subst hx; simp at hd
    | n + 3 => simp [trio] at hx
  pool_nodup := by simp [trio]
  pool_mem := by
    intro j
    constructor
    · intro h
      simp [trio] at h
    · rintro ⟨i, x, -, hx, hd⟩
      match i with
      | 0 => simp [trio] at hx; subst hx; simp at hd
      | 1 => simp [trio] at hx; subst hx; simp at hd
      | 2 => simp [trio] at hx; subst hx; simp at hd
      | n + 3 => simp [trio] at hx
  pop_pool := by simp [trio]

theorem oneCell_consistent : Consistent oneCell where
  cells := by
    intro r c hb
    have hr : r = 0 := by have := hb.1; have := hb.2.1; simp [oneCell] at *; omega
    have hcl : c = 0 := by have := hb.2.2.1; have := hb.2.2.2; simp [oneCell] at *; omega
    subst hr hcl
    exact ⟨⟨0, 0, 0, none, none⟩, [], rfl, rfl, rfl, List.nodup_nil,
      fun i => by simp [oneCell], rfl⟩
  ids := by intro i x hx; simp [oneCell] at hx
  alive_inb := by intro i x hx; simp [oneCell] at hx
  dead_links := by intro i x hx; simp [oneCell] at hx
  pool_nodup := by simp [oneCell]
  pool_mem := by intro j; simp [oneCell]
  pop_pool := by simp [oneCell]

/-! ## Runs of `birth` -/

theorem BirthOutcome.bounds_kept {g g1 : GridWorld} {row col : Int} {p : Nat}
    (h : BirthOutcome g row col p g1) (r c : Int) : g1.inBounds r c ↔ g.inBounds r c := by
  simp [inBounds, h.nrows_eq, h.ncols_eq]

theorem DeathOutcome.bounds_same {g g1 : GridWorld} {r c : Int} {i : Nat}
    (h : DeathOutcome g i r c g1) (r1 c1 : Int) :
    g1.inBounds r1 c1 ↔ g.inBounds r1 c1 := by
  simp [inBounds, h.nrows_eq, h.ncols_eq]

/-- Calls of `birth` at cells inside the grid all return, keep the state consistent, and
use up the pool from its front, one entry per call. -/
theorem run_birthCalls {g : GridWorld} (hc : g.Consistent) :
    ∀ (cells : List (Int × Int)), (∀ rc ∈ cells, g.inBounds rc.1 rc.2) →
      ∃ g2, run g (birthCalls cells) = some g2 ∧ g2.Consistent ∧
        g2.nrows = g.nrows ∧ g2.ncols = g.ncols ∧
        g2.recentlyDead = g.recentlyDead.drop cells.length := by
  intro cells
  induction cells generalizing g with
  | nil => intro _; exact ⟨g, rfl, hc, rfl, rfl, rfl⟩
  | cons rc cells ih =>
    intro hin
    obtain ⟨p, g1, hb, ho⟩ := birth_outcome hc (hin rc (List.mem_cons_self _ _)) 0
    obtain ⟨g2, hrun, hc2, hr2, hcl2, hpool2⟩ := ih ho.consistent (fun rc1 h1 =>
      (ho.bounds_kept _ _).2 (hin rc1 (List.mem_cons_of_mem _ h1)))
    refine ⟨g2, ?_, hc2, hr2.trans ho.nrows_eq, hcl2.trans ho.ncols_eq, ?_⟩
    · simp only [birthCalls, List.map_cons, run, step, hb, Option.map_some',
        Option.some_bind]
      exact hrun
    · rw [hpool2, ho.pool_eq, List.length_cons, List.drop_tail]

/-! ## The claims on consistent states -/

/-- Claim C7: on a consistent state, `birth` at a cell inside the grid returns `true`
with an identifier `id`; afterwards `members` of that cell is the former sequence with
`id` appended as last element, and `members` of every other cell is unchanged.  In
particular, starting from an empty cell, creating A, B, C gives `[A, B, C]`, removing B
gives `[A, C]`, and creating D then gives `[A, C, D]`. -/
theorem birth_appends_at_tail (g : GridWorld) (hc : g.Consistent) (row col id0 : Int)
    (hb : g.inBounds row col) :
    (∃ (id : Int) (g1 : GridWorld) (m : List Int),
      g.birth row col id0 = some (true, id, g1) ∧
      g.members row col = some m ∧
      g1.members row col = some (m ++ [id]) ∧
      ∀ r c, (r, c) ≠ (row, col) → g1.members r c = g.members r c) ∧
    (g.members row col = some [] →
      ∃ (A B C D : Int) (gA gB gC gD gE : GridWorld),
        g.birth row col id0 = some (true, A, gA) ∧
        gA.birth row col id0 = some (true, B, gB) ∧
        gB.birth row col id0 = some (true, C, gC) ∧
        gC.members row col = some [A, B, C] ∧
        gC.death B = some (true, gD) ∧
        gD.members row col = some [A, C] ∧
        gD.birth row col id0 = some (true, D, gE) ∧
        gE.members row col = some [A, C, D]) := by
  obtain ⟨a, gA, hA, oA⟩ := birth_outcome hc hb id0
  obtain ⟨m, hm, hmA⟩ := oA.members_target
  refine ⟨⟨a, gA, m, hA, hm, hmA, oA.members_other⟩, fun hempty => ?_⟩
  rw [hempty] at hm
  cases hm
  have hbA := (oA.bounds_kept row col).2 hb
  obtain ⟨b, gB, hB, oB⟩ := birth_outcome oA.consistent hbA id0
  obtain ⟨mA, hmA1, hmB⟩ := oB.members_target
  rw [hmA] at hmA1
  cases hmA1
  have hbB := (oB.bounds_kept row col).2 hbA
  obtain ⟨c, gC, hC, oC⟩ := birth_outcome oB.consistent hbB id0
  obtain ⟨mB, hmB1, hmC⟩ := oC.members_target
  rw [hmB] at hmB1
  cases hmB1
  have hbC := (oC.bounds_kept row col).2 hbB
  have hbc : b ≠ c := by
    rintro rfl
    obtain ⟨x, hx, ha, -⟩ := oB.recorded
    exact oC.not_alive ⟨x, hx, ha⟩
  have hrec : gC.RecordedAt b row col := (oC.recorded_old b row col hbc).2 oB.recorded
  obtain ⟨gD, hD, oD⟩ := death_outcome oC.consistent hrec
  obtain ⟨mC, hmC1, hcount, hmD⟩ := oD.members_target
  rw [hmC] at hmC1
  cases hmC1
  have hab : (a : Int) ≠ (b : Int) := by
    intro e
    rw [e] at hcount
    simp [List.count_cons] at hcount
  have herase : ([] ++ [(a : Int)] ++ [(b : Int)] ++ [(c : Int)]).erase (b : Int) =
      [(a : Int), (c : Int)] := by
    simp [List.erase_cons, hab]
  rw [herase] at hmD
  have hbD := (oD.bounds_same row col).2 hbC
  obtain ⟨d, gE, hE, oE⟩ := birth_outcome oD.consistent hbD id0
  obtain ⟨mD, hmD1, hmE⟩ := oE.members_target
  rw [hmD] at hmD1
  cases hmD1
  exact ⟨a, b, c, d, gA, gB, gC, gD, gE, hA, hB, hC, by simpa using hmC, hD, hmD, hE,
    by simpa using hmE⟩

/-- Instance of `birth_appends_at_tail` on the 1x1 grid right after construction. -/
theorem birth_appends_at_tail_witness :
    oneCell.Consistent ∧ oneCell.inBounds 0 0 ∧ oneCell.members 0 0 = some [] ∧
    ((∃ (id : Int) (g1 : GridWorld) (m : List Int),
      oneCell.birth 0 0 0 = some (true, id, g1) ∧
      oneCell.members 0 0 = some m ∧
      g1.members 0 0 = some (m ++ [id]) ∧
      ∀ r c, (r, c) ≠ ((0 : Int), (0 : Int)) → g1.members r c = oneCell.members r c) ∧
    (oneCell.members 0 0 = some [] →
      ∃ (A B C D : Int) (gA gB gC gD gE : GridWorld),
        oneCell.birth 0 0 0 = some (true, A, gA) ∧
        gA.birth 0 0 0 = some (true, B, gB) ∧
        gB.birth 0 0 0 = some (true, C, gC) ∧
        gC.members 0 0 = some [A, B, C] ∧
        gC.death B = some (true, gD) ∧
        gD.members 0 0 = some [A, C] ∧
        gD.birth 0 0 0 = some (true, D, gE) ∧
        gE.members 0 0 = some [A, C, D])) :=
  ⟨oneCell_consistent, by decide, rfl,
    birth_appends_at_tail oneCell oneCell_consistent 0 0 0 (by decide)⟩

/-- Claim C8: on a consistent state, `death` of an alive identifier residing in cell
`(r, c)` returns `true`; the identifier occurred once in `members(r, c)`, and afterwards
`members(r, c)` is the former sequence with that occurrence deleted and the others in
their former order, wherever the identifier stood (alone, first, last or in between);
`members` of every other cell is unchanged. -/
theorem death_unlinks_one_member (g : GridWorld) (hc : g.Consistent) (i : Nat) (r c : Int)
    (h : g.RecordedAt i r c) :
    ∃ (g1 : GridWorld) (m : List Int),
      g.death i = some (true, g1) ∧
      g.members r c = some m ∧ m.count (i : Int) = 1 ∧
      g1.members r c = some (m.erase (i : Int)) ∧
      (∀ m1 m2 : List Int, m = m1 ++ (i : Int) :: m2 → g1.members r c = some (m1 ++ m2)) ∧
      ∀ r1 c1, (r1, c1) ≠ (r, c) → g1.members r1 c1 = g.members r1 c1 := by
  obtain ⟨g1, hd, o⟩ := death_outcome hc h
  obtain ⟨m, hm, hcount, hm1⟩ := o.members_target
  refine ⟨g1, m, hd, hm, hcount, hm1, ?_, o.members_other⟩
  rintro m1 m2 rfl
  rw [hm1]
  have hnm : (i : Int) ∉ m1 := by
    intro hmem
    have h1 : 0 < m1.count (i : Int) := List.count_pos_iff.2 hmem
    rw [List.count_append, List.count_cons_self] at hcount
    omega
  rw [List.erase_append_right _ hnm, List.erase_cons_head]

/-- Instance of `death_unlinks_one_member`: the middle one of three entities of a cell. -/
theorem death_unlinks_one_member_witness :
    trio.Consistent ∧ trio.RecordedAt 1 0 0 ∧
    ∃ (g1 : GridWorld) (m : List Int),
      trio.death (1 : Nat) = some (true, g1) ∧
      trio.members 0 0 = some m ∧ m.count ((1 : Nat) : Int) = 1 ∧
      g1.members 0 0 = some (m.erase ((1 : Nat) : Int)) ∧
      (∀ m1 m2 : List Int, m = m1 ++ ((1 : Nat) : Int) :: m2 →
        g1.members 0 0 = some (m1 ++ m2)) ∧
      ∀ r1 c1, (r1, c1) ≠ ((0 : Int), (0 : Int)) → g1.members r1 c1 = trio.members r1 c1 :=
  ⟨trio_consistent, ⟨_, rfl, rfl, rfl, rfl⟩,
    death_unlinks_one_member trio trio_consistent 1 0 0 ⟨_, rfl, rfl, rfl, rfl⟩⟩

/-- Claim C9: on a consistent state, `birth` at a cell inside the grid (so both
dimensions are positive) returns `true`; `population(row, col)` and `population()` each
grow by exactly 1 and `population(r, c)` of every other cell is unchanged. -/
theorem birth_increments_counters (g : GridWorld) (hc : g.Consistent) (row col id0 : Int)
    (hb : g.inBounds row col) :
    0 < g.num_rows ∧ 0 < g.num_cols ∧
    ∃ (id : Int) (g1 : GridWorld) (n : Int),
      g.birth row col id0 = some (true, id, g1) ∧
      g.populationAt row col = some n ∧
      g1.populationAt row col = some (n + 1) ∧
      g1.population = g.population + 1 ∧
      ∀ r c, (r, c) ≠ (row, col) → g1.populationAt r c = g.populationAt r c := by
  obtain ⟨p, g1, hbirth, o⟩ := birth_outcome hc hb id0
  obtain ⟨n, hn, hn1⟩ := o.cellpop_target
  have h1 := hb.1
  have h2 := hb.2.1
  have h3 := hb.2.2.1
  have h4 := hb.2.2.2
  exact ⟨by unfold num_rows; omega, by unfold num_cols; omega,
    p, g1, n, hbirth, hn, hn1, o.pop_eq, o.cellpop_other⟩

/-- Instance of `birth_increments_counters` on a cell that holds three entities. -/
theorem birth_increments_counters_witness :
    trio.Consistent ∧ trio.inBounds 0 0 ∧ trio.populationAt 0 0 = some 3 ∧
    0 < trio.num_rows ∧ 0 < trio.num_cols ∧
    ∃ (id : Int) (g1 : GridWorld) (n : Int),
      trio.birth 0 0 0 = some (true, id, g1) ∧
      trio.populationAt 0 0 = some n ∧
      g1.populationAt 0 0 = some (n + 1) ∧
      g1.population = trio.population + 1 ∧
      ∀ r c, (r, c) ≠ ((0 : Int), (0 : Int)) → g1.populationAt r c = trio.populationAt r c :=
  ⟨trio_consistent, by decide, rfl,
    birth_increments_counters trio trio_consistent 0 0 0 (by decide)⟩

/-- Claim C10: on a consistent state, `death` of an alive identifier returns `true`;
`population()` and the population of the identifier's cell each drop by exactly 1, a
following `whereis` of the identifier fails and leaves its outputs alone, and the
identifier is appended to the recycled pool as its newest entry, so that, once the older
entries have been used up by as many calls of `birth`, the next `birth` returns it. -/
theorem death_of_live_entity (g : GridWorld) (hc : g.Consistent) (i : Nat) (r c : Int)
    (h : g.RecordedAt i r c) (r0 c0 : Int) :
    ∃ (g1 : GridWorld) (n : Int),
      g.death i = some (true, g1) ∧
      g1.population = g.population - 1 ∧
      g.populationAt r c = some n ∧ g1.populationAt r c = some (n - 1) ∧
      g1.whereis i r0 c0 = some (false, r0, c0) ∧
      g1.recentlyDead = g.recentlyDead ++ [(i : Int)] ∧
      ∀ (cells : List (Int × Int)) (row col id0 : Int),
        cells.length = g.recentlyDead.length → (∀ rc ∈ cells, g.inBounds rc.1 rc.2) →
        g.inBounds row col →
        ∃ g2 g3, run g1 (birthCalls cells) = some g2 ∧
          g2.birth row col id0 = some (true, (i : Int), g3) := by
  obtain ⟨g1, hd, o⟩ := death_outcome hc h
  obtain ⟨n, hn, hn1⟩ := o.cellpop_target
  refine ⟨g1, n, hd, o.pop_eq, hn, hn1, ?_, o.pool_eq, ?_⟩
  · obtain ⟨x, hx, hdead⟩ := o.dead
    have hi := (List.getElem?_eq_some_iff.1 hx).1
    have : i ≤ g1.populationn.length := by omega
    simp [whereis, this, hx, hdead]
  · intro cells row col id0 hlen hin hb
    obtain ⟨g2, hrun, hc2, hr2, hcl2, hpool2⟩ := run_birthCalls o.consistent cells
      (fun rc hrc => (o.bounds_same _ _).2 (hin rc hrc))
    have hb2 : g2.inBounds row col := by
      have := (o.bounds_same row col).2 hb
      simpa [inBounds, hr2, hcl2] using this
    have hpool : g2.recentlyDead = [(i : Int)] := by
      rw [hpool2, o.pool_eq, hlen, List.drop_left]
    obtain ⟨p, g3, hb3, o3⟩ := birth_outcome hc2 hb2 id0
    have := (o3.reused _ _ hpool).1
    exact ⟨g2, g3, hrun, by rw [this]; exact hb3⟩

/-- Instance of `death_of_live_entity`: the middle one of three entities of a cell. -/
theorem death_of_live_entity_witness :
    trio.Consistent ∧ trio.RecordedAt 1 0 0 ∧
    ∃ (g1 : GridWorld) (n : Int),
      trio.death (1 : Nat) = some (true, g1) ∧
      g1.population = trio.population - 1 ∧
      trio.populationAt 0 0 = some n ∧ g1.populationAt 0 0 = some (n - 1) ∧
      g1.whereis (1 : Nat) 7 7 = some (false, 7, 7) ∧
      g1.recentlyDead = trio.recentlyDead ++ [((1 : Nat) : Int)] ∧
      ∀ (cells : List (Int × Int)) (row col id0 : Int),
        cells.length = trio.recentlyDead.length →
        (∀ rc ∈ cells, trio.inBounds rc.1 rc.2) → trio.inBounds row col →
        ∃ g2 g3, run g1 (birthCalls cells) = some g2 ∧
          g2.birth row col id0 = some (true, ((1 : Nat) : Int), g3) :=
  ⟨trio_consistent, ⟨_, rfl, rfl, rfl, rfl⟩,
    death_of_live_entity trio trio_consistent 1 0 0 ⟨_, rfl, rfl, rfl, rfl⟩ 7 7⟩

/-! ## Every reachable state -/

theorem SameIds.rfl {ps : List Person} : SameIds ps ps :=
  ⟨Eq.refl _, fun _ x h => ⟨x, h, Eq.refl _⟩⟩

theorem SameIds.trans {ps ps1 ps2 : List Person} (h1 : SameIds ps ps1)
    (h2 : SameIds ps1 ps2) : SameIds ps ps2 := by
  refine ⟨h2.1.trans h1.1, fun i x2 hx2 => ?_⟩
  obtain ⟨x1, hx1, e1⟩ := h2.2 i x2 hx2
  obtain ⟨x, hx, e⟩ := h1.2 i x1 hx1
  exact ⟨x, hx, e1.trans e⟩

theorem update_eq_some {ps ps1 : List Person} {p : Option Nat} {f : Person → Person}
    (h : update ps p f = some ps1) :
    ∃ i x, p = some i ∧ ps[i]? = some x ∧ ps1 = ps.set i (f x) := by
  unfold update at h
  cases p with
  | none => simp at h
  | some i =>
    cases hx : ps[i]? with
    | none => simp [hx] at h
    | some x =>
      simp only [hx, Option.some.injEq] at h
      exact ⟨i, x, rfl, hx, h.symm⟩

theorem sameIds_set {ps : List Person} {i : Nat} {x y : Person} (hx : ps[i]? = some x)
    (hy : y.id = x.id) : SameIds ps (ps.set i y) := by
  refine ⟨by simp, fun k z hz => ?_⟩
  rw [getElem?_set_of_some hx] at hz
  by_cases hk : k = i
  · subst hk
    rw [if_pos rfl] at hz
    cases hz
    exact ⟨x, hx, hy⟩
  · rw [if_neg hk] at hz
    exact ⟨z, hz, rfl⟩

theorem sameIds_update {ps ps1 : List Person} {p : Option Nat} {f : Person → Person}
    (h : update ps p f = some ps1) (hf : ∀ x, (f x).id = x.id) : SameIds ps ps1 := by
  obtain ⟨i, x, -, hx, rfl⟩ := update_eq_some h
  exact sameIds_set hx (hf x)

theorem update_returns {ps : List Person} {i : Nat} (hi : i < ps.length)
    (f : Person → Person) : ∃ ps1, update ps (some i) f = some ps1 := by
  have := List.getElem?_eq_getElem hi
  exact ⟨_, update_some this f⟩

/-- Lines 87-98, whatever the state: the two ways the step can return. -/
theorem obtainPerson_eq_some {g : GridWorld} {row col id1 : Int} {p : Nat}
    {ps : List Person} {pool : List Int}
    (h : g.obtainPerson row col = some (id1, p, ps, pool)) :
    (g.recentlyDead = [] ∧ id1 = g.pop ∧ p = g.populationn.length ∧
      ps = g.populationn ++ [Person.mk g.pop row col true none none] ∧ pool = []) ∨
    (∃ x, g.recentlyDead = id1 :: pool ∧ 0 ≤ id1 ∧ p = id1.toNat ∧
      g.populationn[p]? = some x ∧
      ps = g.populationn.set p { x with alive := true, row := row, col := col }) := by
  unfold obtainPerson at h
  cases hpool : g.recentlyDead with
  | nil =>
    simp only [hpool, Option.some.injEq, Prod.mk.injEq] at h
    exact Or.inl ⟨rfl, h.1.symm, h.2.1.symm, h.2.2.1.symm, h.2.2.2.symm⟩
  | cons j rest =>
    simp only [hpool] at h
    split at h
    · rename_i hj
      cases hu : update g.populationn (some j.toNat)
          (fun x => { x with alive := true, row := row, col := col }) with
      | none => simp [hu] at h
      | some ps0 =>
        simp only [hu, Option.map_some', Option.some.injEq, Prod.mk.injEq] at h
        obtain ⟨i, x, hi, hx, rfl⟩ := update_eq_some hu
        cases hi
        obtain ⟨rfl, rfl, rfl, rfl⟩ := h
        exact Or.inr ⟨x, rfl, hj, rfl, hx, rfl⟩
    · simp at h

/-- Lines 99-105, whatever the state: what the step has done when it returns. -/
theorem linkTail_eq_some {ps ps1 : List Person} {d d1 : District} {p : Nat}
    (h : linkTail ps d p = some (ps1, d1)) :
    d1.tail = some p ∧ d1.head ≠ none ∧ SameIds ps ps1 := by
  unfold linkTail at h
  cases hh : d.head with
  | none =>
    simp only [hh, Option.some.injEq, Prod.mk.injEq] at h
    obtain ⟨rfl, rfl⟩ := h
    exact ⟨rfl, by simp, SameIds.rfl⟩
  | some a =>
    simp only [hh] at h
    cases h1 : update ps d.tail (fun x => { x with next := some p }) with
    | none => simp [h1] at h
    | some psa =>
      cases h2 : update psa (some p) (fun x => { x with prev := d.tail }) with
      | none => simp [h1, h2] at h
      | some psb =>
        simp [h1, h2] at h
        obtain ⟨rfl, rfl⟩ := h
        exact ⟨rfl, by simp [hh],
          (sameIds_update h1 fun _ => rfl).trans (sameIds_update h2 fun _ => rfl)⟩

theorem linkTail_returns {ps : List Person} {d : District} {p : Nat} (hp : p < ps.length)
    (ht : d.head ≠ none → ∃ t, d.tail = some t ∧ t < ps.length) :
    ∃ r, linkTail ps d p = some r := by
  unfold linkTail
  cases hh : d.head with
  | none => exact ⟨_, rfl⟩
  | some a =>
    obtain ⟨t, htl, hlt⟩ := ht (by simp [hh])
    obtain ⟨psa, h1⟩ := update_returns hlt fun x => { x with next := some p }
    have hlen := (sameIds_update h1 fun _ => rfl).1
    have hp1 : p < psa.length := by omega
    obtain ⟨psb, h2⟩ := update_returns hp1 fun x => { x with prev := d.tail }
    rw [htl] at h2 ⊢
    simp [h1, h2]

/-- Lines 87-98 on a state that is `Sane`: the identifier is the index of the slot used,
which is the size of the table when the pool is empty and the front of the pool
otherwise. -/
theorem obtainPerson_sane {g : GridWorld} (hs : g.Sane) {row col id1 : Int} {p : Nat}
    {ps : List Person} {pool : List Int}
    (h : g.obtainPerson row col = some (id1, p, ps, pool)) :
    p < ps.length ∧ g.populationn.length ≤ ps.length ∧
    (∀ (i : Nat) (x : Person), ps[i]? = some x → x.id = i) ∧
    (∀ j ∈ pool, 0 ≤ j ∧ j < ps.length) ∧
    g.pop + 1 + pool.length = ps.length ∧ id1 = p ∧
    (g.recentlyDead = [] → ps.length = g.populationn.length + 1 ∧ pool = [] ∧
      p = g.populationn.length) ∧
    (∀ j rest, g.recentlyDead = j :: rest → id1 = j ∧ pool = rest ∧
      ps.length = g.populationn.length) := by
  have hpp := hs.pop_pool
  rcases obtainPerson_eq_some h with ⟨hpool, rfl, rfl, rfl, rfl⟩ | ⟨x, hpool, hid, rfl, hx, rfl⟩
  · rw [hpool] at hpp
    simp only [List.length_nil, Int.natCast_zero, add_zero] at hpp
    refine ⟨by simp, by simp, ?_, by simp, by simp [hpp], hpp, fun _ => ⟨by simp, rfl, rfl⟩,
      fun j rest e => by simp [hpool] at e⟩
    intro i x hx
    rcases Nat.lt_or_ge i g.populationn.length with hi | hi
    · rw [List.getElem?_append_left hi] at hx
      exact hs.ids i x hx
    · rw [List.getElem?_append_right hi] at hx
      have h0 : i - g.populationn.length = 0 := by
        by_contra hne
        rw [List.getElem?_eq_none (by simp; omega)] at hx
        cases hx
      rw [h0] at hx
      simp only [List.getElem?_cons_zero, Option.some.injEq] at hx
      subst hx
      show g.pop = (i : Int)
      rw [hpp]
      have : i = g.populationn.length := by omega
      rw [this]
  · have hlt := (List.getElem?_eq_some_iff.1 hx).1
    have hsame : SameIds g.populationn
        (g.populationn.set id1.toNat { x with alive := true, row := row, col := col }) :=
      sameIds_set hx rfl
    rw [hpool] at hpp
    simp only [List.length_cons, Nat.cast_add, Nat.cast_one] at hpp
    refine ⟨by simpa using hlt, by simp, ?_, ?_, by simp; omega,
      (Int.toNat_of_nonneg hid).symm, fun e => by simp [hpool] at e, ?_⟩
    · intro i y hy
      obtain ⟨z, hz, e⟩ := hsame.2 i y hy
      rw [e]
      exact hs.ids i z hz
    · intro j hj
      have := hs.pool_lt j (by rw [hpool]; exact List.mem_cons_of_mem _ hj)
      simpa using this
    · intro j rest e
      rw [hpool] at e
      simp only [List.cons.injEq] at e
      exact ⟨e.1, e.2, by simp⟩

/-- Method `birth` keeps a state `Sane`, and when the cell is inside the grid it returns
`true` with the identifier the pool or the size of the table dictates. -/
theorem birth_sane {g : GridWorld} (hs : g.Sane) {row col id0 id : Int} {ok : Bool}
    {g1 : GridWorld} (h : g.birth row col id0 = some (ok, id, g1)) :
    g1.Sane ∧ (g.inBounds row col → ok = true ∧
      (g.recentlyDead = [] → id = g.populationn.length ∧
        g1.populationn.length = g.populationn.length + 1 ∧ g1.recentlyDead = [] ∧
        ∃ x, g1.populationn[g.populationn.length]? = some x ∧ x.id = id) ∧
      (∀ j rest, g.recentlyDead = j :: rest → id = j ∧ g1.recentlyDead = rest ∧
        g1.populationn.length = g.populationn.length)) := by
  by_cases hb : g.inBounds row col
  · cases hcell : cellAt g.grid row col with
    | none => simp [birth, hb, hcell] at h
    | some dptr =>
      cases hobt : g.obtainPerson row col with
      | none => simp [birth, hb, hcell, hobt] at h
      | some t =>
        obtain ⟨id1, p, ps, pool⟩ := t
        cases dptr with
        | none => simp [birth, hb, hcell, hobt] at h
        | some d =>
          cases hlink : linkTail ps d p with
          | none => simp [birth, hb, hcell, hobt, hlink] at h
          | some t2 =>
            obtain ⟨ps1, d1⟩ := t2
            simp [birth, hb, hcell, hobt, hlink] at h
            obtain ⟨rfl, rfl, rfl⟩ := h
            obtain ⟨htail, hhead, hsame⟩ := linkTail_eq_some hlink
            obtain ⟨hp, hle, hids, hpl, hpop, hidp, hnil, hcons⟩ := obtainPerson_sane hs hobt
            have hidx : ∀ (i : Nat) (x : Person), ps1[i]? = some x → x.id = i := by
              intro i y hy
              obtain ⟨z, hz, e⟩ := hsame.2 i y hy
              rw [e]
              exact hids i z hz
            refine ⟨⟨?_, hidx, ?_, ?_⟩, fun _ => ⟨rfl, ?_, ?_⟩⟩
            · show g.pop + 1 + (pool.length : Int) = (ps1.length : Int)
              rw [hsame.1]
              exact hpop
            · intro j hj
              show 0 ≤ j ∧ j < (ps1.length : Int)
              rw [hsame.1]
              exact hpl j hj
            · intro r c d2 hd2
              change cellAt (setCell g.grid row col _) r c = some (some d2) at hd2
              show _ ∧ ∀ t, d2.tail = some t → t < ps1.length
              rw [hsame.1]
              by_cases hrc : (r, c) = (row, col)
              · cases hrc
                rw [cellAt_setCell_same hcell] at hd2
                simp only [Option.some.injEq] at hd2
                subst hd2
                refine ⟨by simp [htail, hhead], fun t ht => ?_⟩
                have : t = p := by
                  have : some p = some t := htail.symm.trans ht
                  exact (Option.some.inj this).symm
                omega
              · rw [cellAt_setCell_ne hb.1 hb.2.2.1 hrc] at hd2
                obtain ⟨h1, h2⟩ := hs.ends r c d2 hd2
                exact ⟨h1, fun t ht => lt_of_lt_of_le (h2 t ht) hle⟩
            · intro hpool
              obtain ⟨hlen, hpe, hpp⟩ := hnil hpool
              refine ⟨by rw [hidp, hpp], by
                show ps1.length = _
                rw [hsame.1, hlen], hpe, ?_⟩
              have hlt : g.populationn.length < ps1.length := by
                rw [hsame.1, hlen]; omega
              refine ⟨ps1[g.populationn.length], List.getElem?_eq_getElem hlt, ?_⟩
              rw [hidx _ _ (List.getElem?_eq_getElem hlt), hidp, hpp]
            · intro j rest hpool
              obtain ⟨h1, h2, h3⟩ := hcons j rest hpool
              exact ⟨h1, h2, by
                show ps1.length = _
                rw [hsame.1, h3]⟩
  · simp only [birth, hb, if_false, Option.some.injEq, Prod.mk.injEq] at h
    obtain ⟨-, -, rfl⟩ := h
    exact ⟨hs, fun hb1 => absurd hb1 hb⟩

theorem obtainPerson_returns {g : GridWorld} (hs : g.Sane) (row col : Int) :
    ∃ t, g.obtainPerson row col = some t := by
  unfold obtainPerson
  cases hpool : g.recentlyDead with
  | nil => exact ⟨_, rfl⟩
  | cons j rest =>
    obtain ⟨h0, hlt⟩ := hs.pool_lt j (by simp [hpool])
    have hj : j.toNat < g.populationn.length := by omega
    obtain ⟨ps1, h1⟩ := update_returns hj
      fun x => { x with alive := true, row := row, col := col }
    simp [h0, h1]

/-- Method `birth` returns on every `Sane` state when the district of the cell has been
allocated. -/
theorem birth_returns {g : GridWorld} (hs : g.Sane) {row col : Int}
    (hb : g.inBounds row col) {d : District}
    (hd : cellAt g.grid row col = some (some d)) (id0 : Int) :
    ∃ id g1, g.birth row col id0 = some (true, id, g1) := by
  obtain ⟨⟨id1, p, ps, pool⟩, hobt⟩ := obtainPerson_returns hs row col
  obtain ⟨hp, hle, -⟩ := obtainPerson_sane hs hobt
  have htl : d.head ≠ none → ∃ t, d.tail = some t ∧ t < ps.length := fun hh => by
    obtain ⟨hiff, hlt⟩ := hs.ends row col d hd
    cases ht : d.tail with
    | none => exact absurd (hiff.2 ht) hh
    | some t => exact ⟨t, rfl, lt_of_lt_of_le (hlt t ht) hle⟩
  obtain ⟨⟨ps1, d1⟩, hlink⟩ := linkTail_returns hp htl
  simp [birth, hb, hd, hobt, hlink]

theorem cellAt_nonneg {grid : List (List (Option District))} {r c : Int}
    {o : Option District} (h : cellAt grid r c = some o) : 0 ≤ r ∧ 0 ≤ c := by
  unfold cellAt at h
  split at h
  · assumption
  · simp at h

/-- Lines 125-136, whatever the state: what the step has done when it returns. -/
theorem unlink_eq_some {ps ps1 : List Person} {d d1 : District} {i : Nat}
    (h : unlink ps d i = some (ps1, d1)) (hiff : d.head = none ↔ d.tail = none)
    (hlt : ∀ t, d.tail = some t → t < ps.length) :
    SameIds ps ps1 ∧ (d1.head = none ↔ d1.tail = none) ∧
      ∀ t, d1.tail = some t → t < ps.length := by
  unfold unlink at h
  split at h
  · simp only [Option.some.injEq, Prod.mk.injEq] at h
    obtain ⟨rfl, rfl⟩ := h
    exact ⟨SameIds.rfl, by simp, by simp⟩
  · split at h
    · rename_i hne hhd
      cases hderef : deref ps d.head with
      | none => simp [hderef] at h
      | some x =>
        cases hu : update ps x.next (fun y => { y with prev := none }) with
        | none => simp [hderef, hu] at h
        | some psa =>
          simp [hderef, hu] at h
          obtain ⟨rfl, rfl⟩ := h
          obtain ⟨k, y, hk, -, -⟩ := update_eq_some hu
          have htl : d.tail ≠ none := fun e => by
            rw [hiff.2 e] at hhd
            cases hhd
          exact ⟨sameIds_update hu fun _ => rfl, by simp [hk, htl], hlt⟩
    · split at h
      · rename_i hne hhd htl
        cases hderef : deref ps d.tail with
        | none => simp [hderef] at h
        | some x =>
          cases hu : update ps x.prev (fun y => { y with next := none }) with
          | none => simp [hderef, hu] at h
          | some psa =>
            simp [hderef, hu] at h
            obtain ⟨rfl, rfl⟩ := h
            obtain ⟨k, y, hk, hy, -⟩ := update_eq_some hu
            have hhead : d.head ≠ none := fun e => by
              rw [hiff.1 e] at htl
              cases htl
            refine ⟨sameIds_update hu fun _ => rfl, by simp [hk, hhead], fun t ht => ?_⟩
            have : k = t := by
              have : some k = some t := hk.symm.trans ht
              exact Option.some.inj this
            rw [← this]
            exact (List.getElem?_eq_some_iff.1 hy).1
      · cases hp : ps[i]? with
        | none => simp [hp] at h
        | some x =>
          cases hu1 : update ps x.prev (fun y => { y with next := x.next }) with
          | none => simp [hp, hu1] at h
          | some psa =>
            cases hp1 : psa[i]? with
            | none => simp [hp, hu1, hp1] at h
            | some x1 =>
              cases hu2 : update psa x1.next (fun y => { y with prev := x1.prev }) with
              | none => simp [hp, hu1, hp1, hu2] at h
              | some psb =>
                simp [hp, hu1, hp1, hu2] at h
                obtain ⟨rfl, rfl⟩ := h
                exact ⟨(sameIds_update hu1 fun _ => rfl).trans
                  (sameIds_update hu2 fun _ => rfl), hiff, hlt⟩

/-- Method `death` keeps a state `Sane`, whatever its argument. -/
theorem death_sane {g : GridWorld} (hs : g.Sane) {id : Int} {ok : Bool} {g1 : GridWorld}
    (h : g.death id = some (ok, g1)) : g1.Sane := by
  by_cases hcond : 0 ≤ id ∧ id < g.populationn.length
  · cases hp : g.populationn[id.toNat]? with
    | none => simp [death, hcond, hp] at h
    | some person =>
      cases hcell : cellAt g.grid person.row person.col with
      | none => simp [death, hcond, hp, hcell] at h
      | some dptr =>
        cases dptr with
        | none => simp [death, hcond, hp, hcell] at h
        | some d =>
          cases hun : unlink g.populationn d id.toNat with
          | none => simp [death, hcond, hp, hcell, hun] at h
          | some t =>
            obtain ⟨ps1, d1⟩ := t
            cases hu : update ps1 (some id.toNat)
                (fun x => { x with alive := false, next := none, prev := none }) with
            | none => simp [death, hcond, hp, hcell, hun, hu] at h
            | some ps2 =>
              simp [death, hcond, hp, hcell, hun, hu] at h
              obtain ⟨-, rfl⟩ := h
              obtain ⟨hiff, hlt⟩ := hs.ends _ _ d hcell
              obtain ⟨hsame1, hiff1, hlt1⟩ := unlink_eq_some hun hiff hlt
              have hsame := hsame1.trans (sameIds_update hu fun _ => rfl)
              have hnn := cellAt_nonneg hcell
              have hpp := hs.pop_pool
              refine ⟨?_, ?_, ?_, ?_⟩
              · show g.pop - 1 + ((g.recentlyDead ++ [person.id]).length : Int) =
                  (ps2.length : Int)
                rw [hsame.1]
                simp
                omega
              · intro i y hy
                obtain ⟨z, hz, e⟩ := hsame.2 i y hy
                rw [e]
                exact hs.ids i z hz
              · intro j hj
                show 0 ≤ j ∧ j < (ps2.length : Int)
                rw [hsame.1]
                rcases List.mem_append.1 hj with hj | hj
                · exact hs.pool_lt j hj
                · have hje : j = person.id := by simpa using hj
                  rw [hje, hs.ids _ _ hp, Int.toNat_of_nonneg hcond.1]
                  exact hcond
              · intro r c d2 hd2
                change cellAt (setCell g.grid person.row person.col _) r c = some (some d2)
                  at hd2
                show _ ∧ ∀ t, d2.tail = some t → t < ps2.length
                rw [hsame.1]
                by_cases hrc : (r, c) = (person.row, person.col)
                · cases hrc
                  rw [cellAt_setCell_same hcell] at hd2
                  simp only [Option.some.injEq] at hd2
                  subst hd2
                  exact ⟨hiff1, hlt1⟩
                · rw [cellAt_setCell_ne hnn.1 hnn.2 hrc] at hd2
                  exact hs.ends r c d2 hd2
  · simp only [death, hcond, if_false, Option.some.injEq, Prod.mk.injEq] at h
    obtain ⟨-, rfl⟩ := h
    exact hs

/-- Method `move` keeps a state `Sane`, whatever its arguments. -/
theorem move_sane {g : GridWorld} (hs : g.Sane) {id row col : Int} {ok : Bool}
    {g1 : GridWorld} (h : g.move id row col = some (ok, g1)) : g1.Sane := by
  by_cases hb : g.inBounds row col
  · by_cases h0 : 0 ≤ id
    · cases hp : g.populationn[id.toNat]? with
      | none => simp [move, hb, h0, hp] at h
      | some person =>
        by_cases ha : person.alive = true
        · cases hd : g.death id with
          | none => simp [move, hb, h0, hp, ha, hd] at h
          | some t =>
            obtain ⟨ok1, ga⟩ := t
            cases hbi : ga.birth row col id with
            | none => simp [move, hb, h0, hp, ha, hd, hbi] at h
            | some t2 =>
              obtain ⟨ok2, id2, gb⟩ := t2
              simp [move, hb, h0, hp, ha, hd, hbi] at h
              obtain ⟨-, rfl⟩ := h
              exact (birth_sane (death_sane hs hd) hbi).1
        · simp [move, hb, h0, hp, ha] at h
          obtain ⟨-, rfl⟩ := h
          exact hs
    · simp [move, hb, h0] at h
  · simp [move, hb] at h
    obtain ⟨-, rfl⟩ := h
    exact hs

theorem step_sane {g g1 : GridWorld} (hs : g.Sane) {c : Call} (h : g.step c = some g1) :
    g1.Sane := by
  cases c with
  | birth row col id =>
    simp only [step, Option.map_eq_some'] at h
    obtain ⟨⟨ok, id1, g2⟩, hb, rfl⟩ := h
    exact (birth_sane hs hb).1
  | death personID =>
    simp only [step, Option.map_eq_some'] at h
    obtain ⟨⟨ok, g2⟩, hd, rfl⟩ := h
    exact death_sane hs hd
  | move id row col =>
    simp only [step, Option.map_eq_some'] at h
    obtain ⟨⟨ok, g2⟩, hm, rfl⟩ := h
    exact move_sane hs hm

theorem run_sane : ∀ (cs : List Call) {g g1 : GridWorld}, g.Sane → run g cs = some g1 →
    g1.Sane
  | [], g, g1, hs, h => by
    simp only [run, Option.some.injEq] at h
    exact h ▸ hs
  | c :: cs, g, g1, hs, h => by
    simp only [run, Option.bind_eq_some] at h
    obtain ⟨g2, hstep, hrun⟩ := h
    exact run_sane cs (step_sane hs hstep) hrun

/-! ## The constructor -/

theorem foldlM_option_inv {α β : Type} (P : β → Prop) (f : β → α → Option β)
    (hf : ∀ b a b1, P b → f b a = some b1 → P b1) :
    ∀ (l : List α) (b b1 : β), P b → l.foldlM f b = some b1 → P b1
  | [], b, b1, hb, h => by
    simp only [List.foldlM_nil] at h
    cases h
    exact hb
  | a :: l, b, b1, hb, h => by
    simp only [List.foldlM_cons, Option.bind_eq_bind, Option.bind_eq_some] at h
    obtain ⟨b2, h1, h2⟩ := h
    exact foldlM_option_inv P f hf l b2 b1 (hf b a b2 hb h1) h2

theorem blank_replicate (nrows ncols : Nat) :
    Blank (List.replicate nrows (List.replicate ncols none)) := by
  intro r c d h
  unfold cellAt at h
  split at h
  · simp only [List.getElem?_replicate] at h
    split at h
    · simp only [Option.some_bind, List.getElem?_replicate] at h
      split at h <;> simp at h
    · simp at h
  · simp at h

theorem allocCell_blank {grid grid1 : List (List (Option District))} {r c : Nat}
    (hb : Blank grid) (h : allocCell grid r c = some grid1) : Blank grid1 := by
  unfold allocCell at h
  cases hrow : grid[r]? with
  | none => simp [hrow] at h
  | some rw =>
    simp only [hrow] at h
    split at h
    · rename_i hc
      simp only [Option.some.injEq] at h
      subst h
      intro r1 c1 d hd
      have hnn := cellAt_nonneg hd
      unfold cellAt at hd
      rw [if_pos hnn, getElem?_set_of_some hrow] at hd
      by_cases hr : r1.toNat = r
      · rw [if_pos hr, Option.some_bind,
          getElem?_set_of_some (List.getElem?_eq_getElem hc)] at hd
        by_cases hcc : c1.toNat = c
        · rw [if_pos hcc] at hd
          simp only [Option.some.injEq] at hd
          subst hd
          exact ⟨rfl, rfl⟩
        · rw [if_neg hcc] at hd
          refine hb r1 c1 d ?_
          unfold cellAt
          rw [if_pos hnn, hr, hrow, Option.some_bind]
          exact hd
      · rw [if_neg hr] at hd
        refine hb r1 c1 d ?_
        unfold cellAt
        rw [if_pos hnn]
        exact hd
    · simp at h

/-- The grid the constructor builds holds empty districts only, and no entity. -/
theorem construct_blank {nrows ncols : Nat} {g : GridWorld}
    (h : construct nrows ncols = some g) :
    Blank g.grid ∧ g.populationn = [] ∧ g.recentlyDead = [] ∧ g.pop = 0 ∧
      g.nrows = nrows ∧ g.ncols = ncols := by
  simp only [construct, Option.bind_eq_bind, Option.bind_eq_some, Option.some.injEq] at h
  obtain ⟨grid, hfold, rfl⟩ := h
  refine ⟨?_, rfl, rfl, rfl, rfl, rfl⟩
  refine foldlM_option_inv Blank _ (fun b r b1 hb hr => ?_) _ _ _
    (blank_replicate nrows ncols) hfold
  exact foldlM_option_inv Blank _ (fun b2 c b3 hb2 hc => allocCell_blank hb2 hc) _ _ _ hb hr

theorem construct_sane {nrows ncols : Nat} {g : GridWorld}
    (h : construct nrows ncols = some g) : g.Sane := by
  obtain ⟨hblank, hps, hpool, hpop, -, -⟩ := construct_blank h
  refine ⟨by simp [hps, hpool, hpop], fun i x hx => by simp [hps] at hx,
    fun j hj => by simp [hpool] at hj, fun r c d hd => ?_⟩
  obtain ⟨h1, h2⟩ := hblank r c d hd
  exact ⟨by simp [h1, h2], fun t ht => by simp [h2] at ht⟩

/-- Every state the public calls can reach is `Sane`. -/
theorem reachable_sane {g : GridWorld} (h : Reachable g) : g.Sane := by
  obtain ⟨nrows, ncols, g0, cs, hcon, hrun⟩ := h
  exact run_sane cs (construct_sane hcon) hrun

/-- The identifier `birth` hands out, in every reachable state and at every cell inside
the grid whose district the constructor has allocated: the call returns `true`; with a
non-empty pool the identifier is the front entry of the pool, which is removed and the
table keeps its size; with an empty pool it is the size of the table, and the table grows
by one slot, at that index, holding that identifier. -/
theorem birth_identifier_of_reachable {g : GridWorld} (hr : Reachable g) {row col : Int}
    (hb : g.inBounds row col) {d : District}
    (hd : cellAt g.grid row col = some (some d)) (id0 : Int) :
    ∃ id g1, g.birth row col id0 = some (true, id, g1) ∧
      (g.recentlyDead = [] → id = g.populationn.length ∧
        g1.populationn.length = g.populationn.length + 1 ∧ g1.recentlyDead = [] ∧
        ∃ x, g1.populationn[g.populationn.length]? = some x ∧ x.id = id) ∧
      (∀ j rest, g.recentlyDead = j :: rest → id = j ∧ g1.recentlyDead = rest ∧
        g1.populationn.length = g.populationn.length) := by
  have hs := reachable_sane hr
  obtain ⟨id, g1, hbirth⟩ := birth_returns hs hb hd id0
  obtain ⟨-, h⟩ := birth_sane hs hbirth
  exact ⟨id, g1, hbirth, (h hb).2⟩

/-! ## Queries and calls that are turned down -/

/-- Method `whereis` at the size of the table reads the slot one past the end of the
table, in every state. -/
theorem whereis_at_table_size (g : GridWorld) (row col : Int) :
    g.whereis g.populationn.length row col = none := by
  simp [whereis]

/-- Method `whereis` at every identifier other than the size of the table: it returns
`true` with the recorded cell for an alive slot of the table, and `false` with the
outputs as they were otherwise. -/
theorem whereis_off_table_size (g : GridWorld) (id row col : Int) :
    (∀ x, 0 ≤ id → g.populationn[id.toNat]? = some x → x.alive = true →
      g.whereis id row col = some (true, x.row, x.col)) ∧
    (∀ x, 0 ≤ id → g.populationn[id.toNat]? = some x → x.alive = false →
      g.whereis id row col = some (false, row, col)) ∧
    (id < 0 ∨ (g.populationn.length : Int) < id → g.whereis id row col = some (false, row, col)) := by
  refine ⟨fun x h0 hx ha => ?_, fun x h0 hx ha => ?_, fun hout => ?_⟩
  · have hlt := (List.getElem?_eq_some_iff.1 hx).1
    have : id ≤ g.populationn.length := by omega
    simp [whereis, h0, this, hx, ha]
  · have hlt := (List.getElem?_eq_some_iff.1 hx).1
    have : id ≤ g.populationn.length := by omega
    simp [whereis, h0, this, hx, ha]
  · have : ¬ (0 ≤ id ∧ id ≤ g.populationn.length) := by omega
    simp [whereis, this]

/-- Method `move` rejects an identifier of the table whose entity is dead, and leaves the
state as it was. -/
theorem move_rejects_dead (g : GridWorld) (id row col : Int) (x : Person) (h0 : 0 ≤ id)
    (hx : g.populationn[id.toNat]? = some x) (ha : x.alive = false) :
    g.move id row col = some (false, g) := by
  by_cases hb : g.inBounds row col <;> simp [move, hb, h0, hx, ha]

/-- Method `move` with a target inside the grid and an identifier outside the table reads
the table outside its bounds, in every state. -/
theorem move_outside_table (g : GridWorld) (id row col : Int) (hb : g.inBounds row col)
    (h : id < 0 ∨ (g.populationn.length : Int) ≤ id) : g.move id row col = none := by
  by_cases h0 : 0 ≤ id
  · have : g.populationn[id.toNat]? = none := List.getElem?_eq_none (by omega)
    simp [move, hb, h0, this]
  · simp [move, hb, h0]

/-- Claim C13: for every state, every identifier and every `(row, col)` outside the grid,
`birth(row, col)` and `move(id, row, col)` both return `false` and leave the state as it
was: `population()`, the population and the `members` sequence of every cell, every entity
record and the recycled pool are those of the state before. -/
theorem out_of_bounds_target_rejected (g : GridWorld) (id id0 row col : Int)
    (h : row < 0 ∨ g.num_rows ≤ row ∨ col < 0 ∨ g.num_cols ≤ col) :
    ∃ g1 g2, g.birth row col id0 = some (false, id0, g1) ∧
      g.move id row col = some (false, g2) ∧ g1 = g ∧ g2 = g ∧
      g1.population = g.population ∧ g2.population = g.population ∧
      (∀ r c, g1.populationAt r c = g.populationAt r c ∧
        g2.populationAt r c = g.populationAt r c ∧
        g1.members r c = g.members r c ∧ g2.members r c = g.members r c) ∧
      g1.populationn = g.populationn ∧ g2.populationn = g.populationn ∧
      g1.recentlyDead = g.recentlyDead ∧ g2.recentlyDead = g.recentlyDead := by
  have hb : ¬ g.inBounds row col := by
    unfold inBounds
    unfold num_rows num_cols at h
    omega
  exact ⟨g, g, by simp [birth, hb], by simp [move, hb], rfl, rfl, rfl, rfl,
    fun _ _ => ⟨rfl, rfl, rfl, rfl⟩, rfl, rfl, rfl, rfl⟩

/-- Instance of `out_of_bounds_target_rejected`: row 5 of a 1x1 grid holding three
entities, with an identifier that was never issued. -/
theorem out_of_bounds_target_rejected_witness :
    ((5 : Int) < 0 ∨ trio.num_rows ≤ 5 ∨ (0 : Int) < 0 ∨ trio.num_cols ≤ 0) ∧
    ∃ g1 g2, trio.birth 5 0 (-1) = some (false, -1, g1) ∧
      trio.move 9 5 0 = some (false, g2) ∧ g1 = trio ∧ g2 = trio ∧
      g1.population = trio.population ∧ g2.population = trio.population ∧
      (∀ r c, g1.populationAt r c = trio.populationAt r c ∧
        g2.populationAt r c = trio.populationAt r c ∧
        g1.members r c = trio.members r c ∧ g2.members r c = trio.members r c) ∧
      g1.populationn = trio.populationn ∧ g2.populationn = trio.populationn ∧
      g1.recentlyDead = trio.recentlyDead ∧ g2.recentlyDead = trio.recentlyDead :=
  ⟨by decide, out_of_bounds_target_rejected trio 9 (-1) 5 0 (by decide)⟩

/-- Claim C16: for every state and every `(row, col)` outside the grid,
`population(row, col)` returns 0 and `members(row, col)` returns the empty sequence; both
are `const` queries, and the answers are the same whatever the grid and the table hold,
also when they hold nothing, so no cell is read. -/
theorem out_of_bounds_queries_harmless (g : GridWorld) (row col : Int)
    (h : row < 0 ∨ g.num_rows ≤ row ∨ col < 0 ∨ g.num_cols ≤ col) :
    g.populationAt row col = some 0 ∧ g.members row col = some [] ∧
    ∀ (grid : List (List (Option District))) (ps : List Person),
      ({ g with grid := grid, populationn := ps }).populationAt row col = some 0 ∧
      ({ g with grid := grid, populationn := ps }).members row col = some [] := by
  have hb : ¬ g.inBounds row col := by
    unfold inBounds
    unfold num_rows num_cols at h
    omega
  refine ⟨populationAt_out_of_bounds hb, members_out_of_bounds hb, fun grid ps => ?_⟩
  exact ⟨populationAt_out_of_bounds hb, members_out_of_bounds hb⟩

/-- Instance of `out_of_bounds_queries_harmless`: column -1 of a 1x1 grid holding three
entities. -/
theorem out_of_bounds_queries_harmless_witness :
    ((0 : Int) < 0 ∨ trio.num_rows ≤ 0 ∨ (-1 : Int) < 0 ∨ trio.num_cols ≤ -1) ∧
    trio.populationAt 0 (-1) = some 0 ∧ trio.members 0 (-1) = some [] ∧
    ∀ (grid : List (List (Option District))) (ps : List Person),
      ({ trio with grid := grid, populationn := ps }).populationAt 0 (-1) = some 0 ∧
      ({ trio with grid := grid, populationn := ps }).members 0 (-1) = some [] :=
  ⟨by decide, out_of_bounds_queries_harmless trio 0 (-1) (by decide)⟩

/-! ## `move` on a consistent state -/

/-- Method `move` on a consistent state, for an alive entity and a target inside the
grid: it returns `true` and the state is the one `death` and then `birth` leave. -/
theorem move_outcome {g : GridWorld} (hc : g.Consistent) {i : Nat} {r c r2 c2 : Int}
    (h : g.RecordedAt i r c) (hb : g.inBounds r2 c2) :
    ∃ (g1 : GridWorld) (p : Nat) (g2 : GridWorld),
      DeathOutcome g i r c g1 ∧ BirthOutcome g1 r2 c2 p g2 ∧
      g.move i r2 c2 = some (true, g2) := by
  obtain ⟨g1, hd, o1⟩ := death_outcome hc h
  have hb1 : g1.inBounds r2 c2 := (o1.bounds_same r2 c2).2 hb
  obtain ⟨p, g2, hbirth, o2⟩ := birth_outcome o1.consistent hb1 (i : Int)
  obtain ⟨x, hx, ha, -, -⟩ := h
  refine ⟨g1, p, g2, o1, o2, ?_⟩
  simp [move, hb, hx, ha, hd, hbirth]

/-- Claim C19: on a consistent state, `birth` at a cell inside the grid, `death` of an
alive identifier, and `move` of an alive identifier to a target inside the grid each
return `true` and leave a consistent state. -/
theorem valid_calls_preserve_consistency (g : GridWorld) (hc : g.Consistent) :
    (∀ row col id0 : Int, g.inBounds row col →
      ∃ id g1, g.birth row col id0 = some (true, id, g1) ∧ g1.Consistent) ∧
    (∀ (i : Nat) (r c : Int), g.RecordedAt i r c →
      ∃ g1, g.death i = some (true, g1) ∧ g1.Consistent) ∧
    (∀ (i : Nat) (r c r2 c2 : Int), g.RecordedAt i r c → g.inBounds r2 c2 →
      ∃ g2, g.move i r2 c2 = some (true, g2) ∧ g2.Consistent) := by
  refine ⟨fun row col id0 hb => ?_, fun i r c h => ?_, fun i r c r2 c2 h hb => ?_⟩
  · obtain ⟨p, g1, hbirth, o⟩ := birth_outcome hc hb id0
    exact ⟨p, g1, hbirth, o.consistent⟩
  · obtain ⟨g1, hd, o⟩ := death_outcome hc h
    exact ⟨g1, hd, o.consistent⟩
  · obtain ⟨g1, p, g2, -, o2, hm⟩ := move_outcome hc h hb
    exact ⟨g2, hm, o2.consistent⟩

/-- Instance of `valid_calls_preserve_consistency` on a cell that holds three entities. -/
theorem valid_calls_preserve_consistency_witness :
    trio.Consistent ∧ trio.inBounds 0 0 ∧ trio.RecordedAt 1 0 0 ∧
    (∀ row col id0 : Int, trio.inBounds row col →
      ∃ id g1, trio.birth row col id0 = some (true, id, g1) ∧ g1.Consistent) ∧
    (∀ (i : Nat) (r c : Int), trio.RecordedAt i r c →
      ∃ g1, trio.death i = some (true, g1) ∧ g1.Consistent) ∧
    (∀ (i : Nat) (r c r2 c2 : Int), trio.RecordedAt i r c → trio.inBounds r2 c2 →
      ∃ g2, trio.move i r2 c2 = some (true, g2) ∧ g2.Consistent) :=
  ⟨trio_consistent, by decide, ⟨_, rfl, rfl, rfl, rfl⟩,
    valid_calls_preserve_consistency trio trio_consistent⟩

/-- On a consistent state the identifier of an entity recorded at one cell does not occur
in `members` of another cell. -/
theorem not_mem_members_of_other_cell {g : GridWorld} (hc : g.Consistent) {i : Nat}
    {r c r2 c2 : Int} (h : g.RecordedAt i r c) (hne : (r2, c2) ≠ (r, c)) {m : List Int}
    (hm : g.members r2 c2 = some m) : (i : Int) ∉ m := by
  by_cases hb : g.inBounds r2 c2
  · obtain ⟨d, l, hd, hl⟩ := hc.cells r2 c2 hb
    rw [members_of_cellOK hc hb hd hl] at hm
    cases hm
    intro hmem
    obtain ⟨k, hk, hki⟩ := List.mem_map.1 hmem
    have : k = i := Int.ofNat.inj hki
    subst this
    obtain ⟨x, hx, -, hr, hcl⟩ := (hl.mem_iff k).1 hk
    obtain ⟨y, hy, -, hr1, hcl1⟩ := h
    rw [hx] at hy
    cases hy
    exact hne (by rw [← hr, ← hcl, ← hr1, ← hcl1])
  · rw [members_out_of_bounds hb] at hm
    cases hm
    simp

/-- Claim C20: on a consistent state whose recycled pool is empty, `move` of an alive
identifier to a target inside the grid returns `true`; afterwards the pool is empty, the
size of the table and `population()` are as before, the identifier is alive and
`whereis` reports the target, `members` of the target is its former sequence without the
identifier followed by the identifier (so the identifier is last, also when the target is
its own cell), and `members` of every cell other than the source and the target is
unchanged. -/
theorem move_with_empty_pool (g : GridWorld) (hc : g.Consistent)
    (hpool : g.recentlyDead = []) (i : Nat) (r c r2 c2 : Int) (h : g.RecordedAt i r c)
    (hb : g.inBounds r2 c2) (r0 c0 : Int) :
    ∃ (g2 : GridWorld) (m : List Int),
      g.move i r2 c2 = some (true, g2) ∧
      g2.recentlyDead = [] ∧
      g2.populationn.length = g.populationn.length ∧
      g2.population = g.population ∧
      g2.RecordedAt i r2 c2 ∧
      g2.whereis i r0 c0 = some (true, r2, c2) ∧
      g.members r2 c2 = some m ∧
      g2.members r2 c2 = some (m.erase (i : Int) ++ [(i : Int)]) ∧
      (g2.members r2 c2).map List.getLast? = some (some (i : Int)) ∧
      ∀ r1 c1, (r1, c1) ≠ (r, c) → (r1, c1) ≠ (r2, c2) →
        g2.members r1 c1 = g.members r1 c1 := by
  obtain ⟨g1, p, g2, o1, o2, hm⟩ := move_outcome hc h hb
  have hpool1 : g1.recentlyDead = [(i : Int)] := by rw [o1.pool_eq, hpool]; rfl
  obtain ⟨hip, hlen⟩ := o2.reused _ _ hpool1
  have hpi : p = i := (Int.ofNat.inj hip).symm
  subst hpi
  obtain ⟨m1, hm1, hm2⟩ := o2.members_target
  have hrec := o2.recorded
  have hwhere : g2.whereis p r0 c0 = some (true, r2, c2) := by
    obtain ⟨x, hx, ha, hr, hcl⟩ := hrec
    have hlt := (List.getElem?_eq_some_iff.1 hx).1
    have : p ≤ g2.populationn.length := by omega
    simp [whereis, this, hx, ha, hr, hcl]
  have hmem : ∃ m, g.members r2 c2 = some m ∧ m1 = m.erase (p : Int) := by
    by_cases hsame : (r2, c2) = (r, c)
    · cases hsame
      obtain ⟨m, hm0, -, hme⟩ := o1.members_target
      rw [hm1] at hme
      cases hme
      exact ⟨m, hm0, rfl⟩
    · have := o1.members_other r2 c2 hsame
      rw [hm1] at this
      refine ⟨m1, this.symm, ?_⟩
      rw [List.erase_of_not_mem (not_mem_members_of_other_cell hc h hsame this.symm)]
  obtain ⟨m, hm0, rfl⟩ := hmem
  refine ⟨g2, m, hm, ?_, ?_, ?_, hrec, hwhere, hm0, hm2, ?_, ?_⟩
  · rw [o2.pool_eq, hpool1]; rfl
  · rw [hlen, o1.length_eq]
  · show g2.pop = g.pop
    rw [o2.pop_eq, o1.pop_eq]
    omega
  · rw [hm2]
    simp
  · intro r1 c1 hsrc htgt
    rw [o2.members_other r1 c1 htgt, o1.members_other r1 c1 hsrc]

/-- Instance of `move_with_empty_pool`: the middle one of three entities of a cell is
moved to its own cell and becomes the last. -/
theorem move_with_empty_pool_witness :
    trio.Consistent ∧ trio.recentlyDead = [] ∧ trio.RecordedAt 1 0 0 ∧
    trio.inBounds 0 0 ∧ trio.members 0 0 = some [0, 1, 2] ∧
    ∃ (g2 : GridWorld) (m : List Int),
      trio.move (1 : Nat) 0 0 = some (true, g2) ∧
      g2.recentlyDead = [] ∧
      g2.populationn.length = trio.populationn.length ∧
      g2.population = trio.population ∧
      g2.RecordedAt 1 0 0 ∧
      g2.whereis (1 : Nat) 7 7 = some (true, 0, 0) ∧
      trio.members 0 0 = some m ∧
      g2.members 0 0 = some (m.erase ((1 : Nat) : Int) ++ [((1 : Nat) : Int)]) ∧
      (g2.members 0 0).map List.getLast? = some (some ((1 : Nat) : Int)) ∧
      ∀ r1 c1, (r1, c1) ≠ ((0 : Int), (0 : Int)) → (r1, c1) ≠ ((0 : Int), (0 : Int)) →
        g2.members r1 c1 = trio.members r1 c1 :=
  ⟨trio_consistent, rfl, ⟨_, rfl, rfl, rfl, rfl⟩, by decide, rfl,
    move_with_empty_pool trio trio_consistent rfl 1 0 0 0 0 ⟨_, rfl, rfl, rfl, rfl⟩
      (by decide) 7 7⟩

/-! ## The constructor in closed form -/

/-- A loop over `0, ..., n-1` whose body returns and carries an invariant from each index
to the next returns, with the invariant at `n`. -/
theorem foldlM_range_inv {β : Type} (f : β → Nat → Option β) (Q : Nat → β → Prop) :
    ∀ (n : Nat), (∀ k b, k < n → Q k b → ∃ b1, f b k = some b1 ∧ Q (k + 1) b1) →
      ∀ b0, Q 0 b0 → ∃ b1, (List.range n).foldlM f b0 = some b1 ∧ Q n b1
  | 0, _, b0, h0 => ⟨b0, rfl, h0⟩
  | n + 1, hstep, b0, h0 => by
    obtain ⟨b, hb, hq⟩ := foldlM_range_inv f Q n
      (fun k b hk hq => hstep k b (Nat.lt_succ_of_lt hk) hq) b0 h0
    obtain ⟨b1, hb1, hq1⟩ := hstep n b (Nat.lt_succ_self n) hq
    refine ⟨b1, ?_, hq1⟩
    rw [List.range_succ, List.foldlM_append, hb]
    simp [hb1]

theorem built_start (n m : Nat) :
    Built n m 0 0 (List.replicate n (List.replicate m none)) := by
  refine ⟨by simp, fun r hr => ⟨List.replicate m none, by simp [List.getElem?_replicate, hr],
    by simp, fun c hc => ?_⟩⟩
  simp [List.getElem?_replicate, hc, cellAfter]

theorem built_next_row {n m R : Nat} {grid : List (List (Option District))}
    (h : Built n m R n grid) : Built n m (R + 1) 0 grid := by
  refine ⟨h.1, fun r hr => ?_⟩
  obtain ⟨rw, hrw, hlen, hc⟩ := h.2 r hr
  refine ⟨rw, hrw, hlen, fun c hcm => ?_⟩
  rw [hc c hcm]
  congr 1
  unfold cellAfter
  by_cases h1 : c < n ∧ (r < R ∨ r = R ∧ c < n)
  · rw [if_pos h1, if_pos (by omega)]
  · rw [if_neg h1, if_neg (by omega)]

/-- One assignment of the constructor, inside the row vector. -/
theorem allocCell_built {n m R C : Nat} {grid : List (List (Option District))}
    (h : Built n m R C grid) (hR : R < n) (hC : C < n) (hnm : n ≤ m) :
    ∃ grid1, allocCell grid R C = some grid1 ∧ Built n m R (C + 1) grid1 := by
  obtain ⟨rw, hrw, hlen, hcells⟩ := h.2 R hR
  have hCm : C < rw.length := by omega
  refine ⟨grid.set R (rw.set C (some ⟨R, C, 0, none, none⟩)), by simp [allocCell, hrw, hCm],
    by simpa using h.1, fun r hr => ?_⟩
  rw [getElem?_set_of_some hrw]
  by_cases hrR : r = R
  · subst hrR
    rw [if_pos rfl]
    refine ⟨_, rfl, by simpa using hlen, fun c hc => ?_⟩
    rw [getElem?_set_of_some (List.getElem?_eq_getElem hCm)]
    by_cases hcC : c = C
    · subst hcC
      rw [if_pos rfl]
      simp [cellAfter, hC]
    · rw [if_neg hcC, hcells c hc]
      congr 1
      unfold cellAfter
      by_cases h1 : c < n ∧ (r < r ∨ r = r ∧ c < C)
      · rw [if_pos h1, if_pos (by omega)]
      · rw [if_neg h1, if_neg (by omega)]
  · rw [if_neg hrR]
    obtain ⟨rw1, hrw1, hlen1, hcells1⟩ := h.2 r hr
    refine ⟨rw1, hrw1, hlen1, fun c hc => ?_⟩
    rw [hcells1 c hc]
    congr 1
    unfold cellAfter
    by_cases h1 : c < n ∧ (r < R ∨ r = R ∧ c < C)
    · rw [if_pos h1, if_pos (by omega)]
    · rw [if_neg h1, if_neg (by omega)]

/-- The loops of the constructor return when the grid has no more rows than columns. -/
theorem construct_loops {n m : Nat} (hnm : n ≤ m) :
    ∃ grid, (List.range n).foldlM
        (fun gr r => (List.range n).foldlM (fun gr c => allocCell gr r c) gr)
        (List.replicate n (List.replicate m none)) = some grid ∧
      Built n m n 0 grid := by
  refine foldlM_range_inv _ (fun R gr => Built n m R 0 gr) n (fun R gr hR hq => ?_) _
    (built_start n m)
  obtain ⟨gr1, h1, hq1⟩ := foldlM_range_inv (fun gr c => allocCell gr R c)
    (fun C gr => Built n m R C gr) n (fun C gr2 hC hq2 => allocCell_built hq2 hR hC hnm) gr hq
  exact ⟨gr1, h1, built_next_row hq1⟩

/-- The constructor on a grid with no more rows than columns: it returns, and the cell
`(r, c)` holds a fresh district when `c` is below the number of rows and a null pointer
otherwise. -/
theorem construct_of_le {n m : Nat} (hnm : n ≤ m) :
    ∃ g, construct n m = some g ∧ g.nrows = n ∧ g.ncols = m ∧ g.pop = 0 ∧
      g.populationn = [] ∧ g.recentlyDead = [] ∧
      ∀ r c : Nat, r < n → c < m →
        cellAt g.grid r c = some (if c < n then some ⟨r, c, 0, none, none⟩ else none) := by
  obtain ⟨grid, hfold, hbuilt⟩ := construct_loops hnm
  refine ⟨⟨(m : Int), (n : Int), 0, grid, [], []⟩, by simp [construct, hfold], rfl, rfl,
    rfl, rfl, rfl, fun r c hr hc => ?_⟩
  obtain ⟨rw, hrw, -, hcells⟩ := hbuilt.2 r hr
  have h0 : (0 : Int) ≤ r ∧ (0 : Int) ≤ c := ⟨by omega, by omega⟩
  simp only [cellAt, h0, and_self, if_true, Int.toNat_ofNat, hrw, Option.some_bind,
    hcells c hc]
  congr 1
  unfold cellAfter
  by_cases h1 : c < n
  · rw [if_pos h1, if_pos ⟨h1, Or.inl hr⟩]
  · rw [if_neg h1, if_neg (fun h => h1 h.1)]

/-- The constructor on a grid with more rows than columns writes `grid[0][ncols]`, past
the end of the row vector. -/
theorem construct_tall {n m : Nat} (h : m < n) : construct n m = none := by
  obtain ⟨k, rfl⟩ : ∃ k, n = m + k + 1 := ⟨n - m - 1, by omega⟩
  have hinner : (List.range (m + k + 1)).foldlM (fun gr c => allocCell gr 0 c)
      (List.replicate (m + k + 1) (List.replicate m none)) = none := by
    obtain ⟨gr, hgr, rw, hrw, hlen⟩ := foldlM_range_inv (fun gr c => allocCell gr 0 c)
      (fun _ gr => ∃ rw, gr[0]? = some rw ∧ rw.length = m) m
      (fun C gr hC hq => by
        obtain ⟨rw, hrw, hlen⟩ := hq
        have hCm : C < rw.length := by omega
        refine ⟨gr.set 0 (rw.set C (some ⟨0, C, 0, none, none⟩)),
          by simp [allocCell, hrw, hCm], rw.set C (some ⟨0, C, 0, none, none⟩), ?_,
          by simpa using hlen⟩
        rw [getElem?_set_of_some hrw, if_pos rfl])
      (List.replicate (m + k + 1) (List.replicate m none))
      ⟨List.replicate m none, by simp [List.getElem?_replicate], by simp⟩
    have hfail : allocCell gr 0 m = none := by
      simp [allocCell, hrw, hlen]
    rw [Nat.add_assoc, List.range_add, List.foldlM_append, ← Nat.add_assoc, hgr,
      List.range_succ_eq_map]
    simp [hfail]
  unfold construct
  rw [List.range_succ_eq_map] at hinner ⊢
  simp only [List.foldlM_cons, Option.bind_eq_bind] at hinner ⊢
  rw [hinner]
  rfl

/-- The constructor on a square grid: it returns a consistent state with the given
dimensions and no entity; every cell inside the grid exists, with population 0 and no
member, and `birth` returns `true` on it. -/
theorem construct_square (n : Nat) :
    ∃ g, construct n n = some g ∧ g.Consistent ∧ g.num_rows = n ∧ g.num_cols = n ∧
      g.population = 0 ∧ g.populationn = [] ∧ g.recentlyDead = [] ∧
      ∀ r c, g.inBounds r c →
        g.populationAt r c = some 0 ∧ g.members r c = some [] ∧
        ∀ id0, ∃ id g1, g.birth r c id0 = some (true, id, g1) := by
  obtain ⟨g, hcon, hr, hcl, hpop, hps, hpool, hcells⟩ := construct_of_le (Nat.le_refl n)
  have hcell : ∀ r c, g.inBounds r c →
      cellAt g.grid r c = some (some ⟨r, c, 0, none, none⟩) := by
    intro r c hb
    obtain ⟨h1, h2, h3, h4⟩ := hb
    rw [hr] at h2
    rw [hcl] at h4
    have := hcells r.toNat c.toNat (by omega) (by omega)
    rw [if_pos (by omega), Int.toNat_of_nonneg h1, Int.toNat_of_nonneg h3] at this
    exact this
  have hcok : ∀ r c, g.inBounds r c → CellOK g r c ⟨r, c, 0, none, none⟩ [] := by
    intro r c _
    exact ⟨rfl, rfl, List.nodup_nil, fun i => by simp [hps], rfl⟩
  have hc : g.Consistent :=
    ⟨fun r c hb => ⟨_, [], hcell r c hb, hcok r c hb⟩,
      fun i x hx => by simp [hps] at hx, fun i x hx => by simp [hps] at hx,
      fun i x hx => by simp [hps] at hx, by simp [hpool], fun j => by simp [hpool, hps],
      by simp [hpop, hpool, hps]⟩
  refine ⟨g, hcon, hc, hr, hcl, hpop, hps, hpool, fun r c hb => ⟨?_, ?_, fun id0 => ?_⟩⟩
  · exact populationAt_of_cell hb (hcell r c hb)
  · exact members_of_cellOK hc hb (hcell r c hb) (hcok r c hb)
  · obtain ⟨p, g1, hbirth, -⟩ := birth_outcome hc hb id0
    exact ⟨p, g1, hbirth⟩

/-- The constructor on a grid with fewer rows than columns leaves the cells of the
columns from `nrows` on without a district: the queries and `birth` dereference a null
pointer there. -/
theorem construct_wide {n m : Nat} (h0 : 0 < n) (h : n < m) :
    ∃ g, construct n m = some g ∧ g.inBounds 0 n ∧ cellAt g.grid 0 n = some none ∧
      g.populationAt 0 n = none ∧ g.members 0 n = none ∧
      ∀ id0, g.birth 0 n id0 = none := by
  obtain ⟨g, hcon, hr, hcl, -, -, -, hcells⟩ := construct_of_le (Nat.le_of_lt h)
  have hb : g.inBounds 0 n := by
    refine ⟨le_refl _, ?_, ?_, ?_⟩
    · rw [hr]; exact_mod_cast h0
    · exact_mod_cast Nat.zero_le n
    · rw [hcl]; exact_mod_cast h
  have hcell : cellAt g.grid 0 n = some none := by
    have := hcells 0 n h0 h
    rw [if_neg (lt_irrefl n)] at this
    exact_mod_cast this
  exact ⟨g, hcon, hb, hcell, by simp [populationAt, hb, hcell],
    by simp [members, hb, hcell], fun id0 => by
      cases hobt : g.obtainPerson 0 n with
      | none => simp [birth, hb, hcell, hobt]
      | some t => simp [birth, hb, hcell, hobt]⟩

/-! ## The counters in every reachable state -/

theorem mem_cells {g : GridWorld} {rc : Int × Int} :
    rc ∈ g.cells ↔ g.inBounds rc.1 rc.2 := by
  obtain ⟨r, c⟩ := rc
  unfold cells inBounds
  constructor
  · intro h
    obtain ⟨⟨a, b⟩, hab, he⟩ := List.mem_map.1 h
    obtain ⟨ha, hb⟩ := List.mem_product.1 hab
    rw [List.mem_range] at ha hb
    simp only [Prod.mk.injEq] at he
    obtain ⟨rfl, rfl⟩ := he
    omega
  · rintro ⟨h1, h2, h3, h4⟩
    refine List.mem_map.2 ⟨(r.toNat, c.toNat), List.mem_product.2 ⟨?_, ?_⟩, ?_⟩
    · rw [List.mem_range]; omega
    · rw [List.mem_range]; omega
    · simp only [Prod.mk.injEq]
      omega

theorem cells_nodup (g : GridWorld) : g.cells.Nodup := by
  unfold cells
  refine ((List.nodup_range _).product (List.nodup_range _)).map fun a b hab => ?_
  simp only [Prod.mk.injEq] at hab
  exact Prod.ext (by exact_mod_cast hab.1) (by exact_mod_cast hab.2)

/-- Changing one summand of a sum over a list without repetition. -/
theorem sum_map_update {f f1 : Int × Int → Int} {a : Int × Int} {δ : Int} :
    ∀ {l : List (Int × Int)}, l.Nodup → a ∈ l → f1 a = f a + δ →
      (∀ b ∈ l, b ≠ a → f1 b = f b) → (l.map f1).sum = (l.map f).sum + δ
  | [], _, ha, _, _ => by simp at ha
  | b :: l, hnd, ha, hfa, hf => by
    obtain ⟨hbl, hnd1⟩ := List.nodup_cons.1 hnd
    simp only [List.map_cons, List.sum_cons]
    by_cases hba : b = a
    · subst hba
      have hrest : l.map f1 = l.map f := List.map_congr_left fun c hc =>
        hf c (List.mem_cons_of_mem _ hc) (fun e => hbl (e ▸ hc))
      rw [hrest, hfa]
      omega
    · have hal : a ∈ l := by
        rcases List.mem_cons.1 ha with h | h
        · exact absurd h.symm hba
        · exact h
      rw [hf b (List.mem_cons_self _ _) hba,
        sum_map_update hnd1 hal hfa fun c hc => hf c (List.mem_cons_of_mem _ hc)]
      omega

theorem sumOver_of_forall {f : Int × Int → Option Int} {h : Int × Int → Int} :
    ∀ {l : List (Int × Int)}, (∀ rc ∈ l, f rc = some (h rc)) →
      sumOver f l = some (l.map h).sum
  | [], _ => rfl
  | rc :: l, hl => by
    simp [sumOver, hl rc (List.mem_cons_self _ _),
      sumOver_of_forall fun rc1 h1 => hl rc1 (List.mem_cons_of_mem _ h1)]

theorem sameSpot_refl {ps : List Person} : SameSpot ps ps :=
  ⟨Eq.refl _, fun _ x h => ⟨x, h, Eq.refl _, Eq.refl _⟩⟩

theorem sameSpot_trans {ps ps1 ps2 : List Person} (h1 : SameSpot ps ps1)
    (h2 : SameSpot ps1 ps2) : SameSpot ps ps2 := by
  refine ⟨h2.1.trans h1.1, fun i x2 hx2 => ?_⟩
  obtain ⟨x1, hx1, e1, e2⟩ := h2.2 i x2 hx2
  obtain ⟨x, hx, e3, e4⟩ := h1.2 i x1 hx1
  exact ⟨x, hx, e1.trans e3, e2.trans e4⟩

theorem sameSpot_update {ps ps1 : List Person} {p : Option Nat} {f : Person → Person}
    (h : update ps p f = some ps1) (hf : ∀ x, (f x).row = x.row ∧ (f x).col = x.col) :
    SameSpot ps ps1 := by
  obtain ⟨i, x, -, hx, rfl⟩ := update_eq_some h
  refine ⟨by simp, fun k z hz => ?_⟩
  rw [getElem?_set_of_some hx] at hz
  by_cases hk : k = i
  · subst hk
    rw [if_pos rfl] at hz
    cases hz
    exact ⟨x, hx, (hf x).1, (hf x).2⟩
  · rw [if_neg hk] at hz
    exact ⟨z, hz, rfl, rfl⟩

/-- Lines 99-105 leave the counter of the district and the recorded cells alone. -/
theorem linkTail_keeps {ps ps1 : List Person} {d d1 : District} {p : Nat}
    (h : linkTail ps d p = some (ps1, d1)) : d1.pop = d.pop ∧ SameSpot ps ps1 := by
  unfold linkTail at h
  cases hh : d.head with
  | none =>
    simp only [hh, Option.some.injEq, Prod.mk.injEq] at h
    obtain ⟨rfl, rfl⟩ := h
    exact ⟨rfl, sameSpot_refl⟩
  | some a =>
    simp only [hh] at h
    cases h1 : update ps d.tail (fun x => { x with next := some p }) with
    | none => simp [h1] at h
    | some psa =>
      cases h2 : update psa (some p) (fun x => { x with prev := d.tail }) with
      | none => simp [h1, h2] at h
      | some psb =>
        simp [h1, h2] at h
        obtain ⟨rfl, rfl⟩ := h
        exact ⟨rfl, sameSpot_trans (sameSpot_update h1 fun _ => ⟨rfl, rfl⟩)
          (sameSpot_update h2 fun _ => ⟨rfl, rfl⟩)⟩

/-- Lines 125-136 leave the counter of the district and the recorded cells alone. -/
theorem unlink_keeps {ps ps1 : List Person} {d d1 : District} {i : Nat}
    (h : unlink ps d i = some (ps1, d1)) : d1.pop = d.pop ∧ SameSpot ps ps1 := by
  unfold unlink at h
  split at h
  · simp only [Option.some.injEq, Prod.mk.injEq] at h
    obtain ⟨rfl, rfl⟩ := h
    exact ⟨rfl, sameSpot_refl⟩
  · split at h
    · cases hderef : deref ps d.head with
      | none => simp [hderef] at h
      | some x =>
        cases hu : update ps x.next (fun y => { y with prev := none }) with
        | none => simp [hderef, hu] at h
        | some psa =>
          simp [hderef, hu] at h
          obtain ⟨rfl, rfl⟩ := h
          exact ⟨rfl, sameSpot_update hu fun _ => ⟨rfl, rfl⟩⟩
    · split at h
      · cases hderef : deref ps d.tail with
        | none => simp [hderef] at h
        | some x =>
          cases hu : update ps x.prev (fun y => { y with next := none }) with
          | none => simp [hderef, hu] at h
          | some psa =>
            simp [hderef, hu] at h
            obtain ⟨rfl, rfl⟩ := h
            exact ⟨rfl, sameSpot_update hu fun _ => ⟨rfl, rfl⟩⟩
      · cases hp : ps[i]? with
        | none => simp [hp] at h
        | some x =>
          cases hu1 : update ps x.prev (fun y => { y with next := x.next }) with
          | none => simp [hp, hu1] at h
          | some psa =>
            cases hp1 : psa[i]? with
            | none => simp [hp, hu1, hp1] at h
            | some x1 =>
              cases hu2 : update psa x1.next (fun y => { y with prev := x1.prev }) with
              | none => simp [hp, hu1, hp1, hu2] at h
              | some psb =>
                simp [hp, hu1, hp1, hu2] at h
                obtain ⟨rfl, rfl⟩ := h
                exact ⟨rfl, sameSpot_trans (sameSpot_update hu1 fun _ => ⟨rfl, rfl⟩)
                  (sameSpot_update hu2 fun _ => ⟨rfl, rfl⟩)⟩

/-- Shape of the state `birth` leaves at a cell inside the grid, whatever the state: the
district of the cell is written back with its counter raised by 1, `population()` is
raised by 1, and every entity is recorded where it was or at the cell. -/
theorem birth_shape {g : GridWorld} {row col id0 id : Int} {ok : Bool} {g1 : GridWorld}
    (h : g.birth row col id0 = some (ok, id, g1)) (hb : g.inBounds row col) :
    ∃ d d1, cellAt g.grid row col = some (some d) ∧
      g1.grid = setCell g.grid row col d1 ∧ d1.pop = d.pop + 1 ∧ g1.pop = g.pop + 1 ∧
      g1.nrows = g.nrows ∧ g1.ncols = g.ncols ∧
      ∀ (i : Nat) (x1 : Person), g1.populationn[i]? = some x1 →
        (x1.row = row ∧ x1.col = col) ∨
          ∃ x, g.populationn[i]? = some x ∧ x1.row = x.row ∧ x1.col = x.col := by
  cases hcell : cellAt g.grid row col with
  | none => simp [birth, hb, hcell] at h
  | some dptr =>
    cases hobt : g.obtainPerson row col with
    | none => simp [birth, hb, hcell, hobt] at h
    | some t =>
      obtain ⟨id1, p, ps, pool⟩ := t
      cases dptr with
      | none => simp [birth, hb, hcell, hobt] at h
      | some d =>
        cases hlink : linkTail ps d p with
        | none => simp [birth, hb, hcell, hobt, hlink] at h
        | some t2 =>
          obtain ⟨ps1, d1⟩ := t2
          simp [birth, hb, hcell, hobt, hlink] at h
          obtain ⟨rfl, rfl, rfl⟩ := h
          obtain ⟨hpop, hspot⟩ := linkTail_keeps hlink
          refine ⟨d, { d1 with pop := d1.pop + 1 }, rfl, rfl, by simp [hpop], rfl, rfl, rfl,
            fun i x1 hx1 => ?_⟩
          obtain ⟨x0, hx0, hr, hc⟩ := hspot.2 i x1 hx1
          rw [hr, hc]
          rcases obtainPerson_eq_some hobt with ⟨-, -, -, rfl, -⟩ | ⟨x, -, -, -, hx, rfl⟩
          · rcases Nat.lt_or_ge i g.populationn.length with hi | hi
            · rw [List.getElem?_append_left hi] at hx0
              exact Or.inr ⟨x0, hx0, rfl, rfl⟩
            · rw [List.getElem?_append_right hi] at hx0
              have h0 : i - g.populationn.length = 0 := by
                by_contra hne
                rw [List.getElem?_eq_none (by simp; omega)] at hx0
                cases hx0
              rw [h0] at hx0
              simp only [List.getElem?_cons_zero, Option.some.injEq] at hx0
              subst hx0
              exact Or.inl ⟨rfl, rfl⟩
          · rw [getElem?_set_of_some hx] at hx0
            by_cases hip : i = p
            · rw [if_pos hip] at hx0
              cases hx0
              exact Or.inl ⟨rfl, rfl⟩
            · rw [if_neg hip] at hx0
              exact Or.inr ⟨x0, hx0, rfl, rfl⟩

/-- Shape of the state `death` leaves, whatever the state: either nothing is changed, or
the district of the cell the entity is recorded at is written back with its counter
lowered by 1, `population()` is lowered by 1, and every entity is recorded where it
was. -/
theorem death_shape {g : GridWorld} {id : Int} {ok : Bool} {g1 : GridWorld}
    (h : g.death id = some (ok, g1)) :
    g1 = g ∨ ∃ person d d1, g.populationn[id.toNat]? = some person ∧
      cellAt g.grid person.row person.col = some (some d) ∧
      g1.grid = setCell g.grid person.row person.col d1 ∧ d1.pop = d.pop - 1 ∧
      g1.pop = g.pop - 1 ∧ g1.nrows = g.nrows ∧ g1.ncols = g.ncols ∧
      SameSpot g.populationn g1.populationn := by
  by_cases hcond : 0 ≤ id ∧ id < g.populationn.length
  · cases hp : g.populationn[id.toNat]? with
    | none => simp [death, hcond, hp] at h
    | some person =>
      cases hcell : cellAt g.grid person.row person.col with
      | none => simp [death, hcond, hp, hcell] at h
      | some dptr =>
        cases dptr with
        | none => simp [death, hcond, hp, hcell] at h
        | some d =>
          cases hun : unlink g.populationn d id.toNat with
          | none => simp [death, hcond, hp, hcell, hun] at h
          | some t =>
            obtain ⟨ps1, d1⟩ := t
            cases hu : update ps1 (some id.toNat)
                (fun x => { x with alive := false, next := none, prev := none }) with
            | none => simp [death, hcond, hp, hcell, hun, hu] at h
            | some ps2 =>
              simp [death, hcond, hp, hcell, hun, hu] at h
              obtain ⟨-, rfl⟩ := h
              obtain ⟨hpop, hspot⟩ := unlink_keeps hun
              exact Or.inr ⟨person, d, { d1 with pop := d1.pop - 1 }, rfl, hcell, rfl,
                by simp [hpop], rfl, rfl, rfl,
                sameSpot_trans hspot (sameSpot_update hu fun _ => ⟨rfl, rfl⟩)⟩
  · simp only [death, hcond, if_false, Option.some.injEq, Prod.mk.injEq] at h
    exact Or.inl h.2.symm

theorem cells_congr {g g1 : GridWorld} (hr : g1.nrows = g.nrows) (hc : g1.ncols = g.ncols) :
    g1.cells = g.cells := by
  unfold cells
  rw [hr, hc]

theorem inBounds_congr {g g1 : GridWorld} (hr : g1.nrows = g.nrows)
    (hc : g1.ncols = g.ncols) (r c : Int) : g1.inBounds r c ↔ g.inBounds r c := by
  unfold inBounds
  rw [hr, hc]

/-- Writing back the district of a cell inside the grid with its counter changed by `δ`
changes the sum of the counters by `δ`. -/
theorem sum_counters_setCell {g : GridWorld} {r c : Int} (hb : g.inBounds r c)
    {d d1 : District} (hd : cellAt g.grid r c = some (some d)) {δ : Int}
    (hpop : d1.pop = d.pop + δ) :
    (g.cells.map (counterAt (setCell g.grid r c d1))).sum =
      (g.cells.map (counterAt g.grid)).sum + δ := by
  have hmem : (r, c) ∈ g.cells := mem_cells.2 hb
  refine sum_map_update (cells_nodup g) hmem ?_ ?_
  · simp [counterAt, cellAt_setCell_same hd, hd, hpop]
  · intro rc _ hne
    unfold counterAt
    rw [cellAt_setCell_ne hb.1 hb.2.2.1 hne]

/-- A state that differs from a state with `Tally` by one district written back, with
the counter of the district and `population()` changed by the same amount, has
`Tally`. -/
theorem tally_of_setCell {g g1 : GridWorld} (ht : g.Tally) {r c : Int}
    (hb : g.inBounds r c) {d d1 : District} (hd : cellAt g.grid r c = some (some d))
    {δ : Int} (hgrid : g1.grid = setCell g.grid r c d1) (hpop : d1.pop = d.pop + δ)
    (hg : g1.pop = g.pop + δ) (hr : g1.nrows = g.nrows) (hc : g1.ncols = g.ncols)
    (hrec : ∀ (i : Nat) (x : Person), g1.populationn[i]? = some x → g.inBounds x.row x.col) :
    g1.Tally := by
  refine ⟨fun i x hx => (inBounds_congr hr hc _ _).2 (hrec i x hx), ?_⟩
  rw [cells_congr hr hc, hgrid, sum_counters_setCell hb hd hpop, hg, ht.total]

theorem allCells_of_setCell {g g1 : GridWorld} (ha : g.AllCells) {r c : Int}
    {d d1 : District} (hd : cellAt g.grid r c = some (some d))
    (hgrid : g1.grid = setCell g.grid r c d1) (hr : g1.nrows = g.nrows)
    (hc : g1.ncols = g.ncols) : g1.AllCells := by
  intro r1 c1 hb1
  have hnn := cellAt_nonneg hd
  rw [hgrid]
  by_cases hrc : (r1, c1) = (r, c)
  · cases hrc
    exact ⟨d1, cellAt_setCell_same hd d1⟩
  · rw [cellAt_setCell_ne hnn.1 hnn.2 hrc]
    exact ha r1 c1 ((inBounds_congr hr hc _ _).1 hb1)

theorem birth_out_of_bounds {g : GridWorld} {row col id0 id : Int} {ok : Bool}
    {g1 : GridWorld} (h : g.birth row col id0 = some (ok, id, g1))
    (hb : ¬ g.inBounds row col) : g1 = g := by
  simp only [birth, hb, if_false, Option.some.injEq, Prod.mk.injEq] at h
  exact h.2.2.symm

/-- Method `birth` keeps `Tally` and keeps every cell with its district, whatever its
arguments. -/
theorem birth_tally {g : GridWorld} {row col id0 id : Int} {ok : Bool} {g1 : GridWorld}
    (h : g.birth row col id0 = some (ok, id, g1)) :
    (g.Tally → g1.Tally) ∧ (g.AllCells → g1.AllCells) := by
  by_cases hb : g.inBounds row col
  · obtain ⟨d, d1, hd, hgrid, hpop, hg, hr, hc, hrec⟩ := birth_shape h hb
    refine ⟨fun ht => tally_of_setCell ht hb hd hgrid hpop hg hr hc fun i x hx => ?_,
      fun ha => allCells_of_setCell ha hd hgrid hr hc⟩
    rcases hrec i x hx with ⟨e1, e2⟩ | ⟨y, hy, e1, e2⟩
    · rw [e1, e2]; exact hb
    · rw [e1, e2]; exact ht.recorded i y hy
  · rw [birth_out_of_bounds h hb]
    exact ⟨fun ht => ht, fun hall => hall⟩

/-- Method `death` keeps `Tally` and keeps every cell with its district, whatever its
argument. -/
theorem death_tally {g : GridWorld} {id : Int} {ok : Bool} {g1 : GridWorld}
    (h : g.death id = some (ok, g1)) :
    (g.Tally → g1.Tally) ∧ (g.AllCells → g1.AllCells) := by
  rcases death_shape h with rfl | ⟨person, d, d1, hp, hd, hgrid, hpop, hg, hr, hc, hspot⟩
  · exact ⟨fun ht => ht, fun hall => hall⟩
  · refine ⟨fun ht => tally_of_setCell ht (ht.recorded _ _ hp) hd hgrid
      (by rw [hpop]; rfl) (by rw [hg]; rfl) hr hc fun i x hx => ?_,
      fun ha => allCells_of_setCell ha hd hgrid hr hc⟩
    obtain ⟨y, hy, e1, e2⟩ := hspot.2 i x hx
    rw [e1, e2]
    exact ht.recorded i y hy

/-- Method `move` keeps `Tally` and keeps every cell with its district, whatever its
arguments. -/
theorem move_tally {g : GridWorld} {id row col : Int} {ok : Bool} {g1 : GridWorld}
    (h : g.move id row col = some (ok, g1)) :
    (g.Tally → g1.Tally) ∧ (g.AllCells → g1.AllCells) := by
  by_cases hb : g.inBounds row col
  · by_cases h0 : 0 ≤ id
    · cases hp : g.populationn[id.toNat]? with
      | none => simp [move, hb, h0, hp] at h
      | some person =>
        by_cases ha : person.alive = true
        · cases hd : g.death id with
          | none => simp [move, hb, h0, hp, ha, hd] at h
          | some t =>
            obtain ⟨ok1, ga⟩ := t
            cases hbi : ga.birth row col id with
            | none => simp [move, hb, h0, hp, ha, hd, hbi] at h
            | some t2 =>
              obtain ⟨ok2, id2, gb⟩ := t2
              simp [move, hb, h0, hp, ha, hd, hbi] at h
              obtain ⟨-, rfl⟩ := h
              exact ⟨fun ht => (birth_tally hbi).1 ((death_tally hd).1 ht),
                fun hall => (birth_tally hbi).2 ((death_tally hd).2 hall)⟩
        · simp [move, hb, h0, hp, ha] at h
          obtain ⟨-, rfl⟩ := h
          exact ⟨fun ht => ht, fun hall => hall⟩
    · simp [move, hb, h0] at h
  · simp [move, hb] at h
    obtain ⟨-, rfl⟩ := h
    exact ⟨fun ht => ht, fun hall => hall⟩

theorem run_tally : ∀ (cs : List Call) {g g1 : GridWorld}, run g cs = some g1 →
    (g.Tally → g1.Tally) ∧ (g.AllCells → g1.AllCells)
  | [], g, g1, h => by
    simp only [run, Option.some.injEq] at h
    subst h
    exact ⟨fun ht => ht, fun hall => hall⟩
  | c :: cs, g, g1, h => by
    simp only [run, Option.bind_eq_some] at h
    obtain ⟨g2, hstep, hrun⟩ := h
    have ih := run_tally cs hrun
    have hs : (g.Tally → g2.Tally) ∧ (g.AllCells → g2.AllCells) := by
      cases c with
      | birth row col id =>
        simp only [step, Option.map_eq_some'] at hstep
        obtain ⟨⟨ok, id1, g3⟩, hb, rfl⟩ := hstep
        exact birth_tally hb
      | death personID =>
        simp only [step, Option.map_eq_some'] at hstep
        obtain ⟨⟨ok, g3⟩, hd, rfl⟩ := hstep
        exact death_tally hd
      | move id row col =>
        simp only [step, Option.map_eq_some'] at hstep
        obtain ⟨⟨ok, g3⟩, hm, rfl⟩ := hstep
        exact move_tally hm
    exact ⟨fun ht => ih.1 (hs.1 ht), fun ha => ih.2 (hs.2 ha)⟩

/-- The state the constructor returns has `Tally`: no entity, and every counter 0. -/
theorem construct_tally {nrows ncols : Nat} {g : GridWorld}
    (h : construct nrows ncols = some g) : g.Tally := by
  have hle : nrows ≤ ncols := by
    by_contra hgt
    rw [construct_tall (Nat.lt_of_not_le hgt)] at h
    cases h
  obtain ⟨g0, hcon, hr, hc, hpop, hps, -, hcells⟩ := construct_of_le hle
  rw [h] at hcon
  cases hcon
  refine ⟨fun i x hx => by simp [hps] at hx, ?_⟩
  rw [hpop]
  symm
  apply List.sum_eq_zero
  intro v hv
  obtain ⟨⟨r, c⟩, hrc, rfl⟩ := List.mem_map.1 hv
  obtain ⟨h1, h2, h3, h4⟩ := mem_cells.1 hrc
  simp only at h1 h2 h3 h4
  rw [hr] at h2
  rw [hc] at h4
  have := hcells r.toNat c.toNat (by omega) (by omega)
  rw [Int.toNat_of_nonneg h1, Int.toNat_of_nonneg h3] at this
  unfold counterAt
  rw [this]
  by_cases hcn : c.toNat < nrows
  · rw [if_pos hcn]
  · rw [if_neg hcn]

/-- In every state reachable from the constructor, `population()` is the sum of the
counters of the districts of the cells inside the grid. -/
theorem reachable_tally {g : GridWorld} (h : Reachable g) : g.Tally := by
  obtain ⟨nrows, ncols, g0, cs, hcon, hrun⟩ := h
  exact (run_tally cs hrun).1 (construct_tally hcon)

/-- The sum of `population(r, c)` over the cells inside the grid when each of them has a
district. -/
theorem cellPopulationSum_of_allCells {g : GridWorld} (ha : g.AllCells) :
    g.cellPopulationSum = some (g.cells.map (counterAt g.grid)).sum := by
  refine sumOver_of_forall fun rc hrc => ?_
  have hb := mem_cells.1 hrc
  obtain ⟨d, hd⟩ := ha rc.1 rc.2 hb
  simp [populationAt, hb, hd, counterAt]

/-- In every reachable state in which every cell inside the grid has a district,
`population()` is the sum of `population(r, c)` over the cells inside the grid. -/
theorem population_sum_of_reachable {g : GridWorld} (h : Reachable g) (ha : g.AllCells) :
    g.cellPopulationSum = some g.population := by
  rw [cellPopulationSum_of_allCells ha, ← (reachable_tally h).total]
  rfl

/-- In every state reachable from a square grid, `population()` is the sum of
`population(r, c)` over the cells inside the grid. -/
theorem population_sum_on_square {n : Nat} {g0 g : GridWorld} {cs : List Call}
    (hcon : construct n n = some g0) (hrun : run g0 cs = some g) :
    g.cellPopulationSum = some g.population := by
  obtain ⟨g1, hcon1, hc, -⟩ := construct_square n
  rw [hcon] at hcon1
  cases hcon1
  have ha0 : g0.AllCells := fun r c hb => by
    obtain ⟨d, l, hd, -⟩ := hc.cells r c hb
    exact ⟨d, hd⟩
  exact population_sum_of_reachable ⟨n, n, g0, cs, hcon, hrun⟩ ((run_tally cs hrun).2 ha0)

/-! ## The budget of `members` -/

/-- On a consistent state `members` returns at every cell inside the grid, and
`population` of the cell is the length of the sequence it returns. -/
theorem counter_matches_members {g : GridWorld} (hc : g.Consistent) {r c : Int}
    (hb : g.inBounds r c) :
    ∃ m : List Int, g.members r c = some m ∧ g.populationAt r c = some (m.length : Int) := by
  obtain ⟨d, l, hd, hl⟩ := hc.cells r c hb
  refine ⟨l.map Int.ofNat, members_of_cellOK hc hb hd hl, ?_⟩
  rw [populationAt_of_cell hb hd, hl.pop_eq]
  simp

/-- A traversal that returns with some budget returns the same with every larger one. -/
theorem walk_mono {ps : List Person} :
    ∀ {n m : Nat} {p : Option Nat} {l : List Int}, walk ps n p = some l → n ≤ m →
      walk ps m p = some l
  | n, m, none, l, h, _ => by
    cases n <;> cases m <;> simpa [walk] using h
  | 0, _, some i, l, h, _ => by simp [walk] at h
  | n + 1, 0, some i, l, _, hm => by omega
  | n + 1, m + 1, some i, l, h, hm => by
    simp only [walk] at h ⊢
    cases hx : ps[i]? with
    | none => simp [hx] at h
    | some x =>
      simp only [hx] at h ⊢
      obtain ⟨l1, hl1, rfl⟩ := Option.map_eq_some'.1 h
      rw [walk_mono hl1 (Nat.le_of_succ_le_succ hm)]
      rfl

/-- The result of a traversal does not depend on the budget. -/
theorem walk_det {ps : List Person} {n m : Nat} {p : Option Nat} {l l1 : List Int}
    (h : walk ps n p = some l) (h1 : walk ps m p = some l1) : l = l1 := by
  have a := walk_mono h (Nat.le_max_left n m)
  have b := walk_mono h1 (Nat.le_max_right n m)
  rw [a] at b
  exact Option.some.inj b

/-- The slots a returning traversal visits are pairwise different: from each of them the
rest of the traversal is shorter than from the ones before. -/
theorem walk_trail {ps : List Person} :
    ∀ {n : Nat} {p : Option Nat} {l : List Int}, walk ps n p = some l →
      ∃ t : List Nat, t.length = l.length ∧ t.Nodup ∧ (∀ i ∈ t, i < ps.length) ∧
        (∀ i ∈ t, ∃ k li, walk ps k (some i) = some li ∧ li.length ≤ l.length) ∧
        walk ps t.length p = some l
  | n, none, l, h => by
    have : l = [] := by cases n <;> simpa [walk] using h.symm
    subst this
    exact ⟨[], rfl, List.nodup_nil, by simp, by simp, rfl⟩
  | 0, some i, l, h => by simp [walk] at h
  | n + 1, some i, l, h => by
    have h0 := h
    simp only [walk] at h
    cases hx : ps[i]? with
    | none => simp [hx] at h
    | some x =>
      simp only [hx] at h
      obtain ⟨l1, hl1, rfl⟩ := Option.map_eq_some'.1 h
      obtain ⟨t, hlen, hnd, hlt, hsub, htight⟩ := walk_trail hl1
      refine ⟨i :: t, by simp [hlen], List.nodup_cons.2 ⟨?_, hnd⟩, ?_, ?_, ?_⟩
      · intro hi
        obtain ⟨k, li, hk, hle⟩ := hsub i hi
        have := walk_det hk h0
        subst this
        simp at hle
      · intro j hj
        rcases List.mem_cons.1 hj with rfl | hj
        · exact (List.getElem?_eq_some_iff.1 hx).1
        · exact hlt j hj
      · intro j hj
        rcases List.mem_cons.1 hj with rfl | hj
        · exact ⟨n + 1, _, h0, le_refl _⟩
        · obtain ⟨k, li, hk, hle⟩ := hsub j hj
          exact ⟨k, li, hk, by simp; omega⟩
      · simp only [List.length_cons, walk, hx, htight]
        rfl

/-- The budget `members` gives its traversal, the size of the table, is enough whenever
any budget is: a traversal that does not return with it does not return at all. -/
theorem walk_budget_enough {ps : List Person} {n : Nat} {p : Option Nat} {l : List Int}
    (h : walk ps n p = some l) : walk ps ps.length p = some l := by
  obtain ⟨t, -, hnd, hlt, -, htight⟩ := walk_trail h
  have hsub : t ⊆ List.range ps.length := fun i hi => List.mem_range.2 (hlt i hi)
  have hle : t.length ≤ ps.length := by
    simpa using (List.subperm_of_subset hnd hsub).length_le
  exact walk_mono htight hle

/-! ## Traversals that do not end -/

/-- A traversal that starts at an object whose `next` is the object itself never ends:
no budget is enough. -/
theorem walk_self_loop {ps : List Person} {i : Nat} {x : Person} (hx : ps[i]? = some x)
    (hn : x.next = some i) : ∀ n, walk ps n (some i) = none
  | 0 => rfl
  | n + 1 => by
    simp only [walk, hx, hn]
    rw [walk_self_loop hx hn n]
    rfl

/-! ## Where the code departs from the claims -/

/-- Claim C1 fails on the code: on the 2x2 grid, after `birth(0, 0)`, `birth(1, 1)`,
`death(0)` the identifier 1 is alive at `(1, 1)` and the pool holds 0.  The call
`move(1, 0, 0)` returns `true` and takes 1 out of `members(1, 1)`, but `death` puts 1
behind 0 in the pool and `birth` takes 0 from its front: afterwards `whereis(1)` fails,
identifier 1 is dead, identifier 0 has become alive, and `members(0, 0)` is `[0]`. -/
theorem move_reassigns_identifier :
    ∃ g g1 : GridWorld, Reachable g ∧ g.inBounds 0 0 ∧ g.AliveAt 1 ∧ ¬ g.AliveAt 0 ∧
      g.recentlyDead = [0] ∧
      g.whereis 1 (-1) (-1) = some (true, 1, 1) ∧
      g.move 1 0 0 = some (true, g1) ∧
      g1.whereis 1 (-1) (-1) = some (false, -1, -1) ∧
      g1.members 0 0 = some [0] ∧ g1.members 1 1 = some [] ∧
      ¬ g1.AliveAt 1 ∧ g1.AliveAt 0 :=
  ⟨{ ncols := 2, nrows := 2, pop := 1,
     grid := [[some ⟨0, 0, 0, none, none⟩, some ⟨0, 1, 0, none, none⟩],
              [some ⟨1, 0, 0, none, none⟩, some ⟨1, 1, 1, some 1, some 1⟩]],
     populationn := [⟨0, 0, 0, false, none, none⟩, ⟨1, 1, 1, true, none, none⟩],
     recentlyDead := [0] }, _,
   ⟨2, 2, _, [.birth 0 0 0, .birth 1 1 0, .death 0], rfl, rfl⟩,
   by decide, by decide, by decide, rfl, rfl, rfl, rfl, rfl, rfl, by decide, by decide⟩

/-- Claim C2 fails on the code at its last step: the scenario runs as described up to
`death(id0)`, with `id0 = 0`, `id1 = 1`, `id2 = 2`; then `move(id2, 0, 0)` returns `true`
and empties `(1, 1)`, but `members(0, 0)` is `[1, 0]`, not `[1, 2]`, and `whereis(id2)`
fails. -/
theorem scenario_move_loses_identifier :
    ∃ g0 g1 g2 g3 g4 g5 : GridWorld,
      construct 2 2 = some g0 ∧
      g0.birth 0 0 (-1) = some (true, 0, g1) ∧
      g1.birth 0 0 (-1) = some (true, 1, g2) ∧
      g2.birth 1 1 (-1) = some (true, 2, g3) ∧
      g3.population = 3 ∧ g3.members 0 0 = some [0, 1] ∧ g3.members 1 1 = some [2] ∧
      g3.death 0 = some (true, g4) ∧
      g4.members 0 0 = some [1] ∧ g4.population = 2 ∧
      g4.move 2 0 0 = some (true, g5) ∧
      g5.members 1 1 = some [] ∧
      g5.members 0 0 = some [1, 0] ∧
      g5.whereis 2 (-1) (-1) = some (false, -1, -1) :=
  ⟨_, _, _, _, _, _, rfl, rfl, rfl, rfl, rfl, rfl, rfl, rfl, rfl, rfl, rfl, rfl, rfl, rfl⟩

/-- Method `death` rejects an identifier outside the table and leaves the state as it
was. -/
theorem death_rejects_outside_table (g : GridWorld) (id : Int)
    (h : id < 0 ∨ (g.populationn.length : Int) ≤ id) : g.death id = some (false, g) := by
  have : ¬ (0 ≤ id ∧ id < g.populationn.length) := by omega
  simp [death, this]

/-- Claim C3 fails on the code for a dead entity: on the 1x1 grid after `birth` and
`death(0)`, identifier 0 is in the table and not alive, yet a second `death(0)` returns
`true`, lowers `population()` to -1, lowers the counter of the cell to -1 and puts 0
into the pool a second time. -/
theorem death_accepts_dead_identifier :
    ∃ g g1 : GridWorld, Reachable g ∧ ¬ g.AliveAt 0 ∧ g.populationn.length = 1 ∧
      g.population = 0 ∧ g.recentlyDead = [0] ∧
      g.death 0 = some (true, g1) ∧ g1 ≠ g ∧
      g1.population = -1 ∧ g1.populationAt 0 0 = some (-1) ∧ g1.recentlyDead = [0, 0] :=
  ⟨{ ncols := 1, nrows := 1, pop := 0,
     grid := [[some ⟨0, 0, 0, none, none⟩]],
     populationn := [⟨0, 0, 0, false, none, none⟩],
     recentlyDead := [0] }, _,
   ⟨1, 1, _, [.birth 0 0 0, .death 0], rfl, rfl⟩,
   by decide, rfl, rfl, rfl, rfl, by decide, rfl, rfl, rfl⟩

/-- Claim C4 fails on the code: on the 1x1 grid, after `birth`, `birth`, `death(0)`,
`death(0)` the entity 1 is alive and recorded at `(0, 0)`, but the list of that cell, the
only cell, is empty. -/
theorem membership_lost_after_repeated_death :
    ∃ g : GridWorld, Reachable g ∧ g.inBounds 0 0 ∧ g.RecordedAt 1 0 0 ∧
      g.whereis 1 (-1) (-1) = some (true, 0, 0) ∧
      g.members 0 0 = some [] :=
  ⟨{ ncols := 1, nrows := 1, pop := 0,
     grid := [[some ⟨0, 0, 0, none, none⟩]],
     populationn := [⟨0, 0, 0, false, none, none⟩, ⟨1, 0, 0, true, none, none⟩],
     recentlyDead := [0, 0] },
   ⟨1, 1, _, [.birth 0 0 0, .birth 0 0 0, .death 0, .death 0], rfl, rfl⟩,
   by decide, ⟨_, rfl, rfl, rfl, rfl⟩, rfl, rfl⟩

/-- Claim C5 fails on the code: on the 1x1 grid, after `birth`, `death(0)`, `death(0)`,
`birth` the identifier 0 is alive and the pool still holds 0; the next `birth(0, 0)`
returns `true` with identifier 0 again. -/
theorem birth_reissues_live_identifier :
    ∃ g g1 : GridWorld, Reachable g ∧ g.inBounds 0 0 ∧ g.AliveAt 0 ∧
      g.whereis 0 (-1) (-1) = some (true, 0, 0) ∧
      g.birth 0 0 (-1) = some (true, 0, g1) :=
  ⟨{ ncols := 1, nrows := 1, pop := 0,
     grid := [[some ⟨0, 0, 0, some 0, some 0⟩]],
     populationn := [⟨0, 0, 0, true, none, none⟩],
     recentlyDead := [0] }, _,
   ⟨1, 1, _, [.birth 0 0 0, .death 0, .death 0, .birth 0 0 0], rfl, rfl⟩,
   by decide, by decide, rfl, rfl⟩

/-- Claim C6 fails on the code: the constructor of a 1x2 grid allocates the district of
`(0, 0)` only, and `birth(0, 1)`, whose cell is inside the bounds, dereferences the null
district pointer instead of returning an identifier. -/
theorem birth_faults_on_unallocated_cell :
    ∃ g : GridWorld, construct 1 2 = some g ∧ Reachable g ∧
      g.num_rows = 1 ∧ g.num_cols = 2 ∧ g.inBounds 0 1 ∧
      cellAt g.grid 0 1 = some none ∧ g.recentlyDead = [] ∧
      g.birth 0 1 (-1) = none :=
  ⟨_, rfl, ⟨1, 2, _, [], rfl, rfl⟩, rfl, rfl, by decide, rfl, rfl, rfl⟩

/-- Claim C11 fails on the code at the identifier equal to the size of the table: on the
1x1 grid holding the entities 0, 1, 2 the call `whereis(3)` passes the guard
`id <= populationn.size()` and reads `populationn[3]`, one past the end of the table; on a
grid that holds no entity `whereis(0)` does the same.  At identifiers below the size the
call answers as claimed. -/
theorem whereis_reads_past_table :
    Reachable trio ∧ trio.populationn.length = 3 ∧
    trio.whereis 3 (-1) (-1) = none ∧
    trio.whereis 1 (-1) (-1) = some (true, 0, 0) ∧
    trio.whereis (-4) (-1) (-1) = some (false, -1, -1) ∧
    Reachable oneCell ∧ oneCell.populationn.length = 0 ∧
    oneCell.whereis 0 (-1) (-1) = none :=
  ⟨⟨1, 1, _, [.birth 0 0 0, .birth 0 0 0, .birth 0 0 0], rfl, rfl⟩, rfl, rfl, rfl, rfl,
    ⟨1, 1, _, [], rfl, rfl⟩, rfl, rfl⟩

/-- Claim C12 fails on the code for identifiers that were never issued: on the 1x1 grid
holding the entities 0, 1, 2, with the target `(0, 0)` inside the grid, `move(3, 0, 0)`,
`move(7, 0, 0)` and `move(-1, 0, 0)` read `populationn[id]` outside the table instead of
returning `false`. -/
theorem move_reads_outside_table :
    Reachable trio ∧ trio.inBounds 0 0 ∧ trio.populationn.length = 3 ∧
    trio.move 3 0 0 = none ∧ trio.move 7 0 0 = none ∧ trio.move (-1) 0 0 = none :=
  ⟨⟨1, 1, _, [.birth 0 0 0, .birth 0 0 0, .birth 0 0 0], rfl, rfl⟩, by decide, rfl, rfl,
    rfl, rfl⟩

/-- Claim C14 fails on the code for grids that are not square: the inner loop of the
constructor runs over `nrows` columns.  `GridWorld(2, 1)` writes `grid[0][1]`, outside the
row vector; `GridWorld(1, 2)` has the dimensions 1 and 2 and `population() = 0`, but the
cell `(0, 1)` holds no district, and `population(0, 1)`, `members(0, 1)` and
`birth(0, 1)` dereference the null pointer. -/
theorem constructor_mishandles_non_square :
    construct 2 1 = none ∧
    ∃ g : GridWorld, construct 1 2 = some g ∧ g.num_rows = 1 ∧ g.num_cols = 2 ∧
      g.population = 0 ∧ g.inBounds 0 1 ∧
      g.populationAt 0 0 = some 0 ∧ g.members 0 0 = some [] ∧
      cellAt g.grid 0 1 = some none ∧
      g.populationAt 0 1 = none ∧ g.members 0 1 = none ∧ g.birth 0 1 (-1) = none :=
  ⟨rfl, _, rfl, rfl, rfl, rfl, by decide, rfl, rfl, rfl, rfl, rfl, rfl⟩

/-- Claim C15 fails on the code on a grid that is not square: the constructor of a 1x2
grid leaves the cell `(0, 1)` without a district, so `population(0, 1)` dereferences a
null pointer and the sum of `population(r, c)` over the cells inside the grid has no
value to compare `population()` with. -/
theorem population_sum_undefined_on_wide_grid :
    ∃ g : GridWorld, construct 1 2 = some g ∧ Reachable g ∧ g.population = 0 ∧
      g.cells = [(0, 0), (0, 1)] ∧ g.populationAt 0 0 = some 0 ∧
      g.populationAt 0 1 = none ∧ g.cellPopulationSum = none :=
  ⟨_, rfl, ⟨1, 2, _, [], rfl, rfl⟩, rfl, rfl, rfl, rfl, rfl⟩

/-- Claim C17 fails on the code: on the 1x1 grid, after `birth(0, 0)`, `death(0)`,
`death(0)` the cell `(0, 0)` has `population(0, 0) = -1`, which is negative and is not
the length of `members(0, 0)`, the empty sequence. -/
theorem cell_counter_negative_after_repeated_death :
    ∃ g : GridWorld, Reachable g ∧ g.inBounds 0 0 ∧
      g.populationAt 0 0 = some (-1) ∧ g.members 0 0 = some [] ∧ g.population = -1 :=
  ⟨{ ncols := 1, nrows := 1, pop := -1,
     grid := [[some ⟨0, 0, -1, none, none⟩]],
     populationn := [⟨0, 0, 0, false, none, none⟩],
     recentlyDead := [0, 0] },
   ⟨1, 1, _, [.birth 0 0 0, .death 0, .death 0], rfl, rfl⟩, by decide, rfl, rfl, rfl⟩

/-- Claim C18 fails on the code: on the 1x1 grid, after `birth(0, 0)`, `death(0)`,
`death(0)`, `birth(0, 0)`, `birth(0, 0)` the head of the cell `(0, 0)` is the object in
slot 0 and the `next` link of that object is the object itself, so the chain is cyclic;
the traversal of `members(0, 0)` does not reach the end of the list, whatever the number
of steps it is given. -/
theorem members_loops_on_self_linked_entity :
    Reachable selfLinked ∧ selfLinked.inBounds 0 0 ∧
    cellAt selfLinked.grid 0 0 = some (some ⟨0, 0, 1, some 0, some 0⟩) ∧
    selfLinked.populationn[0]? = some ⟨0, 0, 0, true, some 0, some 0⟩ ∧
    (∀ n, walk selfLinked.populationn n (some 0) = none) ∧
    selfLinked.members 0 0 = none :=
  ⟨⟨1, 1, _, [.birth 0 0 0, .death 0, .death 0, .birth 0 0 0, .birth 0 0 0], rfl, rfl⟩,
    by decide, rfl, rfl, @walk_self_loop _ 0 _ rfl rfl, rfl⟩

end GridWorld
